import Mathlib

/-!
# Verification model of the voro++ 2D container (container_2d.cc)

A shallow embedding of the particle-storage layer of the 2D Voronoi container:
grid geometry and coordinate remapping (`put_remap`, `remap`), per-block dynamic
storage with doubling growth (`add_particle_memory`), serial insertion (`put`),
parallel insertion with an overflow buffer (`put_parallel`), overflow
reconciliation (`put_reconcile_overflow`), clearing (`clear`), and point
location (`find_voronoi_cell`).

Coordinates are modelled with exact rationals.  Machine `double` arithmetic is
replaced by exact field arithmetic; `int` indices are modelled with `ℤ`/`ℕ`.
Fatal out-of-memory aborts are modelled with `Option` (`none` = abort).
Parallel execution is modelled as an arbitrary serialization (interleaving) of
the individual `put_parallel` calls; the per-block `co` fetch-and-add and the
critical-section overflow append are serialized in that order.
-/

namespace Voro

/-- The hard ceiling on per-block capacity, `max_particle_memory` in the
source configuration (value 2^24, matching `maxparticlemem` in constants.hh). -/
def max_particle_memory : ℕ := 16777216

/-- Geometry parameters of a container: domain bounds, grid size, periodicity
flags (the immutable part of `container_base_2d`). -/
structure Params where
  ax : ℚ
  bx : ℚ
  ay : ℚ
  by' : ℚ
  nx : ℕ
  ny : ℕ
  x_prd : Bool
  y_prd : Bool
deriving DecidableEq

namespace Params

/-- Block edge length in x: `boxx=(bx-ax)/nx`. -/
def boxx (p : Params) : ℚ := (p.bx - p.ax) / p.nx

/-- Block edge length in y: `boxy=(by-ay)/ny`. -/
def boxy (p : Params) : ℚ := (p.by' - p.ay) / p.ny

/-- Inverse block edge length in x: `xsp=1/boxx`. -/
def xsp (p : Params) : ℚ := 1 / p.boxx

/-- Inverse block edge length in y: `ysp=1/boxy`. -/
def ysp (p : Params) : ℚ := 1 / p.boxy

/-- Total number of blocks `nxy=nx*ny`. -/
def nxy (p : Params) : ℕ := p.nx * p.ny

/-- Well-formedness of the construction parameters (the documented
preconditions `bx>ax`, `by>ay`, `nx≥1`, `ny≥1`). -/
def WF (p : Params) : Prop := p.ax < p.bx ∧ p.ay < p.by' ∧ 1 ≤ p.nx ∧ 1 ≤ p.ny

instance : DecidablePred Params.WF := fun p => by unfold Params.WF; infer_instance

end Params

/-- Modelled from the spec: the integer-floor helper `step_int` of
`voro_base_2d` (not under src/); the spec specifies `i = floor((x-ax)*xsp)`. -/
def step_int (q : ℚ) : ℤ := ⌊q⌋

/-- Modelled from the spec: the true-modulo helper `step_mod` of `voro_base_2d`
(not under src/); the spec specifies `i mod nx` as a true modulo, always in
`[0,nx)`.  For a positive modulus, `Int.emod` is exactly that. -/
def step_mod (a b : ℤ) : ℤ := a % b

/-- Modelled from the spec: the floor-division helper `step_div` of
`voro_base_2d` (not under src/); the spec requires division that behaves
correctly for negative quotients, consistent with `step_mod`
(`a = b * step_div a b + step_mod a b`). -/
def step_div (a b : ℤ) : ℤ := a / b

/-- Result of `put_remap`: the block index and the (possibly remapped)
particle position. -/
structure PutRemapOut where
  ij : ℤ
  x : ℚ
  y : ℚ
deriving DecidableEq

/-- `container_base_2d::put_remap`: computes the region index for a particle
position, remapping the position into the primary domain on periodic axes and
rejecting (returning `none`, the C++ `false`) when a non-periodic axis index is
out of range. -/
def put_remap (p : Params) (x y : ℚ) : Option PutRemapOut :=
  let i := step_int ((x - p.ax) * p.xsp)
  let step1 : Option (ℤ × ℚ) :=
    if p.x_prd then
      let l := step_mod i p.nx
      some (l, x + p.boxx * (l - i))
    else if i < 0 ∨ (p.nx : ℤ) ≤ i then none
    else some (i, x)
  match step1 with
  | none => none
  | some (i', x') =>
    let j := step_int ((y - p.ay) * p.ysp)
    let step2 : Option (ℤ × ℚ) :=
      if p.y_prd then
        let l := step_mod j p.ny
        some (l, y + p.boxy * (l - j))
      else if j < 0 ∨ (p.ny : ℤ) ≤ j then none
      else some (j, y)
    match step2 with
    | none => none
    | some (j', y') => some ⟨i' + p.nx * j', x', y'⟩

/-- Result of `container_base_2d::remap`: the periodic image displacement
`(ai,aj)`, the block coordinates `(ci,cj)`, the remapped position and the
block index. -/
structure RemapOut where
  ai : ℤ
  aj : ℤ
  ci : ℤ
  cj : ℤ
  x : ℚ
  y : ℚ
  ij : ℤ
deriving DecidableEq

/-- `container_base_2d::remap`: remaps a position vector into the primary
domain, additionally returning the periodic image displacement `(ai,aj)`. -/
def remap (p : Params) (x y : ℚ) : Option RemapOut :=
  let ci := step_int ((x - p.ax) * p.xsp)
  let stepx : Option (ℤ × ℤ × ℚ) :=
    if ci < 0 ∨ (p.nx : ℤ) ≤ ci then
      if p.x_prd then
        let ai := step_div ci p.nx
        some (ai, ci - ai * p.nx, x - ai * (p.bx - p.ax))
      else none
    else some (0, ci, x)
  match stepx with
  | none => none
  | some (ai, ci', x') =>
    let cj := step_int ((y - p.ay) * p.ysp)
    let stepy : Option (ℤ × ℤ × ℚ) :=
      if cj < 0 ∨ (p.ny : ℤ) ≤ cj then
        if p.y_prd then
          let aj := step_div cj p.ny
          some (aj, cj - aj * p.ny, y - aj * (p.by' - p.ay))
        else none
      else some (0, cj, y)
    match stepy with
    | none => none
    | some (aj, cj', y') => some ⟨ai, aj, ci', cj', x', y', ci' + p.nx * cj'⟩

/-- The doubling loop of the growth policy: repeatedly double `mem` until the
result is at least `target` (the source form `nmem=2*mem; while(m>=nmem)
nmem=2*nmem;` is `growMem (2*mem) (m+1)`).  Guarded against `mem = 0`, which
never occurs in the code (`init_mem ≥ 1`). -/
def growMem (mem target : ℕ) : ℕ :=
  if _h0 : mem = 0 then 0
  else if _h1 : target ≤ mem then mem
  else growMem (2 * mem) target
termination_by target - mem
decreasing_by
  simp only [not_le] at _h1
  omega

/-- Pad a list with default elements up to length `n` (models freshly
allocated, uninitialized array slots as the default element). -/
def padTo {E : Type} [Inhabited E] (n : ℕ) (l : List E) : List E :=
  l ++ List.replicate (n - l.length) default

/-- One storage block: particle count `co[b]`, capacity `mem[b]`, and the
combined `id[b]`/`p[b]` arrays as a single list of entries of length
`mem[b]`. -/
structure Blk (E : Type) where
  co : ℕ
  mem : ℕ
  arr : List E
deriving DecidableEq

instance {E : Type} : Inhabited (Blk E) := ⟨⟨0, 0, []⟩⟩

/-- The mutable particle-storage state shared by `container_2d` and
`container_poly_2d`: the blocks, and the overflow buffer as a list of
`(block, slot, entry)` records (`ijk_m_id_overflow` together with
`p_overflow`; `overflowPtCt` is its length, and the buffer capacity
`overflow_mem_numPt` is not observable). -/
structure CoreState (E : Type) where
  blocks : List (Blk E)
  overflow : List (ℕ × ℕ × E)
deriving DecidableEq

/-- The freshly constructed storage state: every block has `co=0`,
`mem=init_mem`, and an uninitialized array of length `init_mem`. -/
def initState (E : Type) [Inhabited E] (nxy init_mem : ℕ) : CoreState E :=
  { blocks := List.replicate nxy ⟨0, init_mem, List.replicate init_mem default⟩
    overflow := [] }

variable {E : Type} [Inhabited E]

/-- `container_base_2d::add_particle_memory`: double the capacity of a block,
abort (`none`) if the new capacity exceeds `max_particle_memory`, and copy the
first `co` entries to the same slot indices. -/
def add_particle_memory (b : Blk E) : Option (Blk E) :=
  let nmem := 2 * b.mem
  if max_particle_memory < nmem then none
  else some { b with mem := nmem, arr := padTo nmem (b.arr.take b.co) }

/-- Serial insertion of a located particle (`container_2d::put` /
`container_poly_2d::put` together with `put_locate_block`): if `put_remap`
rejected (`loc = none`) nothing happens; otherwise grow the block if
`co[b]=mem[b]`, then write the entry at slot `co[b]` and increment `co[b]`. -/
def serialPut (s : CoreState E) (loc : Option (ℕ × E)) : Option (CoreState E) :=
  match loc with
  | none => some s
  | some (ij, e) =>
    let b := s.blocks.getD ij default
    let grown : Option (Blk E) := if b.co = b.mem then add_particle_memory b else some b
    grown.map fun b' =>
      { s with blocks :=
          s.blocks.set ij { b' with arr := b'.arr.set b'.co e, co := b'.co + 1 } }

/-- One parallel insertion (`container_2d::put_parallel` /
`container_poly_2d::put_parallel`), as one step of the serialized
interleaving: reserve slot `m = co[b]` (the atomic fetch-add) and increment
`co[b]`; if `m < mem[b]` write the entry directly at slot `m`, otherwise
append `(b, m, entry)` to the overflow buffer. -/
def parallelPut (s : CoreState E) (loc : Option (ℕ × E)) : CoreState E :=
  match loc with
  | none => s
  | some (ij, e) =>
    let b := s.blocks.getD ij default
    let m := b.co
    if m < b.mem then
      { s with blocks := s.blocks.set ij { b with co := m + 1, arr := b.arr.set m e } }
    else
      { s with blocks := s.blocks.set ij { b with co := m + 1 }
               overflow := s.overflow ++ [(ij, m, e)] }

/-- Processing of a single overflow record inside
`put_reconcile_overflow`: if the recorded slot `m` is at or beyond the current
capacity, compute the new capacity by the doubling loop, abort if it exceeds
`max_particle_memory`, grow the block copying the first `mem[b]` entries;
then write the entry at slot `m`. -/
def reconcileRecord (s : CoreState E) (r : ℕ × ℕ × E) : Option (CoreState E) :=
  let ij := r.1
  let m := r.2.1
  let e := r.2.2
  let b := s.blocks.getD ij default
  let grown : Option (Blk E) :=
    if b.mem ≤ m then
      let nmem := growMem (2 * b.mem) (m + 1)
      if max_particle_memory < nmem then none
      else some { b with mem := nmem, arr := padTo nmem (b.arr.take b.mem) }
    else some b
  grown.map fun b' =>
    { s with blocks := s.blocks.set ij { b' with arr := b'.arr.set m e } }

/-- `put_reconcile_overflow` (storage part, shared between the plain and poly
containers): process all overflow records in insertion order, then reset the
overflow count to zero. -/
def reconcile (s : CoreState E) : Option (CoreState E) :=
  (s.overflow.foldlM reconcileRecord s).map fun s' => { s' with overflow := [] }

/-- All stored particles of a container as `(block, slot, entry)` triples,
enumerated in block-then-slot order (slots `0 ≤ l < co[b]`). -/
def storedList (s : CoreState E) : List (ℕ × ℕ × E) :=
  (List.range s.blocks.length).flatMap fun ij =>
    (List.range (s.blocks.getD ij default).co).map fun l =>
      (ij, l, (s.blocks.getD ij default).arr.getD l default)

/-- Domain-image shifts considered by the cell search on one axis: the
neighboring periodic images on a periodic axis, only the primary domain
otherwise. -/
def imageShifts (prd : Bool) : List ℤ := if prd then [-1, 0, 1] else [0]

/-- The minimal-value selection fold used by the cell search (first minimum
wins on ties). -/
def bestBy {C : Type} (f : C → ℚ) (l : List C) : Option C :=
  l.foldl (fun acc c => match acc with
    | none => some c
    | some b => if f c < f b then some c else some b) none

/-- Modelled from the spec: `voro_compute_2d::find_voronoi_cell` (the
compute-cell collaborator is not under src/).  Per the spec, locating the cell
containing `(x,y)` is equivalent to finding the nearest site — in Euclidean
distance for the plain container and in power distance `‖p−s‖² − r_s²` for the
poly container, abstracted here by the squared-radius offset `radOf` (zero for
the plain container).  The model selects, over all stored particles and the
periodic domain images of each, the candidate of minimal such distance to the
(already remapped) query point, ties resolved in enumeration order.  It
returns the particle's block and slot together with the block displacement
`(w.di, w.dj)` of the chosen image, or `none` exactly when the container holds
no particles. -/
def computeFindCell (p : Params) (posOf : E → ℚ × ℚ) (radOf : E → ℚ)
    (s : CoreState E) (x y : ℚ) : Option (ℕ × ℕ × ℤ × ℤ) :=
  let cands : List ((ℕ × ℕ × E) × ℤ × ℤ) :=
    (storedList s).flatMap fun t =>
      (imageShifts p.x_prd).flatMap fun ki =>
        (imageShifts p.y_prd).map fun kj => (t, ki, kj)
  let d2 : ((ℕ × ℕ × E) × ℤ × ℤ) → ℚ := fun c =>
    ((posOf c.1.2.2).1 + c.2.1 * (p.bx - p.ax) - x) ^ 2 +
      ((posOf c.1.2.2).2 + c.2.2 * (p.by' - p.ay) - y) ^ 2 -
      (radOf c.1.2.2) ^ 2
  (bestBy d2 cands).map fun c => (c.1.1, c.1.2.1, c.2.1 * p.nx, c.2.2 * p.ny)

/-- `container_2d::find_voronoi_cell` / `container_poly_2d::find_voronoi_cell`
(they differ only in the coordinate stride and the distance — Euclidean for
plain, power for poly — abstracted by `posOf`/`radOf`/`idOf`):
remap the query into the primary domain (returning `none`, i.e. C++ `false`,
if that fails), run the cell search, and on success assemble the found
particle's position shifted to the periodic image the query came from,
together with its ID. -/
def find_voronoi_cell (p : Params) (posOf : E → ℚ × ℚ) (radOf : E → ℚ)
    (idOf : E → ℤ) (s : CoreState E) (x y : ℚ) : Option (ℚ × ℚ × ℤ) :=
  match remap p x y with
  | none => none
  | some ro =>
    match computeFindCell p posOf radOf s ro.x ro.y with
    | none => none
    | some (wij, wl, wdi, wdj) =>
      let e := (s.blocks.getD wij default).arr.getD wl default
      let ai := if p.x_prd then
          (if ro.ci + wdi < 0 ∨ (p.nx : ℤ) ≤ ro.ci + wdi then
            ro.ai + step_div (ro.ci + wdi) p.nx else ro.ai)
        else ro.ai
      let aj := if p.y_prd then
          (if ro.cj + wdj < 0 ∨ (p.ny : ℤ) ≤ ro.cj + wdj then
            ro.aj + step_div (ro.cj + wdj) p.ny else ro.aj)
        else ro.aj
      some ((posOf e).1 + ai * (p.bx - p.ax), ((posOf e).2 + aj * (p.by' - p.ay), idOf e))

/-- An input particle of the plain container: `(id, x, y)`. -/
abbrev Particle2 : Type := ℤ × ℚ × ℚ

/-- An input particle of the poly container: `(id, x, y, r)`. -/
abbrev Particle3 : Type := ℤ × ℚ × ℚ × ℚ

/-- Locate a plain particle: run `put_remap` and pair the block index with the
entry `(id, x', y')` holding the remapped position. -/
def locate2 (p : Params) (q : Particle2) : Option (ℕ × Particle2) :=
  (put_remap p q.2.1 q.2.2).map fun o => (o.ij.toNat, (q.1, o.x, o.y))

/-- Locate a poly particle: run `put_remap` and pair the block index with the
entry `(id, x', y', r)` holding the remapped position and the radius. -/
def locate3 (p : Params) (q : Particle3) : Option (ℕ × Particle3) :=
  (put_remap p q.2.1 q.2.2.1).map fun o => (o.ij.toNat, (q.1, o.x, o.y, q.2.2.2))

namespace Con2

/-- The mutable state of a `container_2d`. -/
abbrev State : Type := CoreState Particle2

/-- `container_2d::put`: serial insertion of one particle. -/
def put (p : Params) (s : State) (q : Particle2) : Option State :=
  serialPut s (locate2 p q)

/-- `container_2d::put_parallel` (single particle, one step of the serialized
interleaving). -/
def put_parallel (p : Params) (s : State) (q : Particle2) : State :=
  parallelPut s (locate2 p q)

/-- A batch of parallel insertions, serialized in the list order (the order of
the atomic reservations and critical-section appends). -/
def put_parallel_list (p : Params) (s : State) (qs : List Particle2) : State :=
  qs.foldl (put_parallel p) s

/-- `container_2d::put_reconcile_overflow`. -/
def put_reconcile_overflow (s : State) : Option State :=
  reconcile s

/-- Serial insertion of a whole list of particles with `put`. -/
def putList (p : Params) (s : State) (qs : List Particle2) : Option State :=
  qs.foldlM (put p) s

/-- `container_2d::clear`: zero every block count, touching nothing else. -/
def clear (s : State) : State :=
  { s with blocks := s.blocks.map fun b => { b with co := 0 } }

/-- `container_2d::find_voronoi_cell`. -/
def find_voronoi_cell (p : Params) (s : State) (x y : ℚ) : Option (ℚ × ℚ × ℤ) :=
  Voro.find_voronoi_cell p (fun e => (e.2.1, e.2.2)) (fun _ => 0) (fun e => e.1) s x y

end Con2

namespace ConPoly

/-- The mutable state of a `container_poly_2d`: the block storage plus the
global `max_radius` and the per-thread `max_r` array. -/
structure State where
  core : CoreState Particle3
  max_radius : ℚ
  max_r : List ℚ
deriving DecidableEq

/-- The freshly constructed poly container state (`max_radius = 0`, all
per-thread `max_r` slots zero). -/
def initPoly (nxy init_mem nt : ℕ) : State :=
  { core := initState Particle3 nxy init_mem
    max_radius := 0
    max_r := List.replicate nt 0 }

/-- The radius component of a poly particle. -/
def radius (q : Particle3) : ℚ := q.2.2.2

/-- `container_poly_2d::put`: serial insertion; on success additionally
update `max_radius` if the new radius exceeds it. -/
def put (p : Params) (s : State) (q : Particle3) : Option State :=
  match locate3 p q with
  | none => some s
  | some le =>
    (serialPut s.core (some le)).map fun c =>
      { s with core := c
               max_radius := if s.max_radius < radius q then radius q else s.max_radius }

/-- `container_poly_2d::put_parallel` executed by thread `t` (one step of the
serialized interleaving): on acceptance additionally update the calling
thread's `max_r[t]` slot if the new radius exceeds it. -/
def put_parallel (p : Params) (s : State) (t : ℕ) (q : Particle3) : State :=
  match locate3 p q with
  | none => s
  | some le =>
    { s with core := parallelPut s.core (some le)
             max_r := if s.max_r.getD t 0 < radius q then s.max_r.set t (radius q)
                      else s.max_r }

/-- A batch of parallel poly insertions; each list element carries the thread
that executes it. -/
def put_parallel_list (p : Params) (s : State) (qs : List (ℕ × Particle3)) : State :=
  qs.foldl (fun s' tq => put_parallel p s' tq.1 tq.2) s

/-- `container_poly_2d::put_reconcile_overflow`: fold every per-thread
`max_r[t]` into `max_radius` and reset it to zero, then reconcile the overflow
buffer. -/
def put_reconcile_overflow (s : State) : Option State :=
  let mr := s.max_r.foldl (fun a v => if a < v then v else a) s.max_radius
  (reconcile s.core).map fun c =>
    { core := c, max_radius := mr, max_r := List.replicate s.max_r.length 0 }

/-- Serial insertion of a whole list of particles with `put`. -/
def putList (p : Params) (s : State) (qs : List Particle3) : Option State :=
  qs.foldlM (put p) s

/-- `container_poly_2d::clear`: zero every block count and reset `max_radius`
to zero, touching nothing else. -/
def clear (s : State) : State :=
  { s with core := { s.core with blocks := s.core.blocks.map fun b => { b with co := 0 } }
           max_radius := 0 }

/-- `container_poly_2d::find_voronoi_cell`. -/
def find_voronoi_cell (p : Params) (s : State) (x y : ℚ) : Option (ℚ × ℚ × ℤ) :=
  Voro.find_voronoi_cell p (fun e => (e.2.1, e.2.2.1)) radius (fun e => e.1) s.core x y

end ConPoly

/-! ## Derived views and execution schedules used by the statements -/

section Views

variable {E : Type} [Inhabited E]

/-- Serial insertion of a list of already-located particles. -/
def serialPutList (s : CoreState E) (ls : List (Option (ℕ × E))) : Option (CoreState E) :=
  ls.foldlM serialPut s

/-- Parallel insertion of a list of already-located particles, serialized in
list order. -/
def parallelPutList (s : CoreState E) (ls : List (Option (ℕ × E))) : CoreState E :=
  ls.foldl parallelPut s

/-- The accepted (non-rejected) insertions of a located list. -/
def accList (ls : List (Option (ℕ × E))) : List (ℕ × E) :=
  ls.filterMap id

/-- The accepted entries destined for block `b`, in list order. -/
def accB (ls : List (Option (ℕ × E))) (b : ℕ) : List E :=
  ((accList ls).filter fun r => r.1 == b).map fun r => r.2

/-- The overflow records of block `b`, in buffer order. -/
def oB (o : List (ℕ × ℕ × E)) (b : ℕ) : List (ℕ × ℕ × E) :=
  o.filter fun r => r.1 == b

/-- The particles stored in block `b`: the first `co[b]` entries of its
array. -/
def blockEntries (s : CoreState E) (b : ℕ) : List E :=
  (s.blocks.getD b default).arr.take (s.blocks.getD b default).co

/-- The number of particles of block `b`. -/
def blockCo (s : CoreState E) (b : ℕ) : ℕ := (s.blocks.getD b default).co

/-- The capacity of block `b`. -/
def blockMem (s : CoreState E) (b : ℕ) : ℕ := (s.blocks.getD b default).mem

/-- The total particle count `Σ_b co[b]`. -/
def totalCo (s : CoreState E) : ℕ := (s.blocks.map Blk.co).sum

/-- Array well-formedness: every block's entry array has exactly `mem[b]`
slots (the allocation invariant of the C++ arrays). -/
def CoreWF (s : CoreState E) : Prop :=
  ∀ b < s.blocks.length,
    (s.blocks.getD b default).arr.length = (s.blocks.getD b default).mem

instance : DecidablePred (CoreWF (E := E)) := fun s => by
  unfold CoreWF; infer_instance

end Views

namespace Con2

/-- A full execution schedule of a plain container: construction, a list of
serial `put` calls, then rounds of a parallel batch followed by
`put_reconcile_overflow`. -/
def run (p : Params) (init_mem : ℕ) (ps0 : List Particle2) (rounds : List (List Particle2)) :
    Option State :=
  (putList p (initState Particle2 p.nxy init_mem) ps0).bind fun s =>
    rounds.foldlM (fun s' qs => put_reconcile_overflow (put_parallel_list p s' qs)) s

end Con2

namespace ConPoly

/-- The update step of `max_radius`, as written in the source:
`if(max_radius<r) max_radius=r`. -/
def maxStep (a v : ℚ) : ℚ := if a < v then v else a

/-- The merged maximum the reconciliation computes: `max_radius` folded with
every per-thread `max_r[t]`. -/
def mergedMax (s : State) : ℚ := s.max_r.foldl maxStep s.max_radius

/-- The radii of the accepted insertions of a located poly list. -/
def accRad (ls : List (Option (ℕ × Particle3))) : List ℚ :=
  (accList ls).map fun r => radius r.2

/-- A full execution schedule of a poly container: construction, a list of
serial `put` calls, then rounds of a parallel batch (each insertion tagged
with its thread) followed by `put_reconcile_overflow`. -/
def run (p : Params) (init_mem nt : ℕ) (ps0 : List Particle3)
    (rounds : List (List (ℕ × Particle3))) : Option State :=
  (putList p (initPoly p.nxy init_mem nt) ps0).bind fun s =>
    rounds.foldlM (fun s' qs => put_reconcile_overflow (put_parallel_list p s' qs)) s

end ConPoly

/-! ## Statement abbreviations for the claims -/

/-- What claim C3 asserts of a successful `put_remap`: the block coordinates
are the floors of the scaled position, replaced on a periodic axis by their
true modulo (always in `[0,n)`) with the coordinate shifted by whole blocks,
and the returned block index is `i + nx*j`. -/
def PutRemapSpec (p : Params) (x y : ℚ) (o : PutRemapOut) : Prop :=
  ∃ i' j' : ℤ, 0 ≤ i' ∧ i' < (p.nx : ℤ) ∧ 0 ≤ j' ∧ j' < (p.ny : ℤ) ∧
    o.ij = i' + p.nx * j' ∧
    (if p.x_prd then i' = step_int ((x - p.ax) * p.xsp) % (p.nx : ℤ) ∧
        o.x = x + p.boxx * (i' - step_int ((x - p.ax) * p.xsp))
      else i' = step_int ((x - p.ax) * p.xsp) ∧ o.x = x) ∧
    (if p.y_prd then j' = step_int ((y - p.ay) * p.ysp) % (p.ny : ℤ) ∧
        o.y = y + p.boxy * (j' - step_int ((y - p.ay) * p.ysp))
      else j' = step_int ((y - p.ay) * p.ysp) ∧ o.y = y)

/-- What claim C7 asserts of a successful `remap`: the original position is
the remapped one displaced by `(ai,aj)` whole domain lengths, the block
coordinates are in range, the block index is `ci + nx*cj`, and the
displacement is zero when the position was already inside the grid. -/
def RemapSpec (p : Params) (x y : ℚ) (o : RemapOut) : Prop :=
  x = o.x + o.ai * (p.bx - p.ax) ∧ y = o.y + o.aj * (p.by' - p.ay) ∧
    0 ≤ o.ci ∧ o.ci < (p.nx : ℤ) ∧ 0 ≤ o.cj ∧ o.cj < (p.ny : ℤ) ∧
    o.ij = o.ci + p.nx * o.cj ∧
    ((0 ≤ step_int ((x - p.ax) * p.xsp) ∧ step_int ((x - p.ax) * p.xsp) < (p.nx : ℤ) ∧
        0 ≤ step_int ((y - p.ay) * p.ysp) ∧ step_int ((y - p.ay) * p.ysp) < (p.ny : ℤ)) →
      o.ai = 0 ∧ o.aj = 0)

/-- What claims C5 asserts of an accepted serial insertion into block `ij`:
the new state differs from the old only in that block (in particular the
overflow buffer is unchanged), the block's count is incremented by one, slot
`co` now holds the entry, and all earlier slots are unchanged. -/
def SerialWriteSpec {E : Type} [Inhabited E] (s s' : CoreState E) (ij : ℕ) (e : E) : Prop :=
  ∃ b' : Blk E, s' = { s with blocks := s.blocks.set ij b' } ∧
    b'.co = (s.blocks.getD ij default).co + 1 ∧
    b'.arr.getD (s.blocks.getD ij default).co default = e ∧
    (∀ i < (s.blocks.getD ij default).co, b'.arr.getD i default =
      (s.blocks.getD ij default).arr.getD i default) ∧
    b'.arr.length = b'.mem ∧ (s.blocks.getD ij default).co < b'.mem ∧
    (b'.mem = if (s.blocks.getD ij default).co = (s.blocks.getD ij default).mem
      then 2 * (s.blocks.getD ij default).mem else (s.blocks.getD ij default).mem)

/-! ## Basic list helpers -/

theorem getD_set_self {α : Type} {l : List α} {i : ℕ} {a d : α} (h : i < l.length) :
    (l.set i a).getD i d = a := by
  rw [List.getD_eq_getElem?_getD, List.getElem?_set_self h]
  rfl

theorem getD_set_ne {α : Type} {l : List α} {i j : ℕ} {a d : α} (h : i ≠ j) :
    (l.set i a).getD j d = l.getD j d := by
  rw [List.getD_eq_getElem?_getD, List.getElem?_set_ne h, ← List.getD_eq_getElem?_getD]

theorem getD_set' {α : Type} (l : List α) (i j : ℕ) (a d : α) :
    (l.set i a).getD j d = if i = j ∧ i < l.length then a else l.getD j d := by
  rcases eq_or_ne i j with rfl | hne
  · rcases lt_or_ge i l.length with hlt | hge
    · rw [getD_set_self hlt, if_pos ⟨rfl, hlt⟩]
    · rw [if_neg (by omega), List.set_eq_of_length_le hge]
  · rw [getD_set_ne hne, if_neg (fun hc => hne hc.1)]

theorem padTo_length {E : Type} [Inhabited E] {n : ℕ} {l : List E} (h : l.length ≤ n) :
    (padTo n l).length = n := by
  simp [padTo]
  omega

theorem padTo_getD_lt {E : Type} [Inhabited E] {n j : ℕ} {l : List E} (h : j < l.length) :
    (padTo n l).getD j default = l.getD j default := by
  rw [padTo, List.getD_eq_getElem?_getD, List.getElem?_append, if_pos h,
    ← List.getD_eq_getElem?_getD]

theorem padTo_getD_ge {E : Type} [Inhabited E] {n j : ℕ} {l : List E} (h : l.length ≤ j) :
    (padTo n l).getD j default = default := by
  rw [padTo, List.getD_eq_getElem?_getD, List.getElem?_append, if_neg (by omega),
    List.getElem?_replicate]
  split <;> rfl

/-! ## Properties of the doubling loop `growMem` -/

theorem growMem_of_le {mem t : ℕ} (h0 : mem ≠ 0) (h : t ≤ mem) : growMem mem t = mem := by
  rw [growMem, dif_neg h0, dif_pos h]

theorem growMem_of_gt {mem t : ℕ} (h0 : mem ≠ 0) (h : mem < t) :
    growMem mem t = growMem (2 * mem) t := by
  rw [growMem, dif_neg h0, dif_neg (by omega)]

theorem le_growMem {mem t : ℕ} (h0 : mem ≠ 0) : t ≤ growMem mem t := by
  generalize hn : t - mem = n
  induction n using Nat.strong_induction_on generalizing mem with
  | _ n ih =>
    rcases le_or_lt t mem with h | h
    · rw [growMem_of_le h0 h]; exact h
    · rw [growMem_of_gt h0 h]
      exact ih (t - 2 * mem) (by omega) (by omega) rfl

theorem self_le_growMem {mem t : ℕ} (h0 : mem ≠ 0) : mem ≤ growMem mem t := by
  generalize hn : t - mem = n
  induction n using Nat.strong_induction_on generalizing mem with
  | _ n ih =>
    rcases le_or_lt t mem with h | h
    · rw [growMem_of_le h0 h]
    · rw [growMem_of_gt h0 h]
      have := @ih (t - 2 * mem) (by omega) (2 * mem) (by omega) rfl
      omega

theorem growMem_ne_zero {mem t : ℕ} (h0 : mem ≠ 0) : growMem mem t ≠ 0 := by
  have := self_le_growMem (t := t) h0
  omega

theorem growMem_shape {mem t : ℕ} (h0 : mem ≠ 0) : ∃ k, growMem mem t = mem * 2 ^ k := by
  generalize hn : t - mem = n
  induction n using Nat.strong_induction_on generalizing mem with
  | _ n ih =>
    rcases le_or_lt t mem with h | h
    · exact ⟨0, by rw [growMem_of_le h0 h]; ring⟩
    · obtain ⟨k, hk⟩ := ih (t - 2 * mem) (by omega) (by omega) rfl
      exact ⟨k + 1, by rw [growMem_of_gt h0 h, hk]; ring⟩

theorem growMem_le {mem t k : ℕ} (h0 : mem ≠ 0) (h : t ≤ mem * 2 ^ k) :
    growMem mem t ≤ mem * 2 ^ k := by
  induction k generalizing mem with
  | zero =>
    rw [growMem_of_le h0 (by simpa using h)]
    simp
  | succ k ih =>
    rcases le_or_lt t mem with h' | h'
    · rw [growMem_of_le h0 h']
      calc mem = mem * 1 := (mul_one mem).symm
        _ ≤ mem * 2 ^ (k + 1) := Nat.mul_le_mul_left mem Nat.one_le_two_pow
    · rw [growMem_of_gt h0 h']
      have heq : mem * 2 ^ (k + 1) = 2 * mem * 2 ^ k := by ring
      have := @ih (2 * mem) (by omega) (by omega)
      omega

theorem growMem_mono {mem t t' : ℕ} (h0 : mem ≠ 0) (h : t ≤ t') :
    growMem mem t ≤ growMem mem t' := by
  obtain ⟨k, hk⟩ := growMem_shape (t := t') h0
  rw [hk]
  exact growMem_le h0 (le_trans (le_trans h (le_growMem h0)) (le_of_eq hk))

theorem growMem_absorb {mem c t : ℕ} (h0 : mem ≠ 0) (hfam : ∃ a, c = mem * 2 ^ a)
    (h : c < t) : growMem mem t = growMem c t := by
  obtain ⟨a, rfl⟩ := hfam
  induction a with
  | zero => simp
  | succ a ih =>
    have hma : mem * 2 ^ a < t := by
      have : mem * 2 ^ a ≤ mem * 2 ^ (a + 1) := by
        exact Nat.mul_le_mul_left mem (Nat.pow_le_pow_right (by omega) (by omega))
      omega
    have h2 : mem * 2 ^ a ≠ 0 := by positivity
    rw [ih hma, growMem_of_gt h2 hma]
    congr 1
    ring

/-- Stepping lemma: if the current capacity is `growMem mem0 c` and there is
still room (`c` strictly below it), the capacity for count `c+1` is
unchanged. -/
theorem growMem_step_lt {mem0 c : ℕ} (h0 : mem0 ≠ 0) (h : c < growMem mem0 c) :
    growMem mem0 (c + 1) = growMem mem0 c := by
  obtain ⟨k, hk⟩ := growMem_shape (t := c) h0
  apply le_antisymm
  · rw [hk]; exact growMem_le h0 (by omega)
  · exact growMem_mono h0 (by omega)

/-- Stepping lemma: if the block is exactly full (`c = growMem mem0 c`), the
capacity for count `c+1` is one doubling. -/
theorem growMem_step_eq {mem0 c : ℕ} (h0 : mem0 ≠ 0) (h : growMem mem0 c = c) :
    growMem mem0 (c + 1) = 2 * c := by
  have hc0 : c ≠ 0 := by
    intro h'
    exact h0 (by simpa [h', growMem_of_le h0 (Nat.zero_le mem0)] using h)
  have habs : growMem mem0 (c + 1) = growMem c (c + 1) := by
    apply growMem_absorb h0 _ (by omega)
    obtain ⟨k, hk⟩ := growMem_shape (t := c) h0
    exact ⟨k, by rw [← h, hk]⟩
  rw [habs, growMem_of_gt hc0 (by omega), growMem_of_le (by omega) (by omega)]


theorem getD_take {α : Type} {l : List α} {n m : ℕ} {d : α} (h : m < n) :
    (l.take n).getD m d = l.getD m d := by
  rw [List.getD_eq_getElem?_getD, List.getElem?_take, if_pos h, ← List.getD_eq_getElem?_getD]

/-! ## Characterization of `put_remap` and `remap` -/

theorem put_remap_isSome_iff (p : Params) (x y : ℚ) :
    (put_remap p x y).isSome ↔
      ((p.x_prd = true ∨ (0 ≤ step_int ((x - p.ax) * p.xsp) ∧
          step_int ((x - p.ax) * p.xsp) < (p.nx : ℤ))) ∧
        (p.y_prd = true ∨ (0 ≤ step_int ((y - p.ay) * p.ysp) ∧
          step_int ((y - p.ay) * p.ysp) < (p.ny : ℤ)))) := by
  cases hx : p.x_prd <;> cases hy : p.y_prd <;>
    simp only [put_remap, hx, hy, if_true, if_false, Bool.true_eq_false, false_or, true_or,
      Bool.false_eq_true, true_and, and_true, Option.isSome_some] <;>
    try simp
  all_goals split_ifs <;> simp_all <;> omega

theorem put_remap_some (p : Params) (hwf : p.WF) (x y : ℚ) (o : PutRemapOut)
    (h : put_remap p x y = some o) : PutRemapSpec p x y o := by
  unfold PutRemapSpec
  obtain ⟨-, -, hnx, hny⟩ := hwf
  have hnx0 : (p.nx : ℤ) ≠ 0 := by omega
  have hny0 : (p.ny : ℤ) ≠ 0 := by omega
  cases hx : p.x_prd <;> cases hy : p.y_prd
  · simp only [put_remap, hx, hy, Bool.false_eq_true, if_false] at h
    split_ifs at h with h1 h2
    rw [Option.some_inj] at h
    subst h
    exact ⟨_, _, by omega, by omega, by omega, by omega, rfl, by simp, by simp⟩
  · simp only [put_remap, hx, hy, Bool.false_eq_true, if_false, if_true] at h
    split_ifs at h with h1
    rw [Option.some_inj] at h
    subst h
    refine ⟨_, _, by omega, by omega, Int.emod_nonneg _ hny0, Int.emod_lt_of_pos _ (by omega),
      rfl, by simp, by simp [step_mod]⟩
  · simp only [put_remap, hx, hy, Bool.false_eq_true, if_false, if_true] at h
    split_ifs at h with h1
    rw [Option.some_inj] at h
    subst h
    refine ⟨_, _, Int.emod_nonneg _ hnx0, Int.emod_lt_of_pos _ (by omega), by omega, by omega,
      rfl, by simp [step_mod], by simp⟩
  · simp only [put_remap, hx, hy, if_true] at h
    rw [Option.some_inj] at h
    subst h
    refine ⟨_, _, Int.emod_nonneg _ hnx0, Int.emod_lt_of_pos _ (by omega),
      Int.emod_nonneg _ hny0, Int.emod_lt_of_pos _ (by omega),
      rfl, by simp [step_mod], by simp [step_mod]⟩

/-- The scaled coordinate of the upper domain face `x = bx` lands exactly on
the out-of-range index `nx`. -/
theorem floor_upper_x (p : Params) (hwf : p.WF) :
    step_int ((p.bx - p.ax) * p.xsp) = (p.nx : ℤ) := by
  obtain ⟨hx, -, hnx, -⟩ := hwf
  have h1 : (p.bx - p.ax) ≠ 0 := sub_ne_zero.mpr (ne_of_gt hx)
  have h2 : (p.nx : ℚ) ≠ 0 := by exact_mod_cast by omega
  have : (p.bx - p.ax) * p.xsp = (p.nx : ℚ) := by
    rw [Params.xsp, Params.boxx]
    field_simp
  rw [step_int, this, Int.floor_natCast]

/-- The scaled coordinate of the upper domain face `y = by` lands exactly on
the out-of-range index `ny`. -/
theorem floor_upper_y (p : Params) (hwf : p.WF) :
    step_int ((p.by' - p.ay) * p.ysp) = (p.ny : ℤ) := by
  obtain ⟨-, hy, -, hny⟩ := hwf
  have h1 : (p.by' - p.ay) ≠ 0 := sub_ne_zero.mpr (ne_of_gt hy)
  have h2 : (p.ny : ℚ) ≠ 0 := by exact_mod_cast by omega
  have : (p.by' - p.ay) * p.ysp = (p.ny : ℚ) := by
    rw [Params.ysp, Params.boxy]
    field_simp
  rw [step_int, this, Int.floor_natCast]

theorem put_remap_upper_x (p : Params) (hwf : p.WF) (hprd : p.x_prd = false) (y : ℚ) :
    put_remap p p.bx y = none := by
  rw [← Option.not_isSome_iff_eq_none]
  rw [put_remap_isSome_iff, floor_upper_x p hwf]
  simp [hprd]

theorem put_remap_upper_y (p : Params) (hwf : p.WF) (hprd : p.y_prd = false) (x : ℚ) :
    put_remap p x p.by' = none := by
  rw [← Option.not_isSome_iff_eq_none]
  rw [put_remap_isSome_iff, floor_upper_y p hwf]
  simp [hprd]

set_option maxHeartbeats 1600000 in
theorem remap_some (p : Params) (hwf : p.WF) (x y : ℚ) (o : RemapOut)
    (h : remap p x y = some o) : RemapSpec p x y o := by
  unfold RemapSpec
  obtain ⟨-, -, hnx, hny⟩ := hwf
  have hnx0 : (p.nx : ℤ) ≠ 0 := by omega
  have hny0 : (p.ny : ℤ) ≠ 0 := by omega
  have hmodx : ∀ c : ℤ, c - step_div c p.nx * p.nx = c % (p.nx : ℤ) := by
    intro c
    rw [Int.emod_def, step_div]
    ring
  have hmody : ∀ c : ℤ, c - step_div c p.ny * p.ny = c % (p.ny : ℤ) := by
    intro c
    rw [Int.emod_def, step_div]
    ring
  simp only [remap] at h
  split_ifs at h with h1 h2 h3 h4 h5 h6 <;>
    rw [Option.some_inj] at h <;> subst h <;> simp only []
  · refine ⟨by ring, by ring, ?_, ?_, ?_, ?_, by trivial, by omega⟩
    · rw [hmodx]; exact Int.emod_nonneg _ hnx0
    · rw [hmodx]; exact Int.emod_lt_of_pos _ (by omega)
    · rw [hmody]; exact Int.emod_nonneg _ hny0
    · rw [hmody]; exact Int.emod_lt_of_pos _ (by omega)
  · refine ⟨by ring, by ring, ?_, ?_, by omega, by omega, by trivial,
      by omega⟩
    · rw [hmodx]; exact Int.emod_nonneg _ hnx0
    · rw [hmodx]; exact Int.emod_lt_of_pos _ (by omega)
  · refine ⟨by ring, by ring, by omega, by omega, ?_, ?_, by trivial,
      by omega⟩
    · rw [hmody]; exact Int.emod_nonneg _ hny0
    · rw [hmody]; exact Int.emod_lt_of_pos _ (by omega)
  · exact ⟨by ring, by ring, by omega, by omega, by omega, by omega,
      by trivial, by simp⟩


/-! ## Single-step facts about serial insertion -/

section SerialStep

variable {E : Type} [Inhabited E]

theorem serialPut_none (s : CoreState E) : serialPut s none = some s := rfl

/-- Success and effect of one accepted serial insertion: the new state differs
from the old only in block `ij`, whose count is incremented, whose slot
`co[ij]` now holds the entry, and whose earlier slots are unchanged. -/
theorem serialPut_some {s s' : CoreState E} {ij : ℕ} {e : E}
    (hwf : (s.blocks.getD ij default).arr.length = (s.blocks.getD ij default).mem)
    (hco : (s.blocks.getD ij default).co ≤ (s.blocks.getD ij default).mem)
    (hmem : 1 ≤ (s.blocks.getD ij default).mem)
    (h : serialPut s (some (ij, e)) = some s') : SerialWriteSpec s s' ij e := by
  unfold SerialWriteSpec
  set b := s.blocks.getD ij default with hb
  simp only [serialPut, ← hb] at h
  by_cases hcm : b.co = b.mem
  · rw [if_pos hcm] at h
    unfold add_particle_memory at h
    by_cases hover : max_particle_memory < 2 * b.mem
    · rw [if_pos hover] at h
      simp at h
    · rw [if_neg hover] at h
      simp only [Option.map_some', Option.some_inj] at h
      subst h
      have hlt :(b.arr.take b.co).length = b.co := by
        simp [hwf]
        omega
      have hpl : (padTo (2 * b.mem) (b.arr.take b.co)).length = 2 * b.mem := by
        apply padTo_length
        omega
      refine ⟨_, rfl, rfl, ?_, ?_, ?_, ?_, ?_⟩
      · rw [getD_set_self]
        rw [hpl]
        omega
      · intro i hi
        rw [getD_set_ne (by omega), padTo_getD_lt (by omega), getD_take (by omega)]
      · simp [hpl]
      · simp
        omega
      · simp [hcm]
  · rw [if_neg hcm] at h
    simp only [Option.map_some', Option.some_inj] at h
    subst h
    refine ⟨_, rfl, rfl, ?_, ?_, ?_, ?_, ?_⟩
    · rw [getD_set_self]
      rw [hwf]
      omega
    · intro i hi
      rw [getD_set_ne (by omega)]
    · simp [hwf]
    · simp
      omega
    · simp [hcm]

end SerialStep

/-! ## Frame facts about overflow reconciliation -/

section ReconcileFrame

variable {E : Type} [Inhabited E]

theorem growMem_zero (t : ℕ) : growMem 0 t = 0 := by
  rw [growMem]
  simp

/-- `CoreWF` extended to all indices: an out-of-range block is the default
(empty) one, which is trivially well-formed. -/
theorem CoreWF.allD {s : CoreState E} (h : CoreWF s) (b : ℕ) :
    (s.blocks.getD b default).arr.length = (s.blocks.getD b default).mem := by
  rcases lt_or_ge b s.blocks.length with hb | hb
  · exact h b hb
  · rw [List.getD_eq_default _ _ hb]
    rfl

/-- Effect of processing one overflow record `(ij, m, e)`: only block `ij`
changes; its count is untouched, its capacity only grows, slots other than
`m` below the old capacity are preserved, and (for a real block) slot `m`
now holds `e` below the new capacity. -/
theorem reconcileRecord_facts {s s' : CoreState E} {ij m : ℕ} {e : E}
    (hwf : ∀ b, (s.blocks.getD b default).arr.length = (s.blocks.getD b default).mem)
    (h : reconcileRecord s (ij, m, e) = some s') :
    (∀ b, (s'.blocks.getD b default).arr.length = (s'.blocks.getD b default).mem) ∧
    s'.blocks.length = s.blocks.length ∧
    s'.overflow = s.overflow ∧
    (∀ b, (s'.blocks.getD b default).co = (s.blocks.getD b default).co) ∧
    (∀ b, (s.blocks.getD b default).mem ≤ (s'.blocks.getD b default).mem) ∧
    (∀ b m', ¬(b = ij ∧ m' = m) → m' < (s.blocks.getD b default).mem →
      (s'.blocks.getD b default).arr.getD m' default =
        (s.blocks.getD b default).arr.getD m' default) ∧
    (ij < s.blocks.length → 1 ≤ (s.blocks.getD ij default).mem →
      (s'.blocks.getD ij default).arr.getD m default = e ∧
        m < (s'.blocks.getD ij default).mem) := by
  rcases lt_or_ge ij s.blocks.length with hij | hij
  swap
  · -- out-of-range block: the update writes to the default block and the
    -- List.set is a no-op, so the state is unchanged up to the record shape
    have hset : ∀ bl : Blk E, s.blocks.set ij bl = s.blocks := fun bl =>
      List.set_eq_of_length_le hij
    have hd : s.blocks.getD ij default = default := List.getD_eq_default _ _ hij
    unfold reconcileRecord at h
    simp only [hd] at h
    have finish : ∀ X : Blk E, { s with blocks := s.blocks.set ij X } = s' →
        (∀ b, (s'.blocks.getD b default).arr.length = (s'.blocks.getD b default).mem) ∧
        s'.blocks.length = s.blocks.length ∧
        s'.overflow = s.overflow ∧
        (∀ b, (s'.blocks.getD b default).co = (s.blocks.getD b default).co) ∧
        (∀ b, (s.blocks.getD b default).mem ≤ (s'.blocks.getD b default).mem) ∧
        (∀ b m', ¬(b = ij ∧ m' = m) → m' < (s.blocks.getD b default).mem →
          (s'.blocks.getD b default).arr.getD m' default =
            (s.blocks.getD b default).arr.getD m' default) ∧
        (ij < s.blocks.length → 1 ≤ (s.blocks.getD ij default).mem →
          (s'.blocks.getD ij default).arr.getD m default = e ∧
            m < (s'.blocks.getD ij default).mem) := by
      intro X hX
      have hblocks : s'.blocks = s.blocks := by rw [← hX]; exact hset _
      have hover : s'.overflow = s.overflow := by rw [← hX]
      exact ⟨by rw [hblocks]; exact hwf, by rw [hblocks], hover,
        by rw [hblocks]; exact fun _ => rfl, by rw [hblocks]; exact fun _ => le_refl _,
        by rw [hblocks]; exact fun _ _ _ _ => rfl, fun hc => absurd hc (by omega)⟩
    split_ifs at h with h1 h2
    · simp at h
    · simp only [Option.map_some', Option.some_inj] at h
      exact finish _ h
    · simp only [Option.map_some', Option.some_inj] at h
      exact finish _ h
  · simp only [reconcileRecord] at h
    set b := s.blocks.getD ij default with hb
    have hgd : ∀ (nb : Blk E) (b0 : ℕ), (s.blocks.set ij nb).getD b0 default =
        if ij = b0 then nb else s.blocks.getD b0 default := by
      intro nb b0
      rw [getD_set']
      by_cases hb0 : ij = b0
      · simp [hb0, hb0 ▸ hij]
      · simp [hb0]
    have hlenb : b.arr.length = b.mem := hwf ij
    by_cases hgrow : b.mem ≤ m
    · rw [if_pos hgrow] at h
      set nmem := growMem (2 * b.mem) (m + 1) with hnmem
      by_cases hmax : max_particle_memory < nmem
      · rw [if_pos hmax] at h
        simp at h
      · rw [if_neg hmax] at h
        simp only [Option.map_some', Option.some_inj] at h
        subst h
        have htl : (b.arr.take b.mem).length = b.mem := by simp [hlenb]
        have hmemle : b.mem ≤ nmem := by
          rcases Nat.eq_zero_or_pos b.mem with h0 | h0
          · simp [hnmem, h0, growMem_zero]
          · have : 2 * b.mem ≤ nmem := self_le_growMem (by omega)
            omega
        have hpl : (padTo nmem (b.arr.take b.mem)).length = nmem :=
          padTo_length (by omega)
        refine ⟨?_, by simp, rfl, ?_, ?_, ?_, ?_⟩
        · intro b0
          rw [hgd]
          by_cases hb0 : ij = b0
          · rw [if_pos hb0]
            show ((padTo nmem (b.arr.take b.mem)).set m e).length = nmem
            simp [hpl]
          · rw [if_neg hb0]
            exact hwf b0
        · intro b0
          rw [hgd]
          by_cases hb0 : ij = b0
          · rw [if_pos hb0, ← hb0, ← hb]
          · rw [if_neg hb0]
        · intro b0
          rw [hgd]
          by_cases hb0 : ij = b0
          · rw [if_pos hb0, ← hb0, ← hb]
            exact hmemle
          · rw [if_neg hb0]
        · intro b0 m' hne hm'
          rw [hgd]
          by_cases hb0 : ij = b0
          · rw [if_pos hb0]
            rw [← hb0] at hm' ⊢
            rw [← hb] at hm' ⊢
            have hmm : m' ≠ m := fun hc => hne ⟨hb0.symm, hc⟩
            show ((padTo nmem (b.arr.take b.mem)).set m e).getD m' default =
              b.arr.getD m' default
            rw [getD_set_ne (by omega), padTo_getD_lt (by omega), getD_take (by omega)]
          · rw [if_neg hb0]
        · intro _ hpos
          have hm1 : m + 1 ≤ nmem := le_growMem (by omega)
          rw [hgd, if_pos rfl]
          constructor
          · show ((padTo nmem (b.arr.take b.mem)).set m e).getD m default = e
            rw [getD_set_self (by omega)]
          · show m < nmem
            omega
    · rw [if_neg hgrow] at h
      simp only [Option.map_some', Option.some_inj] at h
      subst h
      refine ⟨?_, by simp, rfl, ?_, ?_, ?_, ?_⟩
      · intro b0
        rw [hgd]
        by_cases hb0 : ij = b0
        · rw [if_pos hb0]
          show (b.arr.set m e).length = b.mem
          simp [hlenb]
        · rw [if_neg hb0]
          exact hwf b0
      · intro b0
        rw [hgd]
        by_cases hb0 : ij = b0
        · rw [if_pos hb0, ← hb0, ← hb]
        · rw [if_neg hb0]
      · intro b0
        rw [hgd]
        by_cases hb0 : ij = b0
        · rw [if_pos hb0, ← hb0, ← hb]
        · rw [if_neg hb0]
      · intro b0 m' hne hm'
        rw [hgd]
        by_cases hb0 : ij = b0
        · rw [if_pos hb0]
          rw [← hb0] at hm' ⊢
          rw [← hb] at hm' ⊢
          have hmm : m' ≠ m := fun hc => hne ⟨hb0.symm, hc⟩
          show (b.arr.set m e).getD m' default = b.arr.getD m' default
          rw [getD_set_ne (by omega)]
        · rw [if_neg hb0]
      · intro _ hpos
        rw [hgd, if_pos rfl]
        constructor
        · show (b.arr.set m e).getD m default = e
          rw [getD_set_self (by omega)]
        · show m < b.mem
          omega

/-- Frame facts of a whole reconciliation fold: counts and the overflow list
are untouched, capacities only grow, and any slot below the old capacity that
no record of the fold targets keeps its value. -/
theorem reconcileFold_facts {o : List (ℕ × ℕ × E)} : ∀ {s s' : CoreState E},
    (∀ b, (s.blocks.getD b default).arr.length = (s.blocks.getD b default).mem) →
    o.foldlM reconcileRecord s = some s' →
    (∀ b, (s'.blocks.getD b default).arr.length = (s'.blocks.getD b default).mem) ∧
    s'.blocks.length = s.blocks.length ∧
    s'.overflow = s.overflow ∧
    (∀ b, (s'.blocks.getD b default).co = (s.blocks.getD b default).co) ∧
    (∀ b, (s.blocks.getD b default).mem ≤ (s'.blocks.getD b default).mem) ∧
    (∀ b m, m < (s.blocks.getD b default).mem → (∀ r ∈ o, ¬(r.1 = b ∧ r.2.1 = m)) →
      (s'.blocks.getD b default).arr.getD m default =
        (s.blocks.getD b default).arr.getD m default) := by
  induction o with
  | nil =>
    intro s s' hwf h
    simp only [List.foldlM_nil, pure, Option.some_inj] at h
    subst h
    exact ⟨hwf, rfl, rfl, fun _ => rfl, fun _ => le_refl _, fun _ _ _ _ => rfl⟩
  | cons r rest ih =>
    intro s s' hwf h
    obtain ⟨ij, m0, e0⟩ := r
    rw [List.foldlM_cons] at h
    rcases hstep : reconcileRecord s (ij, m0, e0) with _ | s1
    · rw [hstep] at h
      simp at h
    · rw [hstep] at h
      simp only [Option.bind_eq_bind, Option.some_bind] at h
      obtain ⟨wf1, len1, over1, co1, mem1, pres1, -⟩ := reconcileRecord_facts hwf hstep
      obtain ⟨wf2, len2, over2, co2, mem2, pres2⟩ := ih wf1 h
      refine ⟨wf2, by omega, by rw [over2, over1], fun b => by rw [co2, co1],
        fun b => le_trans (mem1 b) (mem2 b), ?_⟩
      intro b m hm hno
      have hhead : ¬(b = ij ∧ m = m0) := by
        have h0 := hno (ij, m0, e0) (by simp)
        simp only [not_and] at h0 ⊢
        intro hb hm
        exact h0 hb.symm hm.symm
      rw [pres2 b m (lt_of_lt_of_le hm (mem1 b))
          (fun r hr => hno r (List.mem_cons_of_mem _ hr)),
        pres1 b m hhead hm]

/-- The value a reconciliation fold leaves at a slot is the entry of the last
record targeting it: after the record `(b, m, e)` is processed, no later
record writes `(b, m)` again, so slot `m` of block `b` ends holding `e`
(below the final, possibly grown, capacity). -/
theorem reconcileFold_write {o1 o2 : List (ℕ × ℕ × E)} {b m : ℕ} {e : E}
    {s s' : CoreState E}
    (hwf : ∀ b0, (s.blocks.getD b0 default).arr.length = (s.blocks.getD b0 default).mem)
    (h : (o1 ++ (b, m, e) :: o2).foldlM reconcileRecord s = some s')
    (hb : b < s.blocks.length)
    (hmem : 1 ≤ (s.blocks.getD b default).mem)
    (hlast : ∀ r ∈ o2, ¬(r.1 = b ∧ r.2.1 = m)) :
    (s'.blocks.getD b default).arr.getD m default = e ∧
      m < (s'.blocks.getD b default).mem := by
  rw [List.foldlM_append] at h
  rcases h1 : o1.foldlM reconcileRecord s with _ | s1
  · rw [h1] at h
    simp at h
  · rw [h1] at h
    simp only [Option.bind_eq_bind, Option.some_bind, List.foldlM_cons] at h
    rcases h2 : reconcileRecord s1 (b, m, e) with _ | s2
    · rw [h2] at h
      simp at h
    · rw [h2] at h
      simp only [Option.bind_eq_bind, Option.some_bind] at h
      obtain ⟨wf1, len1, -, -, mem1, -⟩ := reconcileFold_facts hwf h1
      obtain ⟨wf2, len2, -, -, mem2, -, hwrite⟩ := reconcileRecord_facts wf1 h2
      obtain ⟨hwm, hwlt⟩ := hwrite (by omega) (le_trans hmem (mem1 b))
      obtain ⟨wf3, len3, -, -, mem3, pres3⟩ := reconcileFold_facts wf2 h
      refine ⟨?_, lt_of_lt_of_le hwlt (mem3 b)⟩
      rw [pres3 b m hwlt hlast, hwm]

/-- `clear` on the plain container rewrites each block with its count zeroed
and touches nothing else. -/
theorem clear2_getD (s : Con2.State) (b : ℕ) :
    (Con2.clear s).blocks.getD b default = { s.blocks.getD b default with co := 0 } := by
  unfold Con2.clear
  simp only []
  conv_lhs => rw [show (default : Blk Particle2) =
    { (default : Blk Particle2) with co := 0 } from rfl]
  rw [List.getD_map]

/-- `clear` on the poly container rewrites each block with its count zeroed
and touches nothing else in the block storage. -/
theorem clearPoly_getD (s : ConPoly.State) (b : ℕ) :
    (ConPoly.clear s).core.blocks.getD b default =
      { s.core.blocks.getD b default with co := 0 } := by
  unfold ConPoly.clear
  simp only []
  conv_lhs => rw [show (default : Blk Particle3) =
    { (default : Blk Particle3) with co := 0 } from rfl]
  rw [List.getD_map]


end ReconcileFrame

/-! ## The serial insertion list lemma -/

section SerialList

variable {E : Type} [Inhabited E]

theorem getD_append_left {α : Type} {l lQ : List α} {i : ℕ} {d : α} (h : i < l.length) :
    (l ++ lQ).getD i d = l.getD i d := by
  rw [List.getD_eq_getElem?_getD, List.getElem?_append, if_pos h,
    ← List.getD_eq_getElem?_getD]

theorem getD_append_length {α : Type} {l : List α} {x d : α} :
    (l ++ [x]).getD l.length d = x := by
  rw [List.getD_eq_getElem?_getD, List.getElem?_append, if_neg (by omega)]
  simp

theorem accB_append (ls lsQ : List (Option (ℕ × E))) (b : ℕ) :
    accB (ls ++ lsQ) b = accB ls b ++ accB lsQ b := by
  simp [accB, accList, List.filterMap_append, List.filter_append]

theorem accB_none (b : ℕ) : accB ([none] : List (Option (ℕ × E))) b = [] := rfl

theorem accB_some {ij : ℕ} {e : E} {b : ℕ} :
    accB [some (ij, e)] b = if ij = b then [e] else [] := by
  by_cases h : ij = b <;> simp [accB, accList, List.filter_cons, h]

theorem initState_getD {nblk im b : ℕ} (h : b < nblk) :
    (initState E nblk im).blocks.getD b default =
      (⟨0, im, List.replicate im default⟩ : Blk E) := by
  rw [initState]
  simp only []
  rw [List.getD_eq_getElem _ _ (by simpa using h), List.getElem_replicate]

theorem serialPut_growth_bound {s sQ : CoreState E} {ij : ℕ} {e : E}
    (hcm : (s.blocks.getD ij default).co = (s.blocks.getD ij default).mem)
    (h : serialPut s (some (ij, e)) = some sQ) :
    2 * (s.blocks.getD ij default).mem ≤ max_particle_memory := by
  simp only [serialPut, if_pos hcm, add_particle_memory] at h
  by_cases hov : max_particle_memory < 2 * (s.blocks.getD ij default).mem
  · rw [if_pos hov] at h
    simp at h
  · omega

/-- The full effect of a list of serial insertions into a fresh container:
per block, the count is the number of accepted entries of that block, the
capacity is the doubling closure of the count over `init_mem`, the array
holds exactly the accepted entries in arrival order, any grown capacity is
within the hard ceiling, and the overflow buffer stays empty. -/
theorem serialPutList_facts {nblk im : ℕ} (him : im ≠ 0) :
    ∀ {ls : List (Option (ℕ × E))} {s : CoreState E},
    (∀ l ∈ ls, ∀ r : ℕ × E, l = some r → r.1 < nblk) →
    serialPutList (initState E nblk im) ls = some s →
    s.overflow = [] ∧ s.blocks.length = nblk ∧
    ∀ b < nblk,
      blockCo s b = (accB ls b).length ∧
      blockMem s b = growMem im (blockCo s b) ∧
      (s.blocks.getD b default).arr.length = blockMem s b ∧
      (im < blockCo s b → blockMem s b ≤ max_particle_memory) ∧
      (∀ i < blockCo s b,
        (s.blocks.getD b default).arr.getD i default = (accB ls b).getD i default) := by
  intro ls
  induction ls using List.reverseRecOn with
  | nil =>
    intro s _ h
    simp only [serialPutList, List.foldlM_nil, pure, Option.some_inj] at h
    subst h
    refine ⟨rfl, by simp [initState], fun b hb => ?_⟩
    rw [blockCo, blockMem, initState_getD hb]
    refine ⟨rfl, (growMem_of_le him (Nat.zero_le im)).symm, by simp, by simp, by simp⟩
  | append_singleton ls l ih =>
    intro s hvalid h
    rw [serialPutList, List.foldlM_append] at h
    rcases h1 : serialPutList (initState E nblk im) ls with _ | s1
    · rw [serialPutList] at h1
      rw [h1] at h
      simp at h
    · rw [serialPutList] at h1
      rw [h1] at h
      simp only [Option.bind_eq_bind, Option.some_bind, List.foldlM_cons,
        List.foldlM_nil] at h
      have hstep : serialPut s1 l = some s := by simpa using h
      obtain ⟨hov1, hlen1, hblk1⟩ := ih (fun l0 hl0 r hr => hvalid l0 (by simp [hl0]) r hr) h1
      rcases l with _ | ⟨ij, e⟩
      · rw [serialPut_none] at hstep
        rw [Option.some_inj] at hstep
        subst hstep
        refine ⟨hov1, hlen1, fun b hb => ?_⟩
        rw [show accB (ls ++ [none]) b = accB ls b by rw [accB_append, accB_none, List.append_nil]]
        exact hblk1 b hb
      · have hij : ij < nblk := hvalid (some (ij, e)) (by simp) (ij, e) rfl
        obtain ⟨hco1, hmem1, hwf1, hbound1, hcont1⟩ := hblk1 ij hij
        rw [blockCo] at hco1
        rw [blockMem, blockCo] at hmem1
        rw [blockMem] at hwf1
        rw [blockCo, blockMem] at hbound1
        rw [blockCo] at hcont1
        have hcole : (s1.blocks.getD ij default).co ≤ (s1.blocks.getD ij default).mem := by
          rw [hmem1]
          exact le_growMem him
        have hmemge2 : im ≤ (s1.blocks.getD ij default).mem := by
          rw [hmem1]
          exact self_le_growMem him
        have hmemge : 1 ≤ (s1.blocks.getD ij default).mem := by omega
        obtain ⟨bQ, hsplit, hbco, hbwrite, hbpres, hbwf, hbroom, hbmem⟩ :=
          serialPut_some hwf1 hcole hmemge hstep
        have hgd : ∀ b0 : ℕ, s.blocks.getD b0 default =
            if ij = b0 then bQ else s1.blocks.getD b0 default := by
          intro b0
          rw [hsplit]
          simp only []
          rw [getD_set']
          by_cases hb0 : ij = b0
          · simp [hb0, hb0 ▸ (hlen1 ▸ hij : ij < s1.blocks.length)]
          · simp [hb0]
        have hovQ : s.overflow = [] := by rw [hsplit]; exact hov1
        have hlenQ : s.blocks.length = nblk := by
          rw [hsplit]
          simpa using hlen1
        refine ⟨hovQ, hlenQ, fun b hb => ?_⟩
        by_cases hbij : ij = b
        · subst hbij
          have haccQ : accB (ls ++ [some (ij, e)]) ij = accB ls ij ++ [e] := by
            rw [accB_append, accB_some, if_pos rfl]
          rw [blockCo, blockMem, hgd ij, if_pos rfl, haccQ]
          have hlenacc : (accB ls ij ++ [e]).length = (accB ls ij).length + 1 := by
            simp
          constructor
          · rw [hbco, hlenacc, hco1]
          constructor
          · -- capacity is the doubling closure of the new count
            rw [hbco, hbmem]
            by_cases hfull : (s1.blocks.getD ij default).co = (s1.blocks.getD ij default).mem
            · rw [if_pos hfull]
              have : growMem im ((s1.blocks.getD ij default).co + 1) =
                  2 * (s1.blocks.getD ij default).co :=
                growMem_step_eq him (by rw [← hmem1, hfull])
              rw [this, hfull]
            · rw [if_neg hfull]
              have : growMem im ((s1.blocks.getD ij default).co + 1) =
                  growMem im (s1.blocks.getD ij default).co :=
                growMem_step_lt him (by rw [← hmem1]; omega)
              rw [this, hmem1]
          constructor
          · rw [hbwf]
          constructor
          · -- hard-ceiling bound when the capacity was ever grown
            intro hgrown
            rw [hbco] at hgrown
            rw [hbmem]
            by_cases hfull : (s1.blocks.getD ij default).co = (s1.blocks.getD ij default).mem
            · rw [if_pos hfull]
              exact serialPut_growth_bound hfull hstep
            · rw [if_neg hfull]
              rcases le_or_lt (s1.blocks.getD ij default).co im with hle | hlt
              · exfalso
                have : (s1.blocks.getD ij default).mem = im := by
                  rw [hmem1]
                  exact growMem_of_le him hle
                omega
              · have := hbound1 (by omega)
                omega
          · intro i hi
            rw [hbco] at hi
            rcases Nat.lt_succ_iff_lt_or_eq.mp hi with hilt | hieq
            · rw [hbpres i hilt, hcont1 i hilt, getD_append_left]
              omega
            · subst hieq
              rw [hbwrite, hco1, getD_append_length]
        · have haccQ : accB (ls ++ [some (ij, e)]) b = accB ls b := by
            rw [accB_append, accB_some, if_neg hbij, List.append_nil]
          rw [blockCo, blockMem, hgd b, if_neg hbij, haccQ]
          exact hblk1 b hb

end SerialList

/-! ## The parallel batch lemma -/

section ParallelBatch

variable {E : Type} [Inhabited E]

theorem oB_append (o oQ : List (ℕ × ℕ × E)) (b : ℕ) :
    oB (o ++ oQ) b = oB o b ++ oB oQ b := by
  simp [oB, List.filter_append]

theorem oB_single {ij m : ℕ} {e : E} {b : ℕ} :
    oB [(ij, m, e)] b = if ij = b then [(ij, m, e)] else [] := by
  by_cases h : ij = b <;> simp [oB, List.filter_cons, h]

/-- The full effect of a serialized batch of parallel insertions: capacities
and array lengths never change, each block's count grows by its number of
accepted entries, slots below the old count are untouched, slots between the
old count and the capacity receive the accepted entries directly, and the
accepted entries whose reserved slot is at or past the capacity are appended
to the overflow buffer in slot order. -/
theorem parallelPutList_facts {nblk : ℕ} :
    ∀ {ls : List (Option (ℕ × E))} {s0 : CoreState E},
    s0.blocks.length = nblk →
    (∀ l ∈ ls, ∀ r : ℕ × E, l = some r → r.1 < nblk) →
    (∀ b < nblk, blockCo s0 b ≤ blockMem s0 b) →
    (∀ b < nblk, (s0.blocks.getD b default).arr.length = blockMem s0 b) →
    (parallelPutList s0 ls).blocks.length = nblk ∧
    (∀ b, blockMem (parallelPutList s0 ls) b = blockMem s0 b) ∧
    (∀ b, ((parallelPutList s0 ls).blocks.getD b default).arr.length =
      (s0.blocks.getD b default).arr.length) ∧
    (∀ b < nblk, blockCo (parallelPutList s0 ls) b = blockCo s0 b + (accB ls b).length) ∧
    (∀ b < nblk, ∀ i < blockCo s0 b,
      ((parallelPutList s0 ls).blocks.getD b default).arr.getD i default =
        (s0.blocks.getD b default).arr.getD i default) ∧
    (∀ b < nblk, ∀ i, blockCo s0 b ≤ i →
      i < min (blockCo (parallelPutList s0 ls) b) (blockMem s0 b) →
      ((parallelPutList s0 ls).blocks.getD b default).arr.getD i default =
        (accB ls b).getD (i - blockCo s0 b) default) ∧
    (∃ extra, (parallelPutList s0 ls).overflow = s0.overflow ++ extra ∧
      ∀ b < nblk, oB extra b = (List.range' (blockMem s0 b)
        (blockCo (parallelPutList s0 ls) b - blockMem s0 b)).map
          (fun m => (b, m, (accB ls b).getD (m - blockCo s0 b) default))) := by
  intro ls
  induction ls using List.reverseRecOn with
  | nil =>
    intro s0 hlen hvalid hco0 hwf0
    refine ⟨hlen, fun b => rfl, fun b => rfl, fun b hb => by simp [accB, accList, parallelPutList],
      fun b hb i hi => rfl, fun b hb i hge hlt => ?_,
      ⟨[], by simp [parallelPutList], fun b hb => ?_⟩⟩
    · exact absurd (lt_min_iff.mp hlt).1 (by exact Nat.not_lt.mpr hge)
    · have h0 : blockCo (parallelPutList s0 []) b - blockMem s0 b = 0 :=
        Nat.sub_eq_zero_of_le (hco0 b hb)
      rw [h0]
      simp [oB]
  | append_singleton ls l ih =>
    intro s0 hlen hvalid hco0 hwf0
    have hfold : parallelPutList s0 (ls ++ [l]) = parallelPut (parallelPutList s0 ls) l := by
      rw [parallelPutList, List.foldl_append]
      rfl
    obtain ⟨len1, mem1, arrl1, co1, pres1, cont1, extra, hov1, hoB1⟩ :=
      @ih s0 hlen (fun l0 hl0 r hr => hvalid l0 (by simp [hl0]) r hr) hco0 hwf0
    set s1 := parallelPutList s0 ls with hs1
    rcases l with _ | ⟨ij, e⟩
    · have hacc : ∀ b, accB (ls ++ [none]) b = accB ls b := fun b => by
        rw [accB_append, accB_none, List.append_nil]
      rw [hfold]
      have hid : parallelPut s1 none = s1 := rfl
      rw [hid]
      exact ⟨len1, mem1, arrl1, fun b hb => by rw [hacc]; exact co1 b hb,
        pres1, fun b hb i hge hlt => by rw [hacc]; exact cont1 b hb i hge hlt,
        ⟨extra, hov1, fun b hb => by rw [hacc]; exact hoB1 b hb⟩⟩
    · have hij : ij < nblk := hvalid (some (ij, e)) (by simp) (ij, e) rfl
      have hijlen : ij < s1.blocks.length := by omega
      have hacc : ∀ b, ij ≠ b → accB (ls ++ [some (ij, e)]) b = accB ls b := fun b hb => by
        rw [accB_append, accB_some, if_neg hb, List.append_nil]
      have haccij : accB (ls ++ [some (ij, e)]) ij = accB ls ij ++ [e] := by
        rw [accB_append, accB_some, if_pos rfl]
      have hlenaccij : (accB (ls ++ [some (ij, e)]) ij).length = (accB ls ij).length + 1 := by
        rw [haccij]
        simp
    -- facts about the touched block of the intermediate state
      have hcoij : (s1.blocks.getD ij default).co = blockCo s0 ij + (accB ls ij).length :=
        co1 ij hij
      have hmemij : (s1.blocks.getD ij default).mem = blockMem s0 ij := mem1 ij
      have harrij : (s1.blocks.getD ij default).arr.length = blockMem s0 ij := by
        rw [arrl1 ij]
        exact hwf0 ij hij
      rw [hfold]
      simp only [parallelPut]
      set b1 := s1.blocks.getD ij default with hb1
      have hgd : ∀ (nb : Blk E) (b0 : ℕ), (s1.blocks.set ij nb).getD b0 default =
          if ij = b0 then nb else s1.blocks.getD b0 default := by
        intro nb b0
        rw [getD_set']
        by_cases hb0 : ij = b0
        · simp [hb0, hb0 ▸ hijlen]
        · simp [hb0]
      by_cases hdir : b1.co < b1.mem
      · rw [if_pos hdir]
        refine ⟨by simpa using len1, ?_, ?_, ?_, ?_, ?_, ⟨extra, by simpa using hov1, ?_⟩⟩
        · intro b0
          show ((s1.blocks.set ij _).getD b0 default).mem = blockMem s0 b0
          rw [hgd]
          by_cases hb0 : ij = b0
          · rw [if_pos hb0]
            show b1.mem = blockMem s0 b0
            rw [hb1, hb0]
            exact mem1 b0
          · rw [if_neg hb0]
            exact mem1 b0
        · intro b0
          show ((s1.blocks.set ij _).getD b0 default).arr.length =
            (s0.blocks.getD b0 default).arr.length
          rw [hgd]
          by_cases hb0 : ij = b0
          · rw [if_pos hb0]
            show (b1.arr.set b1.co e).length = (s0.blocks.getD b0 default).arr.length
            rw [List.length_set, hb1, hb0]
            exact arrl1 b0
          · rw [if_neg hb0]
            exact arrl1 b0
        · intro b0 hb0lt
          show ((s1.blocks.set ij _).getD b0 default).co =
            blockCo s0 b0 + (accB (ls ++ [some (ij, e)]) b0).length
          rw [hgd]
          by_cases hb0 : ij = b0
          · rw [if_pos hb0]
            show b1.co + 1 = blockCo s0 b0 + (accB (ls ++ [some (ij, e)]) b0).length
            rw [← hb0, hlenaccij, hb1, hcoij]
            omega
          · rw [if_neg hb0, hacc b0 hb0]
            exact co1 b0 hb0lt
        · intro b0 hb0lt i hi
          show ((s1.blocks.set ij _).getD b0 default).arr.getD i default =
            (s0.blocks.getD b0 default).arr.getD i default
          rw [hgd]
          by_cases hb0 : ij = b0
          · rw [if_pos hb0]
            show (b1.arr.set b1.co e).getD i default =
              (s0.blocks.getD b0 default).arr.getD i default
            have hico : i < b1.co := by
              rw [hb1, hcoij]
              rw [← hb0] at hi
              omega
            rw [getD_set_ne (by omega), hb1, ← hb0]
            exact pres1 ij hij i (by rw [← hb0] at hi; exact hi)
          · rw [if_neg hb0]
            exact pres1 b0 hb0lt i hi
        · intro b0 hb0lt i hge hlt
          show ((s1.blocks.set ij _).getD b0 default).arr.getD i default =
            (accB (ls ++ [some (ij, e)]) b0).getD (i - blockCo s0 b0) default
          rw [hgd]
          by_cases hb0 : ij = b0
          · subst hb0
            rw [if_pos rfl, haccij]
            show (b1.arr.set b1.co e).getD i default =
              (accB ls ij ++ [e]).getD (i - blockCo s0 ij) default
            rw [blockCo] at hlt
            simp only [] at hlt
            rw [hgd, if_pos rfl] at hlt
            have hlt2 : i < min (b1.co + 1) (blockMem s0 ij) := hlt
            rcases Nat.lt_succ_iff_lt_or_eq.mp (lt_min_iff.mp hlt2).1 with hilt | hieq
            · rw [getD_set_ne (by omega), getD_append_left (by omega)]
              exact cont1 ij hij i hge (by rw [blockCo, ← hb1]; omega)
            · subst hieq
              rw [getD_set_self (by rw [harrij, ← hmemij]; omega)]
              rw [hb1, hcoij]
              have hix : blockCo s0 ij + (accB ls ij).length - blockCo s0 ij =
                  (accB ls ij).length := by omega
              rw [hix, getD_append_length]
          · rw [if_neg hb0, hacc b0 hb0]
            rw [blockCo] at hlt
            simp only [] at hlt
            rw [hgd, if_neg hb0] at hlt
            exact cont1 b0 hb0lt i hge hlt
        · intro b0 hb0lt
          have hco2 : blockCo (CoreState.mk
                (s1.blocks.set ij (Blk.mk (b1.co + 1) b1.mem (b1.arr.set b1.co e)))
                s1.overflow) b0 =
              (if ij = b0 then b1.co + 1 else blockCo s1 b0) := by
            rw [blockCo]
            show ((s1.blocks.set ij _).getD b0 default).co = _
            rw [hgd]
            by_cases hb0 : ij = b0
            · rw [if_pos hb0, if_pos hb0]
            · rw [if_neg hb0, if_neg hb0]
              rfl
          rw [hco2]
          by_cases hb0 : ij = b0
          · subst hb0
            rw [if_pos rfl]
            have hlt1 : b1.co < blockMem s0 ij := by omega
            have hz1 : b1.co + 1 - blockMem s0 ij = 0 := by omega
            have hz0 : blockCo s1 ij - blockMem s0 ij = 0 := by
              rw [blockCo, ← hb1]
              omega
            rw [hz1]
            have hB := hoB1 ij hij
            rw [hz0] at hB
            simpa using hB
          · rw [if_neg hb0, hacc b0 hb0]
            exact hoB1 b0 hb0lt
      · rw [if_neg hdir]
        have hmemle : b1.mem ≤ b1.co := by omega
        refine ⟨by simpa using len1, ?_, ?_, ?_, ?_, ?_,
          ⟨extra ++ [(ij, b1.co, e)], ?_, ?_⟩⟩
        · intro b0
          show ((s1.blocks.set ij _).getD b0 default).mem = blockMem s0 b0
          rw [hgd]
          by_cases hb0 : ij = b0
          · rw [if_pos hb0]
            show b1.mem = blockMem s0 b0
            rw [hb1, hb0]
            exact mem1 b0
          · rw [if_neg hb0]
            exact mem1 b0
        · intro b0
          show ((s1.blocks.set ij _).getD b0 default).arr.length =
            (s0.blocks.getD b0 default).arr.length
          rw [hgd]
          by_cases hb0 : ij = b0
          · rw [if_pos hb0]
            show b1.arr.length = (s0.blocks.getD b0 default).arr.length
            rw [hb1, hb0]
            exact arrl1 b0
          · rw [if_neg hb0]
            exact arrl1 b0
        · intro b0 hb0lt
          show ((s1.blocks.set ij _).getD b0 default).co =
            blockCo s0 b0 + (accB (ls ++ [some (ij, e)]) b0).length
          rw [hgd]
          by_cases hb0 : ij = b0
          · rw [if_pos hb0]
            show b1.co + 1 = blockCo s0 b0 + (accB (ls ++ [some (ij, e)]) b0).length
            rw [← hb0, hlenaccij, hb1, hcoij]
            omega
          · rw [if_neg hb0, hacc b0 hb0]
            exact co1 b0 hb0lt
        · intro b0 hb0lt i hi
          show ((s1.blocks.set ij _).getD b0 default).arr.getD i default =
            (s0.blocks.getD b0 default).arr.getD i default
          rw [hgd]
          by_cases hb0 : ij = b0
          · rw [if_pos hb0]
            show b1.arr.getD i default = (s0.blocks.getD b0 default).arr.getD i default
            rw [hb1, ← hb0]
            exact pres1 ij hij i (by rw [← hb0] at hi; exact hi)
          · rw [if_neg hb0]
            exact pres1 b0 hb0lt i hi
        · intro b0 hb0lt i hge hlt
          show ((s1.blocks.set ij _).getD b0 default).arr.getD i default =
            (accB (ls ++ [some (ij, e)]) b0).getD (i - blockCo s0 b0) default
          rw [hgd]
          by_cases hb0 : ij = b0
          · subst hb0
            rw [if_pos rfl, haccij]
            show b1.arr.getD i default = (accB ls ij ++ [e]).getD (i - blockCo s0 ij) default
            have himem : i < blockMem s0 ij := (lt_min_iff.mp hlt).2
            have hico1 : i < blockCo s1 ij := by
              rw [blockCo, ← hb1]
              rw [← hmemij] at himem
              omega
            rw [getD_append_left (by rw [blockCo, ← hb1, hb1, hcoij] at hico1; omega)]
            exact cont1 ij hij i hge (by omega)
          · rw [if_neg hb0, hacc b0 hb0]
            rw [blockCo] at hlt
            simp only [] at hlt
            rw [hgd, if_neg hb0] at hlt
            exact cont1 b0 hb0lt i hge hlt
        · show s1.overflow ++ [(ij, b1.co, e)] = s0.overflow ++ (extra ++ [(ij, b1.co, e)])
          rw [hov1, List.append_assoc]
        · intro b0 hb0lt
          have hco2 : blockCo (CoreState.mk
                (s1.blocks.set ij (Blk.mk (b1.co + 1) b1.mem b1.arr))
                (s1.overflow ++ [(ij, b1.co, e)])) b0 =
              (if ij = b0 then b1.co + 1 else blockCo s1 b0) := by
            rw [blockCo]
            show ((s1.blocks.set ij _).getD b0 default).co = _
            rw [hgd]
            by_cases hb0 : ij = b0
            · rw [if_pos hb0, if_pos hb0]
            · rw [if_neg hb0, if_neg hb0]
              rfl
          rw [hco2, oB_append, oB_single]
          by_cases hb0 : ij = b0
          · subst hb0
            rw [if_pos rfl, if_pos rfl, hoB1 ij hij]
            have hmem0le : blockMem s0 ij ≤ b1.co := by
              rw [hb1, ← hmemij]
              exact hmemle
            have hn : b1.co + 1 - blockMem s0 ij = (b1.co - blockMem s0 ij) + 1 := by omega
            have hcos1 : blockCo s1 ij = b1.co := by rw [blockCo, ← hb1]
            rw [hcos1, hn, List.range'_concat]
            rw [List.map_append]
            congr 1
            · apply List.map_congr_left
              intro a ha
              rw [List.mem_range'_1] at ha
              have hab : a < b1.co := by omega
              have haco : a - blockCo s0 ij < (accB ls ij).length := by
                have hc0 := hco0 ij hij
                omega
              rw [haccij, getD_append_left haco]
            · have hend : blockMem s0 ij + 1 * (b1.co - blockMem s0 ij) = b1.co := by omega
              rw [hend]
              have hix : b1.co - blockCo s0 ij = (accB ls ij).length := by
                have hc0 := hco0 ij hij
                omega
              simp only [List.map_cons, List.map_nil]
              rw [haccij, hix, getD_append_length]
          · rw [if_neg hb0, if_neg hb0, List.append_nil, hacc b0 hb0]
            exact hoB1 b0 hb0lt

end ParallelBatch

/-! ## Reconciliation of a batch-shaped overflow buffer -/

section ReconcileRound

variable {E : Type} [Inhabited E]

theorem list_ext_getD {α : Type} {l1 l2 : List α} {d : α} (hlen : l1.length = l2.length)
    (h : ∀ i < l1.length, l1.getD i d = l2.getD i d) : l1 = l2 := by
  apply List.ext_getElem hlen
  intro i h1 h2
  have hi := h i h1
  rw [List.getD_eq_getElem?_getD, List.getD_eq_getElem?_getD,
    List.getElem?_eq_getElem h1, List.getElem?_eq_getElem h2] at hi
  simpa using hi

theorem mem_split_last {α : Type} {a : α} :
    ∀ {l : List α}, a ∈ l → ∃ s t, l = s ++ a :: t ∧ a ∉ t := by
  intro l
  induction l with
  | nil => intro h; simp at h
  | cons x xs ih =>
    intro h
    by_cases hx : a ∈ xs
    · obtain ⟨s, t, rfl, hnt⟩ := ih hx
      exact ⟨x :: s, t, rfl, hnt⟩
    · have hax : a = x := by
        rcases List.mem_cons.mp h with h1 | h1
        · exact h1
        · exact absurd h1 hx
      subst hax
      exact ⟨[], xs, rfl, hx⟩

/-- Every overflow record produced by a parallel batch from a record-valid
state targets a valid block. -/
theorem parallelPutList_overflow_blocks {nblk : ℕ} :
    ∀ {ls : List (Option (ℕ × E))} {s0 : CoreState E},
    (∀ l ∈ ls, ∀ r : ℕ × E, l = some r → r.1 < nblk) →
    (∀ r ∈ s0.overflow, r.1 < nblk) →
    ∀ r ∈ (parallelPutList s0 ls).overflow, r.1 < nblk := by
  intro ls
  induction ls using List.reverseRecOn with
  | nil => intro s0 _ h0; exact h0
  | append_singleton ls l ih =>
    intro s0 hvalid h0
    have hfold : parallelPutList s0 (ls ++ [l]) = parallelPut (parallelPutList s0 ls) l := by
      rw [parallelPutList, List.foldl_append]
      rfl
    rw [hfold]
    have hprev := ih (fun l0 hl0 r hr => hvalid l0 (by simp [hl0]) r hr) h0
    rcases l with _ | ⟨ij, e⟩
    · exact hprev
    · have hij : ij < nblk := hvalid (some (ij, e)) (by simp) (ij, e) rfl
      simp only [parallelPut]
      split
      · exact hprev
      · intro r hr
        rcases List.mem_append.mp hr with h1 | h1
        · exact hprev r h1
        · rcases List.mem_singleton.mp h1 with rfl
          exact hij

/-- A successful `reconcileRecord` only replaces the targeted block. -/
theorem reconcileRecord_shape {s s' : CoreState E} {ij m : ℕ} {e : E}
    (h : reconcileRecord s (ij, m, e) = some s') :
    ∃ X, s' = { s with blocks := s.blocks.set ij X } := by
  simp only [reconcileRecord] at h
  split at h
  · split at h
    · simp at h
    · simp only [Option.map_some', Option.some_inj] at h
      exact ⟨_, h.symm⟩
  · simp only [Option.map_some', Option.some_inj] at h
    exact ⟨_, h.symm⟩

/-- Capacity evolution of one record processed at the cursor: if the current
capacity is `growMem M c` and the record's slot is `c`, the new capacity is
`growMem M (c+1)` (no change below capacity, doubling loop at capacity). -/
theorem reconcileRecord_mem_cursor {s s' : CoreState E} {ij : ℕ} {e : E} {M c : ℕ}
    (hM : M ≠ 0) (hmem : blockMem s ij = growMem M c)
    (h : reconcileRecord s (ij, c, e) = some s') :
    blockMem s' ij = growMem M (c + 1) := by
  have hij : ij < s.blocks.length := by
    by_contra hij
    have hd : s.blocks.getD ij default = default := List.getD_eq_default _ _ (by omega)
    have : blockMem s ij = 0 := by rw [blockMem, hd]; rfl
    have := self_le_growMem (t := c) hM
    omega
  have hc : c ≤ growMem M c := le_growMem hM
  have hmem' : (s.blocks.getD ij default).mem = growMem M c := hmem
  simp only [reconcileRecord] at h
  split at h
  · -- slot at capacity: c = growMem M c, the doubling loop runs
    rename_i hle
    have hceq : growMem M c = c := by omega
    have hcpos : 1 ≤ c := by
      have := self_le_growMem (t := c) hM
      omega
    have hnmem : growMem (2 * (s.blocks.getD ij default).mem) (c + 1) = 2 * c := by
      rw [hmem', hceq]
      exact growMem_of_le (by omega) (by omega)
    split at h
    · simp at h
    · simp only [Option.map_some', Option.some_inj] at h
      subst h
      rw [blockMem]
      rw [show (({ s with blocks := s.blocks.set ij _ } :
          CoreState E).blocks.getD ij default) =
        ({ s.blocks.getD ij default with
            mem := growMem (2 * (s.blocks.getD ij default).mem) (c + 1),
            arr := (padTo (growMem (2 * (s.blocks.getD ij default).mem) (c + 1))
              ((s.blocks.getD ij default).arr.take (s.blocks.getD ij default).mem)).set c e }
          : Blk E) from getD_set_self (by omega)]
      show growMem (2 * (s.blocks.getD ij default).mem) (c + 1) = growMem M (c + 1)
      rw [hnmem, growMem_step_eq hM hceq]
  · -- slot below capacity: no growth
    rename_i hlt
    simp only [Option.map_some', Option.some_inj] at h
    subst h
    rw [blockMem]
    rw [show (({ s with blocks := s.blocks.set ij _ } :
        CoreState E).blocks.getD ij default) =
      ({ s.blocks.getD ij default with
          arr := (s.blocks.getD ij default).arr.set c e } : Blk E) from
        getD_set_self (by omega)]
    show (s.blocks.getD ij default).mem = growMem M (c + 1)
    rw [hmem', growMem_step_lt hM (by omega)]

/-- Capacity evolution over a batch-shaped overflow buffer: if the remaining
records of every block are exactly the slots from a cursor `c b` up to a
target `N b` and the current capacity is on the growth path at the cursor,
the final capacity is `growMem (M b) (N b)`. -/
theorem reconcileFold_mem {nblk : ℕ} {M N : ℕ → ℕ} {v : ℕ → ℕ → E} :
    ∀ {o : List (ℕ × ℕ × E)} {c : ℕ → ℕ} {t t' : CoreState E},
    (∀ r ∈ o, r.1 < nblk) →
    (∀ b < nblk, M b ≠ 0) →
    (∀ b < nblk, blockMem t b = growMem (M b) (c b)) →
    (∀ b < nblk, c b ≤ max (M b) (N b)) →
    (∀ b < nblk, oB o b = (List.range' (c b) (N b - c b)).map (fun m => (b, m, v b m))) →
    o.foldlM reconcileRecord t = some t' →
    ∀ b < nblk, blockMem t' b = growMem (M b) (N b) := by
  intro o
  induction o with
  | nil =>
    intro c t t' _ hM hmem hcub hshape h b hb
    simp only [List.foldlM_nil, pure, Option.some_inj] at h
    subst h
    have hsh := hshape b hb
    have hnil : N b - c b = 0 := by
      by_contra hne
      rcases Nat.exists_eq_succ_of_ne_zero hne with ⟨k, hk⟩
      rw [hk, List.range'_succ] at hsh
      simp [oB] at hsh
    rcases le_or_lt (N b) (M b) with hNM | hNM
    · have hcM : c b ≤ M b := le_trans (hcub b hb) (by omega)
      rw [hmem b hb, growMem_of_le (hM b hb) hcM, growMem_of_le (hM b hb) hNM]
    · have hcN : c b = N b := by
        have := hcub b hb
        omega
      rw [hmem b hb, hcN]
  | cons r rest ih =>
    intro c t t' hok hM hmem hcub hshape h
    obtain ⟨ij, m, e⟩ := r
    have hij : ij < nblk := hok (ij, m, e) (List.mem_cons_self _ _)
    have hsh := hshape ij hij
    have hcons : oB ((ij, m, e) :: rest) ij = (ij, m, e) :: oB rest ij := by
      simp [oB]
    rw [hcons] at hsh
    have hkpos : N ij - c ij ≠ 0 := by
      intro h0
      rw [h0] at hsh
      simp at hsh
    rcases Nat.exists_eq_succ_of_ne_zero hkpos with ⟨k, hk⟩
    rw [hk, List.range'_succ, List.map_cons] at hsh
    have hhead : (ij, m, e) = (ij, c ij, v ij (c ij)) := by
      have := List.head_eq_of_cons_eq hsh
      simpa using this
    have hme : m = c ij ∧ e = v ij (c ij) := by
      have h1 := congrArg (fun t : ℕ × ℕ × E => t.2.1) hhead
      have h2 := congrArg (fun t : ℕ × ℕ × E => t.2.2) hhead
      exact ⟨h1, h2⟩
    have htail : oB rest ij = (List.range' (c ij + 1) k 1).map (fun m => (ij, m, v ij m)) :=
      List.tail_eq_of_cons_eq hsh
    rw [List.foldlM_cons] at h
    rcases hstep : reconcileRecord t (ij, m, e) with _ | t1
    · rw [hstep] at h
      simp at h
    · rw [hstep] at h
      simp only [Option.bind_eq_bind, Option.some_bind] at h
      obtain ⟨X, hX⟩ := reconcileRecord_shape hstep
      have hother : ∀ b ≠ ij, t1.blocks.getD b default = t.blocks.getD b default := by
        intro b hb
        rw [hX]
        exact getD_set_ne (fun hh => hb hh.symm)
      have hmemij : blockMem t1 ij = growMem (M ij) (c ij + 1) := by
        rw [hme.1] at hstep
        exact reconcileRecord_mem_cursor (hM ij hij) (hmem ij hij) hstep
      refine @ih (fun b => if b = ij then c ij + 1 else c b) t1 t'
        (fun r hr => hok r (List.mem_cons_of_mem _ hr)) hM ?_ ?_ ?_ h
      · intro b hb
        by_cases hbij : b = ij
        · simp only [if_pos hbij]
          rw [hbij]
          exact hmemij
        · simp only [if_neg hbij]
          rw [blockMem, hother b hbij]
          exact hmem b hb
      · intro b hb
        by_cases hbij : b = ij
        · simp only [if_pos hbij]
          rw [hbij]
          have hcn : c ij < N ij := by omega
          omega
        · simp only [if_neg hbij]
          exact hcub b hb
      · intro b hb
        by_cases hbij : b = ij
        · simp only [if_pos hbij]
          rw [hbij]
          rw [htail]
          have hkk : k = N ij - (c ij + 1) := by omega
          rw [hkk]
        · simp only [if_neg hbij]
          have hob : oB rest b = oB ((ij, m, e) :: rest) b := by
            simp only [oB, List.filter_cons]
            rw [if_neg (by simp; intro hh; exact hbij hh.symm)]
          rw [hob]
          exact hshape b hb

/-- The full effect of one parallel round (a serialized batch of `put_parallel`
calls followed by `put_reconcile_overflow`) on the block storage, starting from
a state with an empty overflow buffer: the overflow ends empty, each block's
count grows by its number of accepted entries, the capacity becomes the
doubling-loop growth of the old capacity to the new count (in particular
`co ≤ mem` again), old slots are untouched and the new slots hold the accepted
entries in reservation order. -/
theorem roundFacts {nblk : ℕ} {ls : List (Option (ℕ × E))} {s0 s : CoreState E}
    (hlen : s0.blocks.length = nblk)
    (hov0 : s0.overflow = [])
    (hvalid : ∀ l ∈ ls, ∀ r : ℕ × E, l = some r → r.1 < nblk)
    (hco0 : ∀ b < nblk, blockCo s0 b ≤ blockMem s0 b)
    (hwf0 : ∀ b < nblk, (s0.blocks.getD b default).arr.length = blockMem s0 b)
    (hmem0 : ∀ b < nblk, blockMem s0 b ≠ 0)
    (h : reconcile (parallelPutList s0 ls) = some s) :
    s.overflow = [] ∧ s.blocks.length = nblk ∧
    ∀ b < nblk,
      blockCo s b = blockCo s0 b + (accB ls b).length ∧
      blockMem s b = growMem (blockMem s0 b) (blockCo s b) ∧
      (s.blocks.getD b default).arr.length = blockMem s b ∧
      blockCo s b ≤ blockMem s b ∧
      (∀ i < blockCo s0 b, (s.blocks.getD b default).arr.getD i default =
          (s0.blocks.getD b default).arr.getD i default) ∧
      (∀ i, blockCo s0 b ≤ i → i < blockCo s b →
          (s.blocks.getD b default).arr.getD i default =
            (accB ls b).getD (i - blockCo s0 b) default) := by
  obtain ⟨len1, mem1, arrl1, co1, pres1, cont1, extra, hov1, hoB1⟩ :=
    parallelPutList_facts hlen hvalid hco0 hwf0
  set s1 := parallelPutList s0 ls with hs1
  rw [hov0, List.nil_append] at hov1
  have hwf1 : ∀ b, (s1.blocks.getD b default).arr.length =
      (s1.blocks.getD b default).mem := by
    intro b
    rcases lt_or_ge b nblk with hb | hb
    · rw [arrl1 b, hwf0 b hb]
      exact (mem1 b).symm
    · rw [List.getD_eq_default _ _ (by omega)]
      rfl
  simp only [reconcile] at h
  rcases hfold : s1.overflow.foldlM reconcileRecord s1 with _ | s2
  · rw [hfold] at h
    simp at h
  · rw [hfold] at h
    simp only [Option.map_some', Option.some_inj] at h
    subst h
    obtain ⟨wf2, len2, over2, co2, mem2mono, pres2⟩ := reconcileFold_facts hwf1 hfold
    have hok : ∀ r ∈ s1.overflow, r.1 < nblk :=
      parallelPutList_overflow_blocks hvalid (by rw [hov0]; intro r hr; simp at hr)
    have hno : ∀ b < nblk, ∀ i, i < blockMem s0 b →
        ∀ r ∈ s1.overflow, ¬(r.1 = b ∧ r.2.1 = i) := by
      intro b hb i hi r hr hkey
      rw [hov1] at hr
      have hrB : r ∈ oB extra b := by
        rw [oB, List.mem_filter]
        exact ⟨hr, by simp [hkey.1]⟩
      rw [hoB1 b hb] at hrB
      obtain ⟨mm, hmm, hrm⟩ := List.mem_map.mp hrB
      rw [List.mem_range'_1] at hmm
      have : r.2.1 = mm := by rw [← hrm]
      omega
    have hmemex : ∀ b < nblk, blockMem s2 b = growMem (blockMem s0 b) (blockCo s1 b) := by
      refine reconcileFold_mem (M := fun b => blockMem s0 b)
        (N := fun b => blockCo s1 b)
        (v := fun b m => (accB ls b).getD (m - blockCo s0 b) default)
        (c := fun b => blockMem s0 b) hok hmem0 ?_ ?_ ?_ hfold
      · intro b hb
        rw [mem1 b, growMem_of_le (hmem0 b hb) (le_refl _)]
      · intro b hb
        exact le_max_left _ _
      · intro b hb
        rw [hov1]
        exact hoB1 b hb
    refine ⟨rfl, by rw [show ({ s2 with overflow := ([] : List (ℕ × ℕ × E)) }
        : CoreState E).blocks = s2.blocks from rfl]; omega, ?_⟩
    intro b hb
    have hcoS : blockCo { s2 with overflow := ([] : List (ℕ × ℕ × E)) } b = blockCo s1 b := by
      rw [blockCo, blockCo]
      exact co2 b
    have hmemS : blockMem { s2 with overflow := ([] : List (ℕ × ℕ × E)) } b =
        blockMem s2 b := rfl
    refine ⟨?_, ?_, ?_, ?_, ?_, ?_⟩
    · rw [hcoS, co1 b hb]
    · rw [hcoS, hmemS, hmemex b hb]
    · show (s2.blocks.getD b default).arr.length = _
      rw [wf2 b, hmemS]
      rfl
    · rw [hcoS, hmemS, hmemex b hb]
      exact le_growMem (hmem0 b hb)
    · intro i hi
      show (s2.blocks.getD b default).arr.getD i default = _
      have him : i < (s1.blocks.getD b default).mem := by
        have h1 : blockMem s1 b = blockMem s0 b := mem1 b
        have h2 : blockCo s0 b ≤ blockMem s0 b := hco0 b hb
        rw [blockMem] at h1
        omega
      rw [pres2 b i him (fun r hr => hno b hb i (by
        have h1 : blockMem s1 b = blockMem s0 b := mem1 b
        rw [blockMem] at h1
        omega) r hr)]
      exact pres1 b hb i hi
    · intro i hge hlt
      rw [hcoS] at hlt
      show (s2.blocks.getD b default).arr.getD i default = _
      rcases lt_or_ge i (blockMem s0 b) with hiM | hiM
      · have him : i < (s1.blocks.getD b default).mem := by
          have h1 : blockMem s1 b = blockMem s0 b := mem1 b
          rw [blockMem] at h1
          omega
        rw [pres2 b i him (fun r hr => hno b hb i hiM r hr)]
        exact cont1 b hb i hge (by
          rw [lt_min_iff]
          exact ⟨hlt, hiM⟩)
      · -- the slot was reserved past the capacity: it went through the buffer
        have hmemrec : (b, i, (accB ls b).getD (i - blockCo s0 b) default) ∈ s1.overflow := by
          rw [hov1]
          have : (b, i, (accB ls b).getD (i - blockCo s0 b) default) ∈ oB extra b := by
            rw [hoB1 b hb]
            refine List.mem_map.mpr ⟨i, ?_, rfl⟩
            rw [List.mem_range'_1]
            omega
          rw [oB, List.mem_filter] at this
          exact this.1
        obtain ⟨o1, o2, hsplit, hnot2⟩ := mem_split_last hmemrec
        have hlast : ∀ r ∈ o2, ¬(r.1 = b ∧ r.2.1 = i) := by
          intro r hr hkey
          have hrall : r ∈ s1.overflow := by
            rw [hsplit]
            simp [hr]
          rw [hov1] at hrall
          have hrB : r ∈ oB extra b := by
            rw [oB, List.mem_filter]
            exact ⟨hrall, by simp [hkey.1]⟩
          rw [hoB1 b hb] at hrB
          obtain ⟨mm, hmm, hrm⟩ := List.mem_map.mp hrB
          have hmmi : mm = i := by
            have : r.2.1 = mm := by rw [← hrm]
            omega
          subst hmmi
          rw [← hrm] at hr
          exact hnot2 hr
        rw [hsplit] at hfold
        obtain ⟨hwrite, -⟩ := reconcileFold_write hwf1 hfold (by omega)
          (by
            have h1 : blockMem s1 b = blockMem s0 b := mem1 b
            have h2 := hmem0 b hb
            rw [blockMem] at h1
            omega)
          hlast
        exact hwrite

end ReconcileRound

/-! ## Bridging the container front ends to the storage-level schedules -/

section Bridges

variable {E : Type} [Inhabited E]

/-- An accepted `locate2` targets a block inside the grid. -/
theorem locate2_valid {p : Params} (hwf : p.WF) {q : Particle2} {r : ℕ × Particle2}
    (h : locate2 p q = some r) : r.1 < p.nxy := by
  rw [locate2] at h
  rcases ho : put_remap p q.2.1 q.2.2 with _ | o
  · rw [ho] at h
    simp at h
  · rw [ho] at h
    simp only [Option.map_some', Option.some_inj] at h
    obtain ⟨i', j', hi0, hilt, hj0, hjlt, hij, -, -⟩ := put_remap_some p hwf _ _ o ho
    have hlt : o.ij < (p.nx : ℤ) * (p.ny : ℤ) := by
      rw [hij]
      nlinarith
    have h0 : 0 ≤ o.ij := by
      rw [hij]
      positivity
    rw [← h]
    show o.ij.toNat < p.nxy
    rw [Params.nxy]
    omega

/-- An accepted `locate3` targets a block inside the grid. -/
theorem locate3_valid {p : Params} (hwf : p.WF) {q : Particle3} {r : ℕ × Particle3}
    (h : locate3 p q = some r) : r.1 < p.nxy := by
  rw [locate3] at h
  rcases ho : put_remap p q.2.1 q.2.2.1 with _ | o
  · rw [ho] at h
    simp at h
  · rw [ho] at h
    simp only [Option.map_some', Option.some_inj] at h
    obtain ⟨i', j', hi0, hilt, hj0, hjlt, hij, -, -⟩ := put_remap_some p hwf _ _ o ho
    have hlt : o.ij < (p.nx : ℤ) * (p.ny : ℤ) := by
      rw [hij]
      nlinarith
    have h0 : 0 ≤ o.ij := by
      rw [hij]
      positivity
    rw [← h]
    show o.ij.toNat < p.nxy
    rw [Params.nxy]
    omega

/-- Serial insertion through the `container_2d` front end is the storage-level
serial schedule of the located particles. -/
theorem con2_putList_eq (p : Params) (s : Con2.State) (qs : List Particle2) :
    Con2.putList p s qs = serialPutList s (qs.map (locate2 p)) := by
  rw [Con2.putList, serialPutList, List.foldlM_map]
  rfl

/-- A parallel batch through the `container_2d` front end is the storage-level
parallel schedule of the located particles. -/
theorem con2_parallel_eq (p : Params) (s : Con2.State) (qs : List Particle2) :
    Con2.put_parallel_list p s qs = parallelPutList s (qs.map (locate2 p)) := by
  rw [Con2.put_parallel_list, parallelPutList, List.foldl_map]
  rfl

/-- When every located element is accepted into block `0`, the accepted list
of block `0` has one entry per input. -/
theorem accB_all_zero {ls : List (Option (ℕ × E))}
    (h : ∀ l ∈ ls, ∃ r : ℕ × E, l = some r ∧ r.1 = 0) :
    (accB ls 0).length = ls.length := by
  induction ls with
  | nil => rfl
  | cons l rest ih =>
    obtain ⟨r, rfl, hr0⟩ := h l (List.mem_cons_self _ _)
    have hrest := ih (fun l0 hl0 => h l0 (List.mem_cons_of_mem _ hl0))
    rw [accB, accList] at hrest ⊢
    rw [show List.filterMap id (some r :: rest) = r :: List.filterMap id rest from
        List.filterMap_cons_some rfl, List.filter_cons,
      if_pos (by simp [hr0]), List.map_cons]
    simp only [List.length_cons, hrest]

/-- A block's stored-entry list is determined by its count and slotwise
contents. -/
theorem blockEntries_eq_of {s : CoreState E} {b : ℕ} {L : List E}
    (hco : blockCo s b = L.length)
    (hlen : blockCo s b ≤ (s.blocks.getD b default).arr.length)
    (hcont : ∀ i < blockCo s b,
      (s.blocks.getD b default).arr.getD i default = L.getD i default) :
    blockEntries s b = L := by
  apply list_ext_getD (d := default)
  · rw [blockEntries, List.length_take, ← hco]
    rw [blockCo] at hlen ⊢
    omega
  · intro i hi
    rw [blockEntries, List.length_take] at hi
    have hico : i < blockCo s b := by
      rw [blockCo]
      omega
    rw [blockEntries, getD_take (by rw [blockCo] at hico; omega), hcont i hico]

/-- Splitting an all-valid keyed list by key: the filtered lengths sum to the
total length. -/
theorem sum_filter_key {nblk : ℕ} {F : Type} :
    ∀ {L : List (ℕ × F)}, (∀ r ∈ L, r.1 < nblk) →
    ∑ b ∈ Finset.range nblk, (L.filter fun r => r.1 == b).length = L.length := by
  intro L
  induction L with
  | nil => intro _; simp
  | cons r rest ih =>
    intro h
    have hr : r.1 < nblk := h r (List.mem_cons_self _ _)
    have hrest := ih (fun r0 hr0 => h r0 (List.mem_cons_of_mem _ hr0))
    have hsplit : ∀ b, ((r :: rest).filter fun r0 => r0.1 == b).length =
        (if b = r.1 then 1 else 0) + (rest.filter fun r0 => r0.1 == b).length := by
      intro b
      rw [List.filter_cons]
      by_cases hb : r.1 = b
      · rw [if_pos (by simp [hb]), if_pos hb.symm, List.length_cons]
        omega
      · rw [if_neg (by simp [hb]), if_neg (fun hh => hb hh.symm)]
        omega
    simp only [hsplit]
    rw [Finset.sum_add_distrib, hrest, Finset.sum_ite_eq' (Finset.range nblk) r.1 (fun _ => 1),
      if_pos (Finset.mem_range.mpr hr), List.length_cons]
    omega

/-- The accepted entries of a valid located list distribute over the blocks
without loss. -/
theorem sum_accB {nblk : ℕ} {ls : List (Option (ℕ × E))}
    (h : ∀ r ∈ accList ls, r.1 < nblk) :
    ∑ b ∈ Finset.range nblk, (accB ls b).length = (accList ls).length := by
  have : ∀ b, (accB ls b).length = ((accList ls).filter fun r => r.1 == b).length := by
    intro b
    rw [accB, List.length_map]
  simp only [this]
  exact sum_filter_key h

theorem sum_co_list : ∀ (l : List (Blk E)),
    (l.map Blk.co).sum = ∑ b ∈ Finset.range l.length, (l.getD b default).co := by
  intro l
  induction l with
  | nil => simp
  | cons bl rest ih =>
    rw [List.map_cons, List.sum_cons, List.length_cons, Finset.sum_range_succ']
    have h0 : ((bl :: rest).getD 0 default).co = bl.co := rfl
    have hs : ∀ k, ((bl :: rest).getD (k + 1) default).co = (rest.getD k default).co :=
      fun k => rfl
    simp only [h0, hs]
    rw [← ih]
    omega

/-- `totalCo` is the sum of the per-block counts. -/
theorem totalCo_sum (s : CoreState E) :
    totalCo s = ∑ b ∈ Finset.range s.blocks.length, blockCo s b := by
  rw [totalCo, sum_co_list]
  rfl

end Bridges

/-! ## The poly container: radius bookkeeping and core projections -/

section PolyBridges

/-- Permuting the inputs permutes each block's accepted entries. -/
theorem accB_perm {E : Type} [Inhabited E] {ls1 ls2 : List (Option (ℕ × E))}
    (h : ls1.Perm ls2) (b : ℕ) : (accB ls1 b).Perm (accB ls2 b) :=
  ((h.filterMap id).filter _).map _

/-- Membership in the accepted list. -/
theorem accList_mem {E : Type} [Inhabited E] {ls : List (Option (ℕ × E))} {r : ℕ × E} :
    r ∈ accList ls ↔ some r ∈ ls := by
  simp [accList, List.mem_filterMap]

theorem maxStep_le_left (a v : ℚ) : a ≤ ConPoly.maxStep a v := by
  rw [ConPoly.maxStep]
  split_ifs with h1
  · exact le_of_lt h1
  · exact le_refl a

theorem maxStep_le_right (a v : ℚ) : v ≤ ConPoly.maxStep a v := by
  rw [ConPoly.maxStep]
  split_ifs with h1
  · exact le_refl v
  · exact le_of_not_lt h1

theorem foldl_maxStep_init : ∀ (l : List ℚ) (a : ℚ), a ≤ l.foldl ConPoly.maxStep a := by
  intro l
  induction l with
  | nil => intro a; exact le_refl a
  | cons x xs ih =>
    intro a
    exact le_trans (maxStep_le_left a x) (ih (ConPoly.maxStep a x))

theorem foldl_maxStep_mem : ∀ {l : List ℚ} {x : ℚ} (a : ℚ), x ∈ l →
    x ≤ l.foldl ConPoly.maxStep a := by
  intro l
  induction l with
  | nil => intro x a h; simp at h
  | cons y ys ih =>
    intro x a h
    rcases List.mem_cons.mp h with rfl | h1
    · exact le_trans (maxStep_le_right a x) (foldl_maxStep_init ys _)
    · exact ih _ h1

theorem foldl_maxStep_cases : ∀ (l : List ℚ) (a : ℚ),
    l.foldl ConPoly.maxStep a = a ∨ l.foldl ConPoly.maxStep a ∈ l := by
  intro l
  induction l with
  | nil => intro a; exact Or.inl rfl
  | cons x xs ih =>
    intro a
    rw [List.foldl_cons]
    rcases ih (ConPoly.maxStep a x) with h | h
    · rw [h, ConPoly.maxStep]
      split_ifs
      · exact Or.inr (List.mem_cons_self _ _)
      · exact Or.inl rfl
    · exact Or.inr (List.mem_cons_of_mem _ h)

theorem accRad_cons_none (ls : List (Option (ℕ × Particle3))) :
    ConPoly.accRad (none :: ls) = ConPoly.accRad ls := by
  simp [ConPoly.accRad, accList]

theorem accRad_cons_some (le : ℕ × Particle3) (ls : List (Option (ℕ × Particle3))) :
    ConPoly.accRad (some le :: ls) = ConPoly.radius le.2 :: ConPoly.accRad ls := by
  simp [ConPoly.accRad, accList]

/-- Serial poly insertion: the storage evolves by the serial schedule of the
located particles, the per-thread maxima are untouched, and `max_radius` is
the running maximum of the accepted radii. -/
theorem conPoly_putList_facts (p : Params) :
    ∀ {ps : List Particle3} {s s' : ConPoly.State},
    ConPoly.putList p s ps = some s' →
    serialPutList s.core (ps.map (locate3 p)) = some s'.core ∧
    s'.max_r = s.max_r ∧
    s'.max_radius =
      (ConPoly.accRad (ps.map (locate3 p))).foldl ConPoly.maxStep s.max_radius := by
  intro ps
  induction ps with
  | nil =>
    intro s s' h
    simp only [ConPoly.putList, List.foldlM_nil, pure, Option.some_inj] at h
    subst h
    exact ⟨by simp [serialPutList], rfl, rfl⟩
  | cons q rest ih =>
    intro s s' h
    rw [ConPoly.putList, List.foldlM_cons] at h
    rcases hloc : locate3 p q with _ | le
    · have hput : ConPoly.put p s q = some s := by rw [ConPoly.put, hloc]
      rw [hput] at h
      simp only [Option.bind_eq_bind, Option.some_bind] at h
      obtain ⟨h1, h2, h3⟩ := ih h
      refine ⟨?_, h2, ?_⟩
      · rw [List.map_cons, hloc, serialPutList, List.foldlM_cons]
        simp only [serialPut, Option.bind_eq_bind, Option.some_bind]
        exact h1
      · rw [List.map_cons, hloc, accRad_cons_none]
        exact h3
    · rw [ConPoly.put] at h
      simp only [hloc] at h
      rcases hsp : serialPut s.core (some le) with _ | c
      · rw [hsp] at h
        simp at h
      · rw [hsp] at h
        simp only [Option.map_some', Option.bind_eq_bind, Option.some_bind] at h
        obtain ⟨h1, h2, h3⟩ := ih h
        refine ⟨?_, h2, ?_⟩
        · rw [List.map_cons, hloc, serialPutList, List.foldlM_cons, hsp]
          simp only [Option.bind_eq_bind, Option.some_bind]
          exact h1
        · rw [List.map_cons, hloc, accRad_cons_some]
          rw [List.foldl_cons]
          rw [h3]
          congr 1
          show (if s.max_radius < ConPoly.radius q then ConPoly.radius q
            else s.max_radius) = ConPoly.maxStep s.max_radius (ConPoly.radius le.2)
          have hrad : ConPoly.radius le.2 = ConPoly.radius q := by
            rw [locate3] at hloc
            rcases ho : put_remap p q.2.1 q.2.2.1 with _ | o
            · rw [ho] at hloc
              simp at hloc
            · rw [ho] at hloc
              simp only [Option.map_some', Option.some_inj] at hloc
              rw [← hloc]
              rfl
          rw [hrad, ConPoly.maxStep]

/-- A parallel poly batch: the storage evolves by the parallel schedule of the
located particles and `max_radius` is untouched. -/
theorem conPoly_batch_core (p : Params) :
    ∀ (qs : List (ℕ × Particle3)) (s : ConPoly.State),
    (ConPoly.put_parallel_list p s qs).core =
      parallelPutList s.core (qs.map fun tq => locate3 p tq.2) ∧
    (ConPoly.put_parallel_list p s qs).max_radius = s.max_radius := by
  intro qs
  induction qs with
  | nil => intro s; exact ⟨rfl, rfl⟩
  | cons tq rest ih =>
    intro s
    have hstep : (ConPoly.put_parallel p s tq.1 tq.2).core =
        parallelPut s.core (locate3 p tq.2) ∧
        (ConPoly.put_parallel p s tq.1 tq.2).max_radius = s.max_radius := by
      rw [ConPoly.put_parallel]
      rcases locate3 p tq.2 with _ | le
      · exact ⟨rfl, rfl⟩
      · exact ⟨rfl, rfl⟩
    obtain ⟨ihc, ihr⟩ := ih (ConPoly.put_parallel p s tq.1 tq.2)
    constructor
    · rw [ConPoly.put_parallel_list, List.foldl_cons, List.map_cons,
        parallelPutList, List.foldl_cons]
      rw [show (rest.foldl (fun s' tq0 => ConPoly.put_parallel p s' tq0.1 tq0.2)
          (ConPoly.put_parallel p s tq.1 tq.2)) =
          ConPoly.put_parallel_list p (ConPoly.put_parallel p s tq.1 tq.2) rest from rfl]
      rw [ihc, hstep.1]
      rfl
    · rw [ConPoly.put_parallel_list, List.foldl_cons]
      rw [show (rest.foldl (fun s' tq0 => ConPoly.put_parallel p s' tq0.1 tq0.2)
          (ConPoly.put_parallel p s tq.1 tq.2)) =
          ConPoly.put_parallel_list p (ConPoly.put_parallel p s tq.1 tq.2) rest from rfl]
      rw [ihr, hstep.2]

/-- A parallel poly batch: per-thread maxima only grow, every accepted radius
is bounded by its thread's final entry, and every entry is either unchanged or
one of the accepted radii. -/
theorem conPoly_batch_maxr (p : Params) :
    ∀ (qs : List (ℕ × Particle3)) (s : ConPoly.State),
    (∀ tq ∈ qs, tq.1 < s.max_r.length) →
    (ConPoly.put_parallel_list p s qs).max_r.length = s.max_r.length ∧
    (∀ u, s.max_r.getD u 0 ≤ (ConPoly.put_parallel_list p s qs).max_r.getD u 0) ∧
    (∀ tq ∈ qs, (locate3 p tq.2).isSome →
      ConPoly.radius tq.2 ≤ (ConPoly.put_parallel_list p s qs).max_r.getD tq.1 0) ∧
    (∀ u, (ConPoly.put_parallel_list p s qs).max_r.getD u 0 = s.max_r.getD u 0 ∨
      ∃ tq ∈ qs, (locate3 p tq.2).isSome ∧
        (ConPoly.put_parallel_list p s qs).max_r.getD u 0 = ConPoly.radius tq.2) := by
  intro qs
  induction qs with
  | nil =>
    intro s _
    exact ⟨rfl, fun u => le_refl _, fun tq htq => by simp at htq, fun u => Or.inl rfl⟩
  | cons tq rest ih =>
    intro s hth
    set s1 := ConPoly.put_parallel p s tq.1 tq.2 with hs1
    have hstep : s1.max_r.length = s.max_r.length ∧
        (∀ u, s.max_r.getD u 0 ≤ s1.max_r.getD u 0) ∧
        ((locate3 p tq.2).isSome → ConPoly.radius tq.2 ≤ s1.max_r.getD tq.1 0) ∧
        (∀ u, s1.max_r.getD u 0 = s.max_r.getD u 0 ∨
          ((locate3 p tq.2).isSome ∧ s1.max_r.getD u 0 = ConPoly.radius tq.2)) := by
      rw [hs1, ConPoly.put_parallel]
      have htq1 : tq.1 < s.max_r.length := hth tq (List.mem_cons_self _ _)
      rcases hloc : locate3 p tq.2 with _ | le
      · exact ⟨rfl, fun u => le_refl _, by simp, fun u => Or.inl rfl⟩
      · simp only []
        by_cases hlt : s.max_r.getD tq.1 0 < ConPoly.radius tq.2
        · rw [if_pos hlt]
          refine ⟨by simp, ?_, ?_, ?_⟩
          · intro u
            by_cases hu : tq.1 = u
            · rw [← hu, getD_set_self htq1]
              exact le_of_lt hlt
            · rw [getD_set_ne hu]
          · intro _
            rw [getD_set_self htq1]
          · intro u
            by_cases hu : tq.1 = u
            · rw [← hu, getD_set_self htq1]
              exact Or.inr ⟨by simp, rfl⟩
            · rw [getD_set_ne hu]
              exact Or.inl rfl
        · rw [if_neg hlt]
          refine ⟨rfl, fun u => le_refl _, ?_, fun u => Or.inl rfl⟩
          intro _
          exact le_of_not_lt hlt
    have hrest : ∀ tq0 ∈ rest, tq0.1 < s1.max_r.length := by
      intro tq0 htq0
      rw [hstep.1]
      exact hth tq0 (List.mem_cons_of_mem _ htq0)
    obtain ⟨ih1, ih2, ih3, ih4⟩ := ih s1 hrest
    have hfold : ConPoly.put_parallel_list p s (tq :: rest) =
        ConPoly.put_parallel_list p s1 rest := by
      rw [ConPoly.put_parallel_list, List.foldl_cons]
      rfl
    rw [hfold]
    refine ⟨by rw [ih1, hstep.1], ?_, ?_, ?_⟩
    · intro u
      exact le_trans (hstep.2.1 u) (ih2 u)
    · intro tq0 htq0 hsome
      rcases List.mem_cons.mp htq0 with rfl | h1
      · exact le_trans (hstep.2.2.1 hsome) (ih2 tq0.1)
      · exact ih3 tq0 h1 hsome
    · intro u
      rcases ih4 u with h1 | ⟨tq0, htq0, hsome, heq⟩
      · rw [h1]
        rcases hstep.2.2.2 u with h2 | ⟨hsome, heq⟩
        · exact Or.inl h2
        · exact Or.inr ⟨tq, List.mem_cons_self _ _, hsome, heq⟩
      · exact Or.inr ⟨tq0, List.mem_cons_of_mem _ htq0, hsome, heq⟩

/-- `put_reconcile_overflow` on the poly container, decomposed: it succeeds
exactly when the storage reconciliation does, merges the thread maxima into
`max_radius` and resets them. -/
theorem conPoly_reconcile_some {s s' : ConPoly.State}
    (h : ConPoly.put_reconcile_overflow s = some s') :
    reconcile s.core = some s'.core ∧
    s'.max_radius = ConPoly.mergedMax s ∧
    s'.max_r = List.replicate s.max_r.length 0 := by
  rw [ConPoly.put_reconcile_overflow] at h
  rcases hrec : reconcile s.core with _ | c
  · rw [hrec] at h
    simp at h
  · rw [hrec] at h
    simp only [Option.map_some', Option.some_inj] at h
    subst h
    refine ⟨?_, rfl, rfl⟩
    rfl

theorem getD_mem_of_lt {α : Type} {l : List α} {u : ℕ} (d : α) (h : u < l.length) :
    l.getD u d ∈ l := by
  rw [List.getD_eq_getElem?_getD, List.getElem?_eq_getElem h]
  exact List.getElem_mem h

/-- Permuting the located inputs permutes the accepted radii. -/
theorem accRad_perm {ls1 ls2 : List (Option (ℕ × Particle3))} (h : ls1.Perm ls2) :
    (ConPoly.accRad ls1).Perm (ConPoly.accRad ls2) :=
  (h.filterMap id).map _

/-- Membership in the accepted-radius list. -/
theorem accRad_mem {ls : List (Option (ℕ × Particle3))} {x : ℚ} :
    x ∈ ConPoly.accRad ls ↔
      ∃ le : ℕ × Particle3, some le ∈ ls ∧ ConPoly.radius le.2 = x := by
  constructor
  · intro h
    obtain ⟨r, hr, hx⟩ := List.mem_map.mp h
    exact ⟨r, accList_mem.mp hr, hx⟩
  · intro ⟨le, hle, hx⟩
    exact List.mem_map.mpr ⟨le, accList_mem.mpr hle, hx⟩

/-- `locate3` keeps the particle's radius. -/
theorem locate3_radius {p : Params} {q : Particle3} {le : ℕ × Particle3}
    (h : locate3 p q = some le) : ConPoly.radius le.2 = ConPoly.radius q := by
  rw [locate3] at h
  rcases ho : put_remap p q.2.1 q.2.2.1 with _ | o
  · rw [ho] at h
    simp at h
  · rw [ho] at h
    simp only [Option.map_some', Option.some_inj] at h
    rw [← h]
    rfl

/-- Rounds of parallel batch plus reconciliation preserve the container
invariants and add the accepted count of each round to the total. -/
theorem con2_rounds_facts (p : Params) (hwf : p.WF) :
    ∀ {rounds : List (List Particle2)} {s0 s : Con2.State},
    s0.overflow = [] →
    s0.blocks.length = p.nxy →
    (∀ b < p.nxy, blockCo s0 b ≤ blockMem s0 b) →
    (∀ b < p.nxy, (s0.blocks.getD b default).arr.length = blockMem s0 b) →
    (∀ b < p.nxy, blockMem s0 b ≠ 0) →
    rounds.foldlM (fun s' qs => Con2.put_reconcile_overflow
      (Con2.put_parallel_list p s' qs)) s0 = some s →
    s.overflow = [] ∧ s.blocks.length = p.nxy ∧
    (∀ b < p.nxy, blockCo s b ≤ blockMem s b) ∧
    (∀ b < p.nxy, (s.blocks.getD b default).arr.length = blockMem s b) ∧
    (∀ b < p.nxy, blockMem s b ≠ 0) ∧
    totalCo s = totalCo s0 +
      (rounds.map fun qs => (accList (qs.map (locate2 p))).length).sum := by
  intro rounds
  induction rounds with
  | nil =>
    intro s0 s hov hlen hco hwf0 hmem h
    simp only [List.foldlM_nil, pure, Option.some_inj] at h
    subst h
    exact ⟨hov, hlen, hco, hwf0, hmem, by simp⟩
  | cons qs rest ih =>
    intro s0 s hov hlen hco hwf0 hmem h
    rw [List.foldlM_cons] at h
    rcases h1 : Con2.put_reconcile_overflow (Con2.put_parallel_list p s0 qs) with _ | s1
    · rw [h1] at h
      simp at h
    · rw [h1] at h
      simp only [Option.bind_eq_bind, Option.some_bind] at h
      rw [Con2.put_reconcile_overflow, con2_parallel_eq] at h1
      have hvalid : ∀ l ∈ qs.map (locate2 p), ∀ r : ℕ × Particle2,
          l = some r → r.1 < p.nxy := by
        intro l hl r hr
        obtain ⟨q, -, rfl⟩ := List.mem_map.mp hl
        exact locate2_valid hwf hr
      obtain ⟨hov1, hlen1, hblk1⟩ := roundFacts hlen hov hvalid hco hwf0 hmem h1
      have hco1 : ∀ b < p.nxy, blockCo s1 b ≤ blockMem s1 b := fun b hb => (hblk1 b hb).2.2.2.1
      have hwf1 : ∀ b < p.nxy, (s1.blocks.getD b default).arr.length = blockMem s1 b :=
        fun b hb => (hblk1 b hb).2.2.1
      have hmem1 : ∀ b < p.nxy, blockMem s1 b ≠ 0 := fun b hb => by
        rw [(hblk1 b hb).2.1]
        exact growMem_ne_zero (hmem b hb)
      obtain ⟨hovf, hlenf, hcof, hwff, hmemf, htotf⟩ := ih hov1 hlen1 hco1 hwf1 hmem1 h
      refine ⟨hovf, hlenf, hcof, hwff, hmemf, ?_⟩
      have hacc : ∀ r ∈ accList (qs.map (locate2 p)), r.1 < p.nxy := by
        intro r hr
        exact hvalid (some r) (accList_mem.mp hr) r rfl
      have htot1 : totalCo s1 = totalCo s0 + (accList (qs.map (locate2 p))).length := by
        rw [totalCo_sum, totalCo_sum, hlen1, hlen]
        rw [Finset.sum_congr rfl (fun b hb =>
          (hblk1 b (Finset.mem_range.mp hb)).1)]
        rw [Finset.sum_add_distrib, sum_accB hacc]
      rw [htotf, htot1, List.map_cons, List.sum_cons]
      omega

/-- Membership in a block's accepted-entry list. -/
theorem accB_mem {E : Type} [Inhabited E] {ls : List (Option (ℕ × E))} {b : ℕ} {e : E} :
    e ∈ accB ls b ↔ ∃ r : ℕ × E, some r ∈ ls ∧ r.1 = b ∧ r.2 = e := by
  constructor
  · intro h
    obtain ⟨r, hr, he⟩ := List.mem_map.mp h
    rw [List.mem_filter] at hr
    exact ⟨r, accList_mem.mp hr.1, by simpa using hr.2, he⟩
  · intro ⟨r, hls, hb, he⟩
    refine List.mem_map.mpr ⟨r, ?_, he⟩
    rw [List.mem_filter]
    exact ⟨accList_mem.mpr hls, by simpa using hb⟩

/-- Rounds of parallel poly batches plus reconciliation preserve the container
invariants, keep `max_radius` nondecreasing and keep it above every stored
radius. -/
theorem conPoly_rounds_inv (p : Params) (hwf : p.WF) (nt : ℕ) :
    ∀ {rounds : List (List (ℕ × Particle3))} {s0 s : ConPoly.State},
    (∀ round ∈ rounds, ∀ tq ∈ round, tq.1 < nt) →
    s0.core.overflow = [] →
    s0.core.blocks.length = p.nxy →
    (∀ b < p.nxy, blockCo s0.core b ≤ blockMem s0.core b) →
    (∀ b < p.nxy, (s0.core.blocks.getD b default).arr.length = blockMem s0.core b) →
    (∀ b < p.nxy, blockMem s0.core b ≠ 0) →
    0 ≤ s0.max_radius →
    s0.max_r.length = nt →
    (∀ b < p.nxy, ∀ i < blockCo s0.core b,
      ConPoly.radius ((s0.core.blocks.getD b default).arr.getD i default) ≤
        s0.max_radius) →
    rounds.foldlM (fun s' qs => ConPoly.put_reconcile_overflow
      (ConPoly.put_parallel_list p s' qs)) s0 = some s →
    s0.max_radius ≤ s.max_radius ∧
    (∀ b < p.nxy, ∀ i < blockCo s.core b,
      ConPoly.radius ((s.core.blocks.getD b default).arr.getD i default) ≤
        s.max_radius) := by
  intro rounds
  induction rounds with
  | nil =>
    intro s0 s _ _ _ _ _ _ _ _ hbound h
    simp only [List.foldlM_nil, pure, Option.some_inj] at h
    subst h
    exact ⟨le_refl _, hbound⟩
  | cons qs rest ih =>
    intro s0 s hth hov hlen hco hwfc hmem hrad0 hlenr0 hbound h
    rw [List.foldlM_cons] at h
    rcases h1 : ConPoly.put_reconcile_overflow (ConPoly.put_parallel_list p s0 qs)
      with _ | s1
    · rw [h1] at h
      simp at h
    · rw [h1] at h
      simp only [Option.bind_eq_bind, Option.some_bind] at h
      obtain ⟨hrec, hrad, hmr⟩ := conPoly_reconcile_some h1
      obtain ⟨hbc, hbrad⟩ := conPoly_batch_core p qs s0
      obtain ⟨hlenr, hmono, hcover, hprov⟩ := conPoly_batch_maxr p qs s0
        (by intro tq htq; rw [hlenr0]; exact hth qs (List.mem_cons_self _ _) tq htq)
      rw [hbc] at hrec
      have hvalid : ∀ l ∈ qs.map (fun tq => locate3 p tq.2), ∀ r : ℕ × Particle3,
          l = some r → r.1 < p.nxy := by
        intro l hl r hr
        obtain ⟨tq, -, rfl⟩ := List.mem_map.mp hl
        exact locate3_valid hwf hr
      obtain ⟨hov1, hlen1, hblk1⟩ := roundFacts hlen hov hvalid hco hwfc hmem hrec
      set B := ConPoly.put_parallel_list p s0 qs with hB
      have hup : s0.max_radius ≤ s1.max_radius := by
        rw [hrad, ConPoly.mergedMax, hbrad]
        exact foldl_maxStep_init _ _
      -- per-entry radius bound for the accepted entries of this round
      have hubB : ∀ (b : ℕ) (e : Particle3), e ∈ accB (qs.map fun tq => locate3 p tq.2) b →
          ConPoly.radius e ≤ s1.max_radius := by
        intro b e he
        obtain ⟨r, hrls, -, hre⟩ := accB_mem.mp he
        obtain ⟨tq, htq, hloc⟩ := List.mem_map.mp hrls
        have hr1 : ConPoly.radius e = ConPoly.radius tq.2 := by
          rw [← hre, locate3_radius hloc]
        have hc := hcover tq htq (by rw [hloc]; rfl)
        have hlt : tq.1 < B.max_r.length := by
          rw [hlenr, hlenr0]
          exact hth qs (List.mem_cons_self _ _) tq htq
        calc ConPoly.radius e = ConPoly.radius tq.2 := hr1
        _ ≤ B.max_r.getD tq.1 0 := hc
        _ ≤ B.max_r.foldl ConPoly.maxStep B.max_radius :=
            foldl_maxStep_mem _ (getD_mem_of_lt 0 hlt)
        _ = s1.max_radius := by rw [hrad, ConPoly.mergedMax]
      have hbound1 : ∀ b < p.nxy, ∀ i < blockCo s1.core b,
          ConPoly.radius ((s1.core.blocks.getD b default).arr.getD i default) ≤
            s1.max_radius := by
        intro b hb i hi
        obtain ⟨hco1, hmem1, harr1, hcm1, hpres1, hcont1⟩ := hblk1 b hb
        rcases lt_or_ge i (blockCo s0.core b) with hi0 | hi0
        · rw [hpres1 i hi0]
          exact le_trans (hbound b hb i hi0) hup
        · rw [hcont1 i hi0 hi]
          apply hubB b
          apply getD_mem_of_lt
          rw [hco1] at hi
          omega
      have hrad1 : 0 ≤ s1.max_radius := le_trans hrad0 hup
      have hlenr1 : s1.max_r.length = nt := by
        rw [hmr, List.length_replicate, hlenr, hlenr0]
      have hinv1 := ih (fun r hr => hth r (List.mem_cons_of_mem _ hr))
        hov1 hlen1 (fun b hb => (hblk1 b hb).2.2.2.1)
        (fun b hb => (hblk1 b hb).2.2.1)
        (fun b hb => by rw [(hblk1 b hb).2.1]; exact growMem_ne_zero (hmem b hb))
        hrad1 hlenr1 hbound1 h
      exact ⟨le_trans hup hinv1.1, hinv1.2⟩

end PolyBridges

/-! ## Point location -/

section FindCell

variable {E : Type} [Inhabited E]

theorem foldl_option_some {C : Type} (step : Option C → C → Option C)
    (hstep : ∀ b x, ∃ c, step (some b) x = some c) :
    ∀ (l : List C) (b : C), ∃ c, l.foldl step (some b) = some c := by
  intro l
  induction l with
  | nil => intro b; exact ⟨b, rfl⟩
  | cons x xs ih =>
    intro b
    rw [List.foldl_cons]
    obtain ⟨c1, hc1⟩ := hstep b x
    rw [hc1]
    exact ih c1

theorem foldl_option_mem {C : Type} (step : Option C → C → Option C)
    (hnone : ∀ x, step none x = some x)
    (hsome : ∀ b x, step (some b) x = some b ∨ step (some b) x = some x) :
    ∀ (l : List C) (acc : Option C) (c : C), l.foldl step acc = some c →
      acc = some c ∨ c ∈ l := by
  intro l
  induction l with
  | nil => intro acc c h; exact Or.inl h
  | cons x xs ih =>
    intro acc c h
    rw [List.foldl_cons] at h
    rcases ih (step acc x) c h with h1 | h1
    · rcases acc with _ | b
      · rw [hnone] at h1
        rw [Option.some_inj] at h1
        exact Or.inr (h1 ▸ List.mem_cons_self _ _)
      · rcases hsome b x with h2 | h2
        · rw [h2] at h1
          exact Or.inl h1
        · rw [h2] at h1
          rw [Option.some_inj] at h1
          exact Or.inr (h1 ▸ List.mem_cons_self _ _)
    · exact Or.inr (List.mem_cons_of_mem _ h1)

/-- Membership in the stored-particle enumeration. -/
theorem storedList_mem {s : CoreState E} {t : ℕ × ℕ × E} :
    t ∈ storedList s ↔ t.1 < s.blocks.length ∧ t.2.1 < (s.blocks.getD t.1 default).co ∧
      t.2.2 = (s.blocks.getD t.1 default).arr.getD t.2.1 default := by
  rw [storedList]
  constructor
  · intro h
    obtain ⟨ij, hij, h2⟩ := List.mem_flatMap.mp h
    obtain ⟨l, hl, h3⟩ := List.mem_map.mp h2
    rw [← h3]
    exact ⟨by simpa using hij, by simpa using hl, rfl⟩
  · intro ⟨h1, h2, h3⟩
    apply List.mem_flatMap.mpr
    refine ⟨t.1, List.mem_range.mpr h1, ?_⟩
    apply List.mem_map.mpr
    refine ⟨t.2.1, List.mem_range.mpr h2, ?_⟩
    rw [← h3]

/-- The container is empty exactly when every block's count is zero. -/
theorem storedList_eq_nil {s : CoreState E} :
    storedList s = [] ↔ ∀ b < s.blocks.length, blockCo s b = 0 := by
  rw [storedList, List.flatMap_eq_nil_iff]
  constructor
  · intro h b hb
    have h1 := h b (List.mem_range.mpr hb)
    rw [List.map_eq_nil_iff, List.range_eq_nil] at h1
    exact h1
  · intro h ij hij
    rw [List.map_eq_nil_iff, List.range_eq_nil]
    exact h ij (List.mem_range.mp hij)

/-- The selection fold yields a result exactly when there are candidates. -/
theorem bestBy_none_iff {C : Type} (f : C → ℚ) (l : List C) :
    bestBy f l = none ↔ l = [] := by
  rcases l with _ | ⟨x, xs⟩
  · simp [bestBy]
  · simp only [bestBy, List.foldl_cons]
    obtain ⟨c, hc⟩ := foldl_option_some (fun acc (c : C) => match acc with
        | none => some c
        | some b => if f c < f b then some c else some b)
      (fun b z => ⟨if f z < f b then z else b, by
        show (if f z < f b then some z else some b) = some (if f z < f b then z else b)
        split_ifs <;> rfl⟩) xs x
    rw [hc]
    simp

/-- The selection fold picks one of the candidates. -/
theorem bestBy_mem {C : Type} {f : C → ℚ} {l : List C} {c : C}
    (h : bestBy f l = some c) : c ∈ l := by
  rw [bestBy] at h
  have hm := foldl_option_mem (fun acc (c : C) => match acc with
      | none => some c
      | some b => if f c < f b then some c else some b)
    (fun z => rfl)
    (fun b z => by
      show (if f z < f b then some z else some b) = some b ∨
        (if f z < f b then some z else some b) = some z
      split_ifs
      · exact Or.inr rfl
      · exact Or.inl rfl) l none c h
  rcases hm with h1 | h1
  · simp at h1
  · exact h1

/-- The cell search fails exactly on an empty container. -/
theorem computeFindCell_none_iff {p : Params} {posOf : E → ℚ × ℚ} {radOf : E → ℚ}
    {s : CoreState E} {x y : ℚ} :
    computeFindCell p posOf radOf s x y = none ↔ storedList s = [] := by
  rw [computeFindCell]
  simp only [Option.map_eq_none']
  rw [bestBy_none_iff]
  constructor
  · intro h
    rcases hsl : storedList s with _ | ⟨t, rest⟩
    · rfl
    · rw [hsl, List.flatMap_cons] at h
      rcases hxs : imageShifts p.x_prd with _ | ⟨ki, kis⟩
      · rw [imageShifts] at hxs
        split_ifs at hxs <;> simp at hxs
      rcases hys : imageShifts p.y_prd with _ | ⟨kj, kjs⟩
      · rw [imageShifts] at hys
        split_ifs at hys <;> simp at hys
      rw [hxs, hys, List.flatMap_cons, List.map_cons] at h
      simp at h
  · intro h
    rw [h]
    rfl

/-- A successful cell search returns a stored slot together with a whole-block
image displacement. -/
theorem computeFindCell_some_mem {p : Params} {posOf : E → ℚ × ℚ} {radOf : E → ℚ}
    {s : CoreState E} {x y : ℚ} {wij wl : ℕ} {wdi wdj : ℤ}
    (h : computeFindCell p posOf radOf s x y = some (wij, wl, wdi, wdj)) :
    wij < s.blocks.length ∧ wl < (s.blocks.getD wij default).co ∧
      ∃ ki kj : ℤ, ki ∈ imageShifts p.x_prd ∧ kj ∈ imageShifts p.y_prd ∧
        wdi = ki * p.nx ∧ wdj = kj * p.ny := by
  simp only [computeFindCell] at h
  rw [Option.map_eq_some'] at h
  obtain ⟨c, hfold, hc⟩ := h
  have hcm := bestBy_mem hfold
  obtain ⟨t, ht, h2⟩ := List.mem_flatMap.mp hcm
  obtain ⟨ki, hki, h3⟩ := List.mem_flatMap.mp h2
  obtain ⟨kj, hkj, h4⟩ := List.mem_map.mp h3
  obtain ⟨ht1, ht2, -⟩ := storedList_mem.mp ht
  simp only [Prod.mk.injEq] at hc
  obtain ⟨hA, hB, hC, hD⟩ := hc
  rw [← h4] at hA hB hC hD
  have hA' : t.1 = wij := hA
  have hB' : t.2.1 = wl := hB
  have hC' : ki * (p.nx : ℤ) = wdi := hC
  have hD' : kj * (p.ny : ℤ) = wdj := hD
  refine ⟨by rw [← hA']; exact ht1, by rw [← hA', ← hB']; exact ht2,
    ki, kj, hki, hkj, hC'.symm, hD'.symm⟩

set_option maxHeartbeats 1600000 in
/-- `find_voronoi_cell` fails exactly when the remap rejects the query or the
container is empty. -/
theorem find_none_iff (p : Params) (posOf : E → ℚ × ℚ) (radOf : E → ℚ)
    (idOf : E → ℤ) (s : CoreState E) (x y : ℚ) :
    find_voronoi_cell p posOf radOf idOf s x y = none ↔
      remap p x y = none ∨ storedList s = [] := by
  rw [find_voronoi_cell]
  rcases hr : remap p x y with _ | ro
  · simp
  · simp only []
    rcases hcf : computeFindCell p posOf radOf s ro.x ro.y with _ | w
    · simp only []
      constructor
      · intro _
        exact Or.inr (computeFindCell_none_iff.mp hcf)
      · intro _
        trivial
    · obtain ⟨wij, wl, wdi, wdj⟩ := w
      simp only []
      constructor
      · intro h
        exact absurd h (by simp)
      · intro h
        rcases h with h | h
        · exact absurd h (by simp)
        · exact absurd (hcf.symm.trans (computeFindCell_none_iff.mpr h)) (by simp)

/-- The image-offset assembly of `find_voronoi_cell` (source lines 570-571 and
597-598): starting from block coordinate `ci ∈ [0,n)` and the search's image
shift `ki`, the assembled whole-domain displacement is exactly `ai + ki` — the
query's own image offset plus the chosen image's shift. -/
theorem shift_assembly {prd : Bool} {ci ai ki : ℤ} {n : ℕ} (hn : 1 ≤ n)
    (hci0 : 0 ≤ ci) (hcilt : ci < (n : ℤ)) (hki : ki ∈ imageShifts prd) :
    (if prd = true then
      (if ci + ki * (n : ℤ) < 0 ∨ (n : ℤ) ≤ ci + ki * (n : ℤ) then
        ai + step_div (ci + ki * (n : ℤ)) (n : ℤ) else ai)
     else ai) = ai + ki := by
  cases prd
  · have hk0 : ki = 0 := by
      rw [imageShifts] at hki
      simpa using hki
    subst hk0
    simp
  · rw [if_pos rfl]
    by_cases hk : ki = 0
    · subst hk
      rw [if_neg (by push_neg; constructor <;> omega)]
      simp
    · have hdiv : step_div (ci + ki * (n : ℤ)) (n : ℤ) = ki := by
        rw [step_div, Int.add_mul_ediv_right _ _ (by omega : (n : ℤ) ≠ 0),
          Int.ediv_eq_zero_of_lt hci0 hcilt]
        omega
      have hout : ci + ki * (n : ℤ) < 0 ∨ (n : ℤ) ≤ ci + ki * (n : ℤ) := by
        rcases lt_or_gt_of_ne hk with h1 | h1
        · left
          have h2 : ki ≤ -1 := by omega
          have h3 : ki * (n : ℤ) ≤ -1 * (n : ℤ) :=
            mul_le_mul_of_nonneg_right h2 (by positivity)
          omega
        · right
          have h2 : 1 ≤ ki := by omega
          have h3 : 1 * (n : ℤ) ≤ ki * (n : ℤ) :=
            mul_le_mul_of_nonneg_right h2 (by positivity)
          omega
      rw [if_pos hout, hdiv]

set_option maxHeartbeats 1600000 in
/-- A successful `find_voronoi_cell` returns the found particle's stored
position shifted by exactly the whole-domain displacement of the periodic
image the query came from: the remap's image offset plus the image shift
chosen by the cell search (in particular zero on every non-periodic axis, so a
fully non-periodic query returns the stored position itself). -/
theorem find_some_exact {p : Params} {posOf : E → ℚ × ℚ} {radOf : E → ℚ}
    {idOf : E → ℤ} {s : CoreState E} {x y rx ry : ℚ} {pid : ℤ} (hwf : p.WF)
    (h : find_voronoi_cell p posOf radOf idOf s x y = some (rx, ry, pid)) :
    ∃ ro : RemapOut, remap p x y = some ro ∧
      x = ro.x + ro.ai * (p.bx - p.ax) ∧ y = ro.y + ro.aj * (p.by' - p.ay) ∧
      ∃ (wij wl : ℕ) (ki kj : ℤ),
        computeFindCell p posOf radOf s ro.x ro.y =
          some (wij, wl, ki * p.nx, kj * p.ny) ∧
        ki ∈ imageShifts p.x_prd ∧ kj ∈ imageShifts p.y_prd ∧
        wij < s.blocks.length ∧ wl < (s.blocks.getD wij default).co ∧
        rx = (posOf ((s.blocks.getD wij default).arr.getD wl default)).1 +
          (ro.ai + ki) * (p.bx - p.ax) ∧
        ry = (posOf ((s.blocks.getD wij default).arr.getD wl default)).2 +
          (ro.aj + kj) * (p.by' - p.ay) ∧
        pid = idOf ((s.blocks.getD wij default).arr.getD wl default) := by
  rw [find_voronoi_cell] at h
  rcases hr : remap p x y with _ | ro
  · rw [hr] at h
    simp at h
  · rw [hr] at h
    simp only [] at h
    obtain ⟨hx_id, hy_id, hci0, hcilt, hcj0, hcjlt, -, -⟩ := remap_some p hwf x y ro hr
    rcases hcf : computeFindCell p posOf radOf s ro.x ro.y with _ | w
    · rw [hcf] at h
      simp at h
    · obtain ⟨wij, wl, wdi, wdj⟩ := w
      rw [hcf] at h
      simp only [] at h
      obtain ⟨h1, h2, ki, kj, hki, hkj, hdi, hdj⟩ := computeFindCell_some_mem hcf
      subst hdi
      subst hdj
      rw [Option.some_inj] at h
      simp only [Prod.mk.injEq] at h
      obtain ⟨hx, hy, hpid⟩ := h
      have hnx1 : 1 ≤ p.nx := hwf.2.2.1
      have hny1 : 1 ≤ p.ny := hwf.2.2.2
      refine ⟨ro, rfl, hx_id, hy_id, wij, wl, ki, kj, hcf, hki, hkj, h1, h2,
        ?_, ?_, hpid.symm⟩
      · rw [← hx, shift_assembly hnx1 hci0 hcilt hki]
        push_cast
        ring
      · rw [← hy, shift_assembly hny1 hcj0 hcjlt hkj]
        push_cast
        ring

/-- `remap` accepts exactly when each non-periodic axis index is in range. -/
theorem remap_isSome_iff (p : Params) (x y : ℚ) :
    (remap p x y).isSome ↔
      ((p.x_prd = true ∨ (0 ≤ step_int ((x - p.ax) * p.xsp) ∧
          step_int ((x - p.ax) * p.xsp) < (p.nx : ℤ))) ∧
        (p.y_prd = true ∨ (0 ≤ step_int ((y - p.ay) * p.ysp) ∧
          step_int ((y - p.ay) * p.ysp) < (p.ny : ℤ)))) := by
  cases hx : p.x_prd <;> cases hy : p.y_prd <;>
    simp only [remap, hx, hy, if_true, if_false, Bool.true_eq_false, false_or, true_or,
      Bool.false_eq_true, true_and, and_true, Option.isSome_some] <;>
    try simp
  all_goals split_ifs <;> simp_all <;> omega

end FindCell

namespace Claims

/-- Claim C3: `put_remap` computes `i = floor((x-ax)*xsp)` and
`j = floor((y-ay)*ysp)`; on a periodic axis it replaces `i` by the true
modulo of `i` by `nx` (always in `[0,nx)`) and shifts `x` by
`boxx*(imod - i)`; on a non-periodic axis it rejects exactly when `i` is
outside `[0,nx)` — in particular a particle with `x = bx` (or `y = by`) on a
non-periodic axis is rejected — and on acceptance it returns block index
`i + nx*j`. -/
theorem C3_put_remap :
    (∀ (p : Params) (x y : ℚ), (put_remap p x y).isSome ↔
      ((p.x_prd = true ∨ (0 ≤ step_int ((x - p.ax) * p.xsp) ∧
          step_int ((x - p.ax) * p.xsp) < (p.nx : ℤ))) ∧
        (p.y_prd = true ∨ (0 ≤ step_int ((y - p.ay) * p.ysp) ∧
          step_int ((y - p.ay) * p.ysp) < (p.ny : ℤ))))) ∧
    (∀ (p : Params) (x y : ℚ) (o : PutRemapOut), p.WF → put_remap p x y = some o →
      PutRemapSpec p x y o) ∧
    (∀ (p : Params) (y : ℚ), p.WF → p.x_prd = false → put_remap p p.bx y = none) ∧
    (∀ (p : Params) (x : ℚ), p.WF → p.y_prd = false → put_remap p x p.by' = none) :=
  ⟨put_remap_isSome_iff,
    fun p x y o hwf h => put_remap_some p hwf x y o h,
    fun p y hwf hprd => put_remap_upper_x p hwf hprd y,
    fun p x hwf hprd => put_remap_upper_y p hwf hprd x⟩

/-- Witness for C3 at concrete inputs: the domain `[0,1]×[0,1]` with a `2×2`
non-periodic grid accepts `(1/2, 3/4)` into block `3` unchanged, satisfying
the characterization, and rejects the upper-face point `x = bx = 1`. -/
theorem C3_put_remap_witness :
    (Params.WF ⟨0, 1, 0, 1, 2, 2, false, false⟩ ∧
      put_remap ⟨0, 1, 0, 1, 2, 2, false, false⟩ (1/2) (3/4) = some ⟨3, 1/2, 3/4⟩ ∧
      PutRemapSpec ⟨0, 1, 0, 1, 2, 2, false, false⟩ (1/2) (3/4) ⟨3, 1/2, 3/4⟩) ∧
    put_remap ⟨0, 1, 0, 1, 2, 2, false, false⟩ 1 (3/4) = none :=
  ⟨⟨by decide,
    by norm_num [put_remap, step_int, Params.xsp, Params.ysp, Params.boxx, Params.boxy],
    C3_put_remap.2.1 ⟨0, 1, 0, 1, 2, 2, false, false⟩ (1/2) (3/4) ⟨3, 1/2, 3/4⟩ (by decide)
      (by norm_num [put_remap, step_int, Params.xsp, Params.ysp, Params.boxx, Params.boxy])⟩,
   C3_put_remap.2.2.1 ⟨0, 1, 0, 1, 2, 2, false, false⟩ (3/4) (by decide) rfl⟩

/-- Claim C7: when `remap(ai,aj,ci,cj,x,y,ij)` succeeds, the original input
position equals `(x' + ai*(bx-ax), y' + aj*(by-ay))` for the remapped
position `(x',y')`, the block coordinates satisfy `0 ≤ ci < nx`,
`0 ≤ cj < ny`, `ij = ci + nx*cj`, and `(ai,aj) = (0,0)` whenever the input's
block indices were already in range. -/
theorem C7_remap (p : Params) (hwf : p.WF) (x y : ℚ) (o : RemapOut)
    (h : remap p x y = some o) : RemapSpec p x y o :=
  remap_some p hwf x y o h

/-- Witness for C7: on the periodic unit square with one block, the point
`(3/2, 1/2)` remaps to `(1/2, 1/2)` with image displacement `(1,0)`, and the
characterization holds there. -/
theorem C7_remap_witness :
    (Params.WF ⟨0, 1, 0, 1, 1, 1, true, true⟩ ∧
      remap ⟨0, 1, 0, 1, 1, 1, true, true⟩ (3/2) (1/2) = some ⟨1, 0, 0, 0, 1/2, 1/2, 0⟩) ∧
    RemapSpec ⟨0, 1, 0, 1, 1, 1, true, true⟩ (3/2) (1/2) ⟨1, 0, 0, 0, 1/2, 1/2, 0⟩ :=
  ⟨⟨by decide,
    by norm_num [remap, step_int, step_div, Params.xsp, Params.ysp, Params.boxx, Params.boxy]⟩,
   C7_remap ⟨0, 1, 0, 1, 1, 1, true, true⟩ (by decide) (3/2) (1/2) ⟨1, 0, 0, 0, 1/2, 1/2, 0⟩
    (by norm_num [remap, step_int, step_div, Params.xsp, Params.ysp, Params.boxx, Params.boxy])⟩


/-- Claim C9: `clear` is idempotent — calling it twice produces the same
container state as calling it once — and after `clear` every block count
`co[b]` is `0` and, for the poly container, `max_radius` is `0`. -/
theorem C9_clear :
    (∀ s : Con2.State, Con2.clear (Con2.clear s) = Con2.clear s) ∧
    (∀ s : ConPoly.State, ConPoly.clear (ConPoly.clear s) = ConPoly.clear s) ∧
    (∀ (s : Con2.State) (b : ℕ), blockCo (Con2.clear s) b = 0) ∧
    (∀ (s : ConPoly.State) (b : ℕ),
      blockCo (ConPoly.clear s).core b = 0 ∧ (ConPoly.clear s).max_radius = 0) := by
  refine ⟨fun s => ?_, fun s => ?_, fun s b => ?_, fun s b => ⟨?_, rfl⟩⟩
  · simp only [Con2.clear, List.map_map]
    rfl
  · simp only [ConPoly.clear, List.map_map]
    rfl
  · unfold blockCo Con2.clear
    simp only []
    have : (default : Blk Particle2) = { (default : Blk Particle2) with co := 0 } := rfl
    rw [this, List.getD_map]
  · unfold blockCo ConPoly.clear
    simp only []
    have : (default : Blk Particle3) = { (default : Blk Particle3) with co := 0 } := rfl
    rw [this, List.getD_map]

/-- Claim C5: if `put_remap` rejects an insertion position, serial `put`
returns having changed nothing — every `co[b]`, `mem[b]`, `id[b]`, `p[b]`,
`max_radius` (poly) and the overflow buffer are exactly as before the call;
if it accepts, the particle's id and (possibly remapped) coordinates are
written and `co` of its block is incremented by one. -/
theorem C5_put_frame :
    (∀ (p : Params) (s : Con2.State) (q : Particle2),
      locate2 p q = none → Con2.put p s q = some s) ∧
    (∀ (p : Params) (s s' : Con2.State) (q : Particle2) (ij : ℕ) (e : Particle2),
      locate2 p q = some (ij, e) → Con2.put p s q = some s' →
      (s.blocks.getD ij default).arr.length = (s.blocks.getD ij default).mem →
      (s.blocks.getD ij default).co ≤ (s.blocks.getD ij default).mem →
      1 ≤ (s.blocks.getD ij default).mem →
      SerialWriteSpec s s' ij e) ∧
    (∀ (p : Params) (s : ConPoly.State) (q : Particle3),
      locate3 p q = none → ConPoly.put p s q = some s) ∧
    (∀ (p : Params) (s s' : ConPoly.State) (q : Particle3) (ij : ℕ) (e : Particle3),
      locate3 p q = some (ij, e) → ConPoly.put p s q = some s' →
      (s.core.blocks.getD ij default).arr.length = (s.core.blocks.getD ij default).mem →
      (s.core.blocks.getD ij default).co ≤ (s.core.blocks.getD ij default).mem →
      1 ≤ (s.core.blocks.getD ij default).mem →
      SerialWriteSpec s.core s'.core ij e ∧
        s'.max_radius = ConPoly.maxStep s.max_radius (ConPoly.radius q) ∧
        s'.max_r = s.max_r) := by
  refine ⟨fun p s q h => ?_, fun p s s' q ij e hloc hput hwf hco hmem => ?_,
    fun p s q h => ?_, fun p s s' q ij e hloc hput hwf hco hmem => ?_⟩
  · rw [Con2.put, h]
    exact serialPut_none s
  · rw [Con2.put, hloc] at hput
    exact serialPut_some hwf hco hmem hput
  · simp [ConPoly.put, h]
  · rw [ConPoly.put, hloc] at hput
    simp only [Option.map_eq_some'] at hput
    obtain ⟨c, hc, rfl⟩ := hput
    exact ⟨serialPut_some hwf hco hmem hc, rfl, rfl⟩

/-- Witness for C5 on the unit square with one block and `init_mem = 1`:
with both axes non-periodic, `put(0, 3/2, 1/2)` is rejected and the state is
unchanged; with the x axis periodic, the same call is accepted, remapped to
`(1/2, 1/2)` and written at slot `0`; same for the poly container with
radius `1/4`. -/
theorem C5_put_frame_witness :
    (locate2 ⟨0, 1, 0, 1, 1, 1, false, false⟩ (0, 3/2, 1/2) = none ∧
      Con2.put ⟨0, 1, 0, 1, 1, 1, false, false⟩ ⟨[⟨0, 1, [(0, 0, 0)]⟩], []⟩ (0, 3/2, 1/2) =
        some ⟨[⟨0, 1, [(0, 0, 0)]⟩], []⟩) ∧
    (locate2 ⟨0, 1, 0, 1, 1, 1, true, false⟩ (0, 3/2, 1/2) = some (0, (0, 1/2, 1/2)) ∧
      Con2.put ⟨0, 1, 0, 1, 1, 1, true, false⟩ ⟨[⟨0, 1, [(0, 0, 0)]⟩], []⟩ (0, 3/2, 1/2) =
        some ⟨[⟨1, 1, [(0, 1/2, 1/2)]⟩], []⟩ ∧
      SerialWriteSpec (⟨[⟨0, 1, [(0, 0, 0)]⟩], []⟩ : Con2.State)
        ⟨[⟨1, 1, [(0, 1/2, 1/2)]⟩], []⟩ 0 (0, 1/2, 1/2)) ∧
    (locate3 ⟨0, 1, 0, 1, 1, 1, true, false⟩ (0, 3/2, 1/2, 1/4) = some (0, (0, 1/2, 1/2, 1/4)) ∧
      ConPoly.put ⟨0, 1, 0, 1, 1, 1, true, false⟩
          ⟨⟨[⟨0, 1, [(0, 0, 0, 0)]⟩], []⟩, 0, [0]⟩ (0, 3/2, 1/2, 1/4) =
        some ⟨⟨[⟨1, 1, [(0, 1/2, 1/2, 1/4)]⟩], []⟩, 1/4, [0]⟩ ∧
      SerialWriteSpec (⟨[⟨0, 1, [(0, 0, 0, 0)]⟩], []⟩ : CoreState Particle3)
        ⟨[⟨1, 1, [(0, 1/2, 1/2, 1/4)]⟩], []⟩ 0 (0, 1/2, 1/2, 1/4) ∧
      ((1/4 : ℚ) = ConPoly.maxStep 0 (ConPoly.radius (0, 3/2, 1/2, 1/4)))) := by
  have hrej : locate2 ⟨0, 1, 0, 1, 1, 1, false, false⟩ (0, 3/2, 1/2) = none := by
    norm_num [locate2, put_remap, step_int, Params.xsp, Params.ysp, Params.boxx, Params.boxy]
  have hacc : locate2 ⟨0, 1, 0, 1, 1, 1, true, false⟩ (0, 3/2, 1/2) = some (0, (0, 1/2, 1/2)) := by
    norm_num [locate2, put_remap, step_int, step_mod, Params.xsp, Params.ysp,
      Params.boxx, Params.boxy]
  have hacc3 : locate3 ⟨0, 1, 0, 1, 1, 1, true, false⟩ (0, 3/2, 1/2, 1/4) =
      some (0, (0, 1/2, 1/2, 1/4)) := by
    norm_num [locate3, put_remap, step_int, step_mod, Params.xsp, Params.ysp,
      Params.boxx, Params.boxy]
  have hput2 : Con2.put ⟨0, 1, 0, 1, 1, 1, true, false⟩ ⟨[⟨0, 1, [(0, 0, 0)]⟩], []⟩
      (0, 3/2, 1/2) = some ⟨[⟨1, 1, [(0, 1/2, 1/2)]⟩], []⟩ := by
    rw [Con2.put, hacc]
    norm_num [serialPut]
  have hput3 : ConPoly.put ⟨0, 1, 0, 1, 1, 1, true, false⟩
      ⟨⟨[⟨0, 1, [(0, 0, 0, 0)]⟩], []⟩, 0, [0]⟩ (0, 3/2, 1/2, 1/4) =
      some ⟨⟨[⟨1, 1, [(0, 1/2, 1/2, 1/4)]⟩], []⟩, 1/4, [0]⟩ := by
    rw [ConPoly.put, hacc3]
    norm_num [serialPut, ConPoly.radius]
  refine ⟨⟨hrej, C5_put_frame.1 _ _ _ hrej⟩,
    ⟨hacc, hput2, C5_put_frame.2.1 _ _ _ _ _ _ hacc hput2 rfl (by norm_num) (by norm_num)⟩,
    ⟨hacc3, hput3, ?_, ?_⟩⟩
  · exact (C5_put_frame.2.2.2 _ _ _ _ _ _ hacc3 hput3 rfl (by norm_num) (by norm_num)).1
  · exact (C5_put_frame.2.2.2 _ _ _ _ _ _ hacc3 hput3 rfl (by norm_num) (by norm_num)).2.1

/-- Claim C10: `clear` modifies only the block counts `co` (and `max_radius`
for the poly container) — the capacities `mem[b]`, the contents of the
`id`/`p` arrays, and the overflow count are left unchanged; in particular,
overflow records from a parallel batch that were not reconciled before
`clear` survive it, and a later `put_reconcile_overflow` still writes those
stale ids and coordinates into the block arrays (possibly growing block
memory) even though the blocks' counts are 0. -/
theorem C10_clear_keeps_overflow :
    (∀ s : Con2.State, (Con2.clear s).overflow = s.overflow ∧
      (Con2.clear s).blocks.length = s.blocks.length ∧
      (∀ b, blockMem (Con2.clear s) b = blockMem s b ∧
        ((Con2.clear s).blocks.getD b default).arr = (s.blocks.getD b default).arr)) ∧
    (∀ s : ConPoly.State, (ConPoly.clear s).core.overflow = s.core.overflow ∧
      (ConPoly.clear s).max_r = s.max_r ∧
      (ConPoly.clear s).core.blocks.length = s.core.blocks.length ∧
      (∀ b, blockMem (ConPoly.clear s).core b = blockMem s.core b ∧
        ((ConPoly.clear s).core.blocks.getD b default).arr =
          (s.core.blocks.getD b default).arr)) ∧
    (∀ (s sQ : Con2.State) (o1 o2 : List (ℕ × ℕ × Particle2)) (b m : ℕ) (e : Particle2),
      CoreWF s → s.overflow = o1 ++ (b, m, e) :: o2 → b < s.blocks.length →
      1 ≤ blockMem s b → (∀ r ∈ o2, ¬(r.1 = b ∧ r.2.1 = m)) →
      Con2.put_reconcile_overflow (Con2.clear s) = some sQ →
      blockCo sQ b = 0 ∧ (sQ.blocks.getD b default).arr.getD m default = e ∧
        m < blockMem sQ b) ∧
    (∀ (s : ConPoly.State) (sQ : ConPoly.State) (o1 o2 : List (ℕ × ℕ × Particle3))
        (b m : ℕ) (e : Particle3),
      CoreWF s.core → s.core.overflow = o1 ++ (b, m, e) :: o2 →
      b < s.core.blocks.length →
      1 ≤ blockMem s.core b → (∀ r ∈ o2, ¬(r.1 = b ∧ r.2.1 = m)) →
      ConPoly.put_reconcile_overflow (ConPoly.clear s) = some sQ →
      blockCo sQ.core b = 0 ∧ (sQ.core.blocks.getD b default).arr.getD m default = e ∧
        m < blockMem sQ.core b) := by
  refine ⟨fun s => ⟨rfl, by simp [Con2.clear], fun b => ?_⟩,
    fun s => ⟨rfl, rfl, by simp [ConPoly.clear], fun b => ?_⟩,
    fun s sQ o1 o2 b m e hwf hov hb hmem hlast hrec => ?_,
    fun s sQ o1 o2 b m e hwf hov hb hmem hlast hrec => ?_⟩
  · rw [blockMem, blockMem, clear2_getD]
    exact ⟨rfl, rfl⟩
  · rw [blockMem, blockMem, clearPoly_getD]
    exact ⟨rfl, rfl⟩

  · -- plain container: reconcile after clear still writes the stale record
    rw [Con2.put_reconcile_overflow, reconcile] at hrec
    rcases hf : (Con2.clear s).overflow.foldlM reconcileRecord (Con2.clear s)
      with _ | s1
    · rw [hf] at hrec
      simp at hrec
    · rw [hf] at hrec
      simp only [Option.map_some', Option.some_inj] at hrec
      subst hrec
      have hcov : (Con2.clear s).overflow = o1 ++ (b, m, e) :: o2 := hov
      rw [hcov] at hf
      have hwfc : ∀ b0, ((Con2.clear s).blocks.getD b0 default).arr.length =
          ((Con2.clear s).blocks.getD b0 default).mem := by
        intro b0
        rw [clear2_getD]
        exact CoreWF.allD hwf b0
      have hlenc : (Con2.clear s).blocks.length = s.blocks.length := by
        simp [Con2.clear]
      have hmemc : 1 ≤ ((Con2.clear s).blocks.getD b default).mem := by
        rw [clear2_getD]
        exact hmem
      obtain ⟨hwr, hlt⟩ := reconcileFold_write hwfc hf (by omega) hmemc hlast
      obtain ⟨-, -, -, hco, -, -⟩ := reconcileFold_facts hwfc hf
      refine ⟨?_, hwr, hlt⟩
      rw [blockCo]
      simp only []
      rw [hco b, clear2_getD]
  · -- poly container: identical through the shared core reconciliation
    rw [ConPoly.put_reconcile_overflow] at hrec
    simp only [reconcile] at hrec
    rcases hf : (ConPoly.clear s).core.overflow.foldlM reconcileRecord
        (ConPoly.clear s).core with _ | s1
    · rw [hf] at hrec
      simp at hrec
    · rw [hf] at hrec
      simp only [Option.map_some', Option.some_inj] at hrec
      have hcov : (ConPoly.clear s).core.overflow = o1 ++ (b, m, e) :: o2 := hov
      rw [hcov] at hf
      have hwfc : ∀ b0, ((ConPoly.clear s).core.blocks.getD b0 default).arr.length =
          ((ConPoly.clear s).core.blocks.getD b0 default).mem := by
        intro b0
        rw [clearPoly_getD]
        exact CoreWF.allD hwf b0
      have hlenc : (ConPoly.clear s).core.blocks.length = s.core.blocks.length := by
        simp [ConPoly.clear]
      have hmemc : 1 ≤ ((ConPoly.clear s).core.blocks.getD b default).mem := by
        rw [clearPoly_getD]
        exact hmem
      obtain ⟨hwr, hlt⟩ := reconcileFold_write hwfc hf (by omega) hmemc hlast
      obtain ⟨-, -, -, hco, -, -⟩ := reconcileFold_facts hwfc hf
      have hcore : sQ.core = { s1 with overflow := [] } := by
        rw [← hrec]
      refine ⟨?_, ?_, ?_⟩
      · rw [blockCo, hcore]
        simp only []
        rw [hco b, clearPoly_getD]
      · rw [hcore]
        exact hwr
      · rw [blockMem, hcore]
        exact hlt

/-- Witness for C10 at a concrete state: one block with `co = 2`, `mem = 1`,
one direct entry and one stale overflow record at slot `1`; after `clear`,
reconciliation still writes the record, growing the block to capacity `2`,
while the count stays `0`. -/
theorem C10_clear_keeps_overflow_witness :
    (CoreWF (⟨[⟨2, 1, [(5, 0, 0)]⟩], [(0, 1, (7, 1/2, 1/2))]⟩ : Con2.State) ∧
      Con2.put_reconcile_overflow
          (Con2.clear ⟨[⟨2, 1, [(5, 0, 0)]⟩], [(0, 1, (7, 1/2, 1/2))]⟩) =
        some ⟨[⟨0, 2, [(5, 0, 0), (7, 1/2, 1/2)]⟩], []⟩ ∧
      blockCo (⟨[⟨0, 2, [(5, 0, 0), (7, 1/2, 1/2)]⟩], []⟩ : Con2.State) 0 = 0 ∧
      ((⟨[⟨0, 2, [(5, 0, 0), (7, 1/2, 1/2)]⟩], []⟩ :
          Con2.State).blocks.getD 0 default).arr.getD 1 default = (7, 1/2, 1/2) ∧
      1 < blockMem (⟨[⟨0, 2, [(5, 0, 0), (7, 1/2, 1/2)]⟩], []⟩ : Con2.State) 0) ∧
    (CoreWF (⟨[⟨2, 1, [(5, 0, 0, 0)]⟩], [(0, 1, (7, 1/2, 1/2, 1/4))]⟩ :
        CoreState Particle3) ∧
      ConPoly.put_reconcile_overflow (ConPoly.clear
          ⟨⟨[⟨2, 1, [(5, 0, 0, 0)]⟩], [(0, 1, (7, 1/2, 1/2, 1/4))]⟩, 1/8, [0]⟩) =
        some ⟨⟨[⟨0, 2, [(5, 0, 0, 0), (7, 1/2, 1/2, 1/4)]⟩], []⟩, 0, [0]⟩ ∧
      blockCo (⟨⟨[⟨0, 2, [(5, 0, 0, 0), (7, 1/2, 1/2, 1/4)]⟩], []⟩, 0, [0]⟩ :
          ConPoly.State).core 0 = 0 ∧
      (((⟨⟨[⟨0, 2, [(5, 0, 0, 0), (7, 1/2, 1/2, 1/4)]⟩], []⟩, 0, [0]⟩ :
          ConPoly.State).core.blocks.getD 0 default).arr.getD 1 default =
        (7, 1/2, 1/2, 1/4)) ∧
      1 < blockMem (⟨⟨[⟨0, 2, [(5, 0, 0, 0), (7, 1/2, 1/2, 1/4)]⟩], []⟩, 0, [0]⟩ :
          ConPoly.State).core 0) := by
  have hg : growMem (2 * 1) (1 + 1) = 2 := growMem_of_le (by norm_num) (by norm_num)
  have hrec2 : Con2.put_reconcile_overflow
      (Con2.clear ⟨[⟨2, 1, [(5, 0, 0)]⟩], [(0, 1, (7, 1/2, 1/2))]⟩) =
      some ⟨[⟨0, 2, [(5, 0, 0), (7, 1/2, 1/2)]⟩], []⟩ := by
    norm_num [Con2.put_reconcile_overflow, reconcile, reconcileRecord, Con2.clear,
      List.foldlM_cons, List.foldlM_nil, padTo, max_particle_memory, hg]
  have hrec3 : ConPoly.put_reconcile_overflow (ConPoly.clear
      ⟨⟨[⟨2, 1, [(5, 0, 0, 0)]⟩], [(0, 1, (7, 1/2, 1/2, 1/4))]⟩, 1/8, [0]⟩) =
      some ⟨⟨[⟨0, 2, [(5, 0, 0, 0), (7, 1/2, 1/2, 1/4)]⟩], []⟩, 0, [0]⟩ := by
    norm_num [ConPoly.put_reconcile_overflow, ConPoly.maxStep, reconcile, reconcileRecord,
      ConPoly.clear, List.foldlM_cons, List.foldlM_nil, padTo, max_particle_memory, hg]
  have h2 := C10_clear_keeps_overflow.2.2.1
    ⟨[⟨2, 1, [(5, 0, 0)]⟩], [(0, 1, (7, 1/2, 1/2))]⟩
    ⟨[⟨0, 2, [(5, 0, 0), (7, 1/2, 1/2)]⟩], []⟩ [] [] 0 1 (7, 1/2, 1/2)
    (by decide) rfl (by decide) (by decide) (by simp) hrec2
  have h3 := C10_clear_keeps_overflow.2.2.2
    ⟨⟨[⟨2, 1, [(5, 0, 0, 0)]⟩], [(0, 1, (7, 1/2, 1/2, 1/4))]⟩, 1/8, [0]⟩
    ⟨⟨[⟨0, 2, [(5, 0, 0, 0), (7, 1/2, 1/2, 1/4)]⟩], []⟩, 0, [0]⟩ [] [] 0 1
    (7, 1/2, 1/2, 1/4)
    (by decide) rfl (by decide) (by decide) (by simp) hrec3
  exact ⟨⟨by decide, hrec2, h2⟩, ⟨by decide, hrec3, h3⟩⟩

/-- Claim C2: when a particle must be stored at a slot `m` at or beyond the
block capacity, the capacity is doubled — repeatedly in the reconciliation
loop until it exceeds `m` — the operation aborts exactly when the new
capacity would exceed the hard ceiling `max_particle_memory`, and the existing
entries are copied unchanged to the same slot indices; consequently a
one-block container with `init_mem = 1`, filled by a parallel batch of `n`
accepted insertions followed by `put_reconcile_overflow`, ends with
`co[0] = n` and `mem[0]` the smallest power of two at least `n`. -/
theorem C2_growth :
    (∀ b : Blk Particle2, b.arr.length = b.mem →
      (add_particle_memory b = none ↔ max_particle_memory < 2 * b.mem) ∧
      (∀ b', add_particle_memory b = some b' → b'.mem = 2 * b.mem ∧
        b'.arr.length = 2 * b.mem ∧
        (b.co ≤ b.mem → ∀ i < b.co,
          b'.arr.getD i default = b.arr.getD i default))) ∧
    (∀ (s : Con2.State) (ij m : ℕ) (e : Particle2),
      blockMem s ij ≤ m → 1 ≤ blockMem s ij → ij < s.blocks.length →
      (s.blocks.getD ij default).arr.length = blockMem s ij →
      (reconcileRecord s (ij, m, e) = none ↔
        max_particle_memory < growMem (2 * blockMem s ij) (m + 1)) ∧
      (∀ s', reconcileRecord s (ij, m, e) = some s' →
        blockMem s' ij = growMem (2 * blockMem s ij) (m + 1) ∧
        m < blockMem s' ij ∧
        (∀ i < blockMem s ij, (s'.blocks.getD ij default).arr.getD i default =
          (s.blocks.getD ij default).arr.getD i default) ∧
        (s'.blocks.getD ij default).arr.getD m default = e)) ∧
    (∀ (p : Params) (qs : List Particle2) (t : Con2.State), p.WF →
      p.nx = 1 → p.ny = 1 →
      (∀ q ∈ qs, (put_remap p q.2.1 q.2.2).isSome) →
      Con2.put_reconcile_overflow
        (Con2.put_parallel_list p (initState Particle2 p.nxy 1) qs) = some t →
      blockCo t 0 = qs.length ∧ blockMem t 0 = growMem 1 qs.length ∧
      ∃ k, blockMem t 0 = 2 ^ k ∧ qs.length ≤ 2 ^ k ∧
        ∀ j, qs.length ≤ 2 ^ j → 2 ^ k ≤ 2 ^ j) := by
  refine ⟨?_, ?_, ?_⟩
  · intro b hwfb
    constructor
    · rw [add_particle_memory]
      constructor
      · intro h
        by_contra hgt
        rw [if_neg hgt] at h
        simp at h
      · intro h
        rw [if_pos h]
    · intro b' hb'
      rw [add_particle_memory] at hb'
      split at hb'
      · simp at hb'
      · simp only [Option.some_inj] at hb'
        subst hb'
        refine ⟨rfl, ?_, ?_⟩
        · show (padTo (2 * b.mem) (b.arr.take b.co)).length = 2 * b.mem
          rw [padTo_length]
          rw [List.length_take]
          omega
        · intro hco i hi
          show (padTo (2 * b.mem) (b.arr.take b.co)).getD i default = _
          rw [padTo_getD_lt (by rw [List.length_take]; omega), getD_take hi]
  · intro s ij m e hle h1 hij harr
    have hmem : (s.blocks.getD ij default).mem = blockMem s ij := rfl
    have hg2 : 2 * blockMem s ij ≠ 0 := by omega
    have hmlt : m < growMem (2 * blockMem s ij) (m + 1) := by
      have := @le_growMem (2 * blockMem s ij) (m + 1) hg2
      omega
    constructor
    · simp only [reconcileRecord]
      rw [hmem, if_pos hle]
      constructor
      · intro h
        by_contra hgt
        rw [if_neg hgt] at h
        simp at h
      · intro h
        rw [if_pos h]
        rfl
    · intro s' hs'
      simp only [reconcileRecord] at hs'
      rw [hmem, if_pos hle] at hs'
      split at hs'
      · simp at hs'
      · simp only [Option.map_some', Option.some_inj] at hs'
        subst hs'
        have htklen : ((s.blocks.getD ij default).arr.take (blockMem s ij)).length =
            blockMem s ij := by
          rw [List.length_take]
          omega
        have hplen : (padTo (growMem (2 * blockMem s ij) (m + 1))
            ((s.blocks.getD ij default).arr.take (blockMem s ij))).length =
            growMem (2 * blockMem s ij) (m + 1) := by
          rw [padTo_length]
          rw [htklen]
          omega
        have hgd : ∀ X : Blk Particle2, (s.blocks.set ij X).getD ij default = X :=
          fun X => getD_set_self (by omega)
        refine ⟨?_, ?_, ?_, ?_⟩
        · show ((s.blocks.set ij _).getD ij default).mem = _
          rw [hgd]
        · show m < ((s.blocks.set ij _).getD ij default).mem
          rw [hgd]
          exact hmlt
        · intro i hi
          show ((s.blocks.set ij _).getD ij default).arr.getD i default = _
          rw [hgd]
          show ((padTo _ _).set m e).getD i default = _
          rw [getD_set_ne (by omega), padTo_getD_lt (by rw [htklen]; omega),
            getD_take hi]
        · show ((s.blocks.set ij _).getD ij default).arr.getD m default = e
          rw [hgd]
          show ((padTo _ _).set m e).getD m default = e
          exact getD_set_self (by rw [hplen]; omega)
  · intro p qs t hwf hnx hny hacc h
    have hnxy : p.nxy = 1 := by rw [Params.nxy, hnx, hny]
    have hkey : ∀ l ∈ qs.map (locate2 p), ∃ r : ℕ × Particle2, l = some r ∧ r.1 = 0 := by
      intro l hl
      obtain ⟨q, hq, rfl⟩ := List.mem_map.mp hl
      have hs := hacc q hq
      rcases ho : put_remap p q.2.1 q.2.2 with _ | o
      · rw [ho] at hs
        simp at hs
      · refine ⟨(o.ij.toNat, (q.1, o.x, o.y)), by rw [locate2, ho]; rfl, ?_⟩
        have := locate2_valid hwf (r := (o.ij.toNat, (q.1, o.x, o.y)))
          (by rw [locate2, ho]; rfl)
        omega
    have hvalid : ∀ l ∈ qs.map (locate2 p), ∀ r : ℕ × Particle2, l = some r → r.1 < 1 := by
      intro l hl r hr
      obtain ⟨r0, hr0, hr00⟩ := hkey l hl
      rw [hr0] at hr
      simp only [Option.some_inj] at hr
      rw [← hr]
      omega
    rw [Con2.put_reconcile_overflow, con2_parallel_eq, hnxy] at h
    have hlen1 : (initState Particle2 1 1).blocks.length = 1 := by simp [initState]
    obtain ⟨-, -, hblk⟩ := roundFacts hlen1 rfl hvalid
      (fun b hb => by interval_cases b; rw [blockCo, blockMem, initState_getD (by omega)]; simp)
      (fun b hb => by interval_cases b; rw [blockMem, initState_getD (by omega)]; simp)
      (fun b hb => by interval_cases b; rw [blockMem, initState_getD (by omega)]; simp) h
    obtain ⟨hco, hmem, -, -, -, -⟩ := hblk 0 (by omega)
    have hco0 : blockCo (initState Particle2 1 1) 0 = 0 := by
      rw [blockCo, initState_getD (by omega)]
    have hmem0 : blockMem (initState Particle2 1 1) 0 = 1 := by
      rw [blockMem, initState_getD (by omega)]
    have hlen : (accB (qs.map (locate2 p)) 0).length = qs.length := by
      rw [accB_all_zero hkey, List.length_map]
    rw [hco0, hlen] at hco
    simp only [Nat.zero_add] at hco
    rw [hmem0] at hmem
    refine ⟨by omega, by rw [hmem, hco], ?_⟩
    obtain ⟨k, hk⟩ := @growMem_shape 1 qs.length (by norm_num)
    refine ⟨k, ?_, ?_, ?_⟩
    · rw [hmem, hco, hk]
      omega
    · have := @le_growMem 1 qs.length (by norm_num)
      omega
    · intro j hj
      have := @growMem_le 1 qs.length j (by norm_num) (by omega)
      omega

/-- Witness for C2: on the non-periodic unit square with one block and
`init_mem = 1`, the parallel batch of three particles at `(1/2, 1/2)` followed
by reconciliation ends with `co[0] = 3` and `mem[0] = growMem 1 3 = 4`, and a
grown serial block doubles its capacity. -/
theorem C2_growth_witness :
    blockCo (⟨[⟨3, 4, [((0:ℤ), (1:ℚ)/2, (1:ℚ)/2), (1, 1/2, 1/2), (2, 1/2, 1/2), (0, 0, 0)]⟩],
        []⟩ : Con2.State) 0 = 3 ∧
    blockMem (⟨[⟨3, 4, [((0:ℤ), (1:ℚ)/2, (1:ℚ)/2), (1, 1/2, 1/2), (2, 1/2, 1/2), (0, 0, 0)]⟩],
        []⟩ : Con2.State) 0 = growMem 1 3 ∧
    (⟨1, 2, [((5:ℤ), (0:ℚ), (0:ℚ)), (0, 0, 0)]⟩ : Blk Particle2).mem = 2 * 1 := by
  have hg22 : growMem 2 2 = 2 := growMem_of_le (by norm_num) (by norm_num)
  have hg43 : growMem 4 3 = 4 := growMem_of_le (by norm_num) (by norm_num)
  have hdef : (default : Particle2) = (0, 0, 0) := rfl
  have hrun : Con2.put_reconcile_overflow (Con2.put_parallel_list
      (⟨0, 1, 0, 1, 1, 1, false, false⟩ : Params)
      (initState Particle2 (⟨0, 1, 0, 1, 1, 1, false, false⟩ : Params).nxy 1)
      [((0:ℤ), (1:ℚ)/2, (1:ℚ)/2), (1, 1/2, 1/2), (2, 1/2, 1/2)]) =
      some ⟨[⟨3, 4, [((0:ℤ), (1:ℚ)/2, (1:ℚ)/2), (1, 1/2, 1/2), (2, 1/2, 1/2), (0, 0, 0)]⟩],
        []⟩ := by
    norm_num [Con2.put_reconcile_overflow, Con2.put_parallel_list, Con2.put_parallel,
      parallelPut, locate2, put_remap, step_int, Params.xsp, Params.ysp,
      Params.boxx, Params.boxy, Params.nxy, initState, reconcile, reconcileRecord,
      List.foldlM_cons, List.foldlM_nil, List.foldl_cons, List.foldl_nil,
      List.replicate, padTo, max_particle_memory, hg22, hg43, hdef]
  have hc := C2_growth.2.2 (⟨0, 1, 0, 1, 1, 1, false, false⟩ : Params)
    [((0:ℤ), (1:ℚ)/2, (1:ℚ)/2), (1, 1/2, 1/2), (2, 1/2, 1/2)]
    ⟨[⟨3, 4, [((0:ℤ), (1:ℚ)/2, (1:ℚ)/2), (1, 1/2, 1/2), (2, 1/2, 1/2), (0, 0, 0)]⟩], []⟩
    (by decide) rfl rfl
    (by
      intro q hq
      fin_cases hq <;>
        norm_num [put_remap, step_int, Params.xsp, Params.ysp, Params.boxx, Params.boxy])
    hrun
  have ha := (C2_growth.1 (⟨1, 1, [((5:ℤ), (0:ℚ), (0:ℚ))]⟩ : Blk Particle2) (by norm_num)).2
    ⟨1, 2, [((5:ℤ), (0:ℚ), (0:ℚ)), (0, 0, 0)]⟩
    (by norm_num [add_particle_memory, padTo, max_particle_memory, hdef])
  norm_num at hc
  exact ⟨hc.1, hc.2.1, ha.1⟩

/-- Claim C1: inserting a finite particle list serially and inserting any
permutation of it through `put_parallel` followed by one
`put_reconcile_overflow` produce the same container from a fresh state: every
block ends with the same count and the same stored entries up to slot order,
and for the poly container the same `max_radius`. -/
theorem C1_serial_parallel :
    (∀ (p : Params) (im : ℕ) (ps qs : List Particle2) (s t : Con2.State),
      p.WF → im ≠ 0 → qs.Perm ps →
      Con2.putList p (initState Particle2 p.nxy im) ps = some s →
      Con2.put_reconcile_overflow
        (Con2.put_parallel_list p (initState Particle2 p.nxy im) qs) = some t →
      ∀ b < p.nxy, blockCo t b = blockCo s b ∧
        (blockEntries t b).Perm (blockEntries s b)) ∧
    (∀ (p : Params) (im nt : ℕ) (ps : List Particle3) (qs : List (ℕ × Particle3))
      (s t : ConPoly.State),
      p.WF → im ≠ 0 → (qs.map Prod.snd).Perm ps →
      (∀ tq ∈ qs, tq.1 < nt) →
      ConPoly.putList p (ConPoly.initPoly p.nxy im nt) ps = some s →
      ConPoly.put_reconcile_overflow
        (ConPoly.put_parallel_list p (ConPoly.initPoly p.nxy im nt) qs) = some t →
      (∀ b < p.nxy, blockCo t.core b = blockCo s.core b ∧
        (blockEntries t.core b).Perm (blockEntries s.core b)) ∧
      t.max_radius = s.max_radius) := by
  have hinit : ∀ (E : Type) [Inhabited E] (nblk im : ℕ), im ≠ 0 →
      (initState E nblk im).blocks.length = nblk ∧
      (∀ b < nblk, blockCo (initState E nblk im) b ≤ blockMem (initState E nblk im) b) ∧
      (∀ b < nblk, ((initState E nblk im).blocks.getD b default).arr.length =
        blockMem (initState E nblk im) b) ∧
      (∀ b < nblk, blockMem (initState E nblk im) b ≠ 0) := by
    intro E _ nblk im him
    refine ⟨by simp [initState], ?_, ?_, ?_⟩ <;> intro b hb <;>
      rw [blockMem, initState_getD hb] <;> simp
    · rw [blockCo, initState_getD hb]
      simp
    · omega
  refine ⟨?_, ?_⟩
  · intro p im ps qs s t hwf him hperm hs ht
    rw [con2_putList_eq] at hs
    rw [Con2.put_reconcile_overflow, con2_parallel_eq] at ht
    have hvps : ∀ l ∈ ps.map (locate2 p), ∀ r : ℕ × Particle2, l = some r → r.1 < p.nxy := by
      intro l hl r hr
      obtain ⟨q, -, rfl⟩ := List.mem_map.mp hl
      exact locate2_valid hwf hr
    have hvqs : ∀ l ∈ qs.map (locate2 p), ∀ r : ℕ × Particle2, l = some r → r.1 < p.nxy := by
      intro l hl r hr
      obtain ⟨q, -, rfl⟩ := List.mem_map.mp hl
      exact locate2_valid hwf hr
    obtain ⟨hlen0, hco00, hwf00, hmem00⟩ := hinit Particle2 p.nxy im him
    obtain ⟨hovS, hlenS, hbS⟩ := serialPutList_facts him hvps hs
    obtain ⟨hovT, hlenT, hbT⟩ := roundFacts hlen0 rfl hvqs hco00 hwf00 hmem00 ht
    intro b hb
    obtain ⟨hcoS, hmemS, harrS, -, hcontS⟩ := hbS b hb
    obtain ⟨hcoT, hmemT, harrT, hcmT, -, hcontT⟩ := hbT b hb
    have hco0 : blockCo (initState Particle2 p.nxy im) b = 0 := by
      rw [blockCo, initState_getD hb]
    rw [hco0] at hcoT hcontT
    simp only [Nat.zero_add] at hcoT
    simp only [Nat.sub_zero] at hcontT
    have hpermB := accB_perm (hperm.map (locate2 p)) b
    have hS : blockEntries s b = accB (ps.map (locate2 p)) b :=
      blockEntries_eq_of hcoS
        (by rw [harrS, hmemS]; exact le_growMem him) hcontS
    have hT : blockEntries t b = accB (qs.map (locate2 p)) b :=
      blockEntries_eq_of hcoT (by rw [harrT]; exact hcmT)
        (fun i hi => hcontT i (Nat.zero_le i) hi)
    refine ⟨?_, ?_⟩
    · rw [hcoT, hcoS]
      exact hpermB.length_eq
    · rw [hT, hS]
      exact hpermB
  · intro p im nt ps qs s t hwf him hperm hth hs ht
    obtain ⟨hsc, hsr, hsrad⟩ := conPoly_putList_facts p hs
    obtain ⟨hbc, hbrad⟩ := conPoly_batch_core p qs (ConPoly.initPoly p.nxy im nt)
    obtain ⟨hlenr, hmono, hcover, hprov⟩ := conPoly_batch_maxr p qs (ConPoly.initPoly p.nxy im nt)
      (by intro tq htq; simpa [ConPoly.initPoly] using hth tq htq)
    obtain ⟨hrec, hrad, -⟩ := conPoly_reconcile_some ht
    rw [hbc] at hrec
    have hcore0 : (ConPoly.initPoly p.nxy im nt).core = initState Particle3 p.nxy im := rfl
    rw [hcore0] at hrec hsc
    have hmapeq : (qs.map fun tq => locate3 p tq.2) = (qs.map Prod.snd).map (locate3 p) := by
      rw [List.map_map]
      rfl
    have hvps : ∀ l ∈ ps.map (locate3 p), ∀ r : ℕ × Particle3, l = some r → r.1 < p.nxy := by
      intro l hl r hr
      obtain ⟨q, -, rfl⟩ := List.mem_map.mp hl
      exact locate3_valid hwf hr
    have hvqs : ∀ l ∈ (qs.map fun tq => locate3 p tq.2), ∀ r : ℕ × Particle3,
        l = some r → r.1 < p.nxy := by
      intro l hl r hr
      obtain ⟨tq, -, rfl⟩ := List.mem_map.mp hl
      exact locate3_valid hwf hr
    obtain ⟨hlen0, hco00, hwf00, hmem00⟩ := hinit Particle3 p.nxy im him
    obtain ⟨hovS, hlenS, hbS⟩ := serialPutList_facts him hvps hsc
    obtain ⟨hovT, hlenT, hbT⟩ := roundFacts hlen0 rfl hvqs hco00 hwf00 hmem00 hrec
    have hpermL : (qs.map fun tq => locate3 p tq.2).Perm (ps.map (locate3 p)) := by
      rw [hmapeq]
      exact hperm.map (locate3 p)
    constructor
    · intro b hb
      obtain ⟨hcoS, hmemS, harrS, -, hcontS⟩ := hbS b hb
      obtain ⟨hcoT, hmemT, harrT, hcmT, -, hcontT⟩ := hbT b hb
      have hco0 : blockCo (initState Particle3 p.nxy im) b = 0 := by
        rw [blockCo, initState_getD hb]
      rw [hco0] at hcoT hcontT
      simp only [Nat.zero_add] at hcoT
      simp only [Nat.sub_zero] at hcontT
      have hpermB := accB_perm hpermL b
      have hS : blockEntries s.core b = accB (ps.map (locate3 p)) b :=
        blockEntries_eq_of hcoS
          (by rw [harrS, hmemS]; exact le_growMem him) hcontS
      have hT : blockEntries t.core b = accB (qs.map fun tq => locate3 p tq.2) b :=
        blockEntries_eq_of hcoT (by rw [harrT]; exact hcmT)
          (fun i hi => hcontT i (Nat.zero_le i) hi)
      refine ⟨?_, ?_⟩
      · rw [hcoT, hcoS]
        exact hpermB.length_eq
      · rw [hT, hS]
        exact hpermB
    · -- max_radius agreement through the supremum characterization
      set B := ConPoly.put_parallel_list p (ConPoly.initPoly p.nxy im nt) qs with hB
      have hB0 : B.max_radius = 0 := by rw [hbrad]; rfl
      have hr0 : (ConPoly.initPoly p.nxy im nt).max_r = List.replicate nt 0 := rfl
      have hgetD0 : ∀ u, (ConPoly.initPoly p.nxy im nt).max_r.getD u 0 = 0 := by
        intro u
        rw [hr0]
        rcases lt_or_ge u nt with hu | hu
        · rw [List.getD_eq_getElem?_getD, List.getElem?_replicate, if_pos (by simpa using hu)]
          rfl
        · rw [List.getD_eq_default _ _ (by simpa using hu)]
      have hradt : t.max_radius = B.max_r.foldl ConPoly.maxStep 0 := by
        rw [hrad, ConPoly.mergedMax, hB0]
      have hrads : s.max_radius =
          (ConPoly.accRad (ps.map (locate3 p))).foldl ConPoly.maxStep 0 := by
        rw [hsrad]
        rfl
      have hRperm := accRad_perm hpermL
      -- upper bounds
      have hub_t : ∀ x ∈ ConPoly.accRad (qs.map fun tq => locate3 p tq.2),
          x ≤ t.max_radius := by
        intro x hx
        obtain ⟨le, hle, hxv⟩ := accRad_mem.mp hx
        obtain ⟨tq, htq, hloc⟩ := List.mem_map.mp hle
        have hcov := hcover tq htq (by rw [hloc]; rfl)
        have hlt : tq.1 < B.max_r.length := by
          rw [hlenr]
          simpa [ConPoly.initPoly] using hth tq htq
        have hmem : B.max_r.getD tq.1 0 ∈ B.max_r := getD_mem_of_lt 0 hlt
        rw [hradt]
        calc x = ConPoly.radius tq.2 := by rw [← hxv, locate3_radius hloc]
        _ ≤ B.max_r.getD tq.1 0 := hcov
        _ ≤ B.max_r.foldl ConPoly.maxStep 0 := foldl_maxStep_mem 0 hmem
      have hub_s : ∀ x ∈ ConPoly.accRad (ps.map (locate3 p)), x ≤ s.max_radius := by
        intro x hx
        rw [hrads]
        exact foldl_maxStep_mem 0 hx
      have hge0_t : 0 ≤ t.max_radius := by
        rw [hradt]
        exact foldl_maxStep_init _ _
      have hge0_s : 0 ≤ s.max_radius := by
        rw [hrads]
        exact foldl_maxStep_init _ _
      -- attainment
      have hatt_t : t.max_radius = 0 ∨
          t.max_radius ∈ ConPoly.accRad (qs.map fun tq => locate3 p tq.2) := by
        rw [hradt]
        rcases foldl_maxStep_cases B.max_r 0 with h0 | hmem
        · exact Or.inl h0
        · obtain ⟨u, hu, huv⟩ := List.mem_iff_getElem.mp hmem
          have huD : B.max_r.getD u 0 = B.max_r.foldl ConPoly.maxStep 0 := by
            rw [List.getD_eq_getElem?_getD, List.getElem?_eq_getElem hu]
            exact huv
          rcases hprov u with hold | ⟨tq, htq, hsome, heq⟩
          · left
            rw [← huD, hold, hgetD0]
          · right
            rw [← huD, heq]
            rcases ho : locate3 p tq.2 with _ | le
            · rw [ho] at hsome
              simp at hsome
            · refine accRad_mem.mpr ⟨le, List.mem_map.mpr ⟨tq, htq, ho⟩, ?_⟩
              exact locate3_radius ho
      have hatt_s : s.max_radius = 0 ∨
          s.max_radius ∈ ConPoly.accRad (ps.map (locate3 p)) := by
        rw [hrads]
        exact foldl_maxStep_cases _ _
      -- antisymmetry
      apply le_antisymm
      · rcases hatt_t with h0 | hmem
        · rw [h0]
          exact hge0_s
        · exact hub_s _ (hRperm.mem_iff.mp hmem)
      · rcases hatt_s with h0 | hmem
        · rw [h0]
          exact hge0_t
        · exact hub_t _ (hRperm.mem_iff.mpr hmem)

/-- Witness for C1: on the non-periodic unit square with one block and
`init_mem = 1`, inserting two particles serially and in swapped order via the
parallel path gives the same count, the same entries up to slot order, and for
the poly container the same `max_radius = 3/4`. -/
theorem C1_serial_parallel_witness :
    (blockCo (⟨[⟨2, 2, [((1:ℤ), (1:ℚ)/2, (1:ℚ)/2), (0, 1/2, 1/2)]⟩], []⟩ : Con2.State) 0 =
      blockCo (⟨[⟨2, 2, [((0:ℤ), (1:ℚ)/2, (1:ℚ)/2), (1, 1/2, 1/2)]⟩], []⟩ : Con2.State) 0 ∧
     (blockEntries (⟨[⟨2, 2, [((1:ℤ), (1:ℚ)/2, (1:ℚ)/2), (0, 1/2, 1/2)]⟩], []⟩ :
        Con2.State) 0).Perm
       (blockEntries (⟨[⟨2, 2, [((0:ℤ), (1:ℚ)/2, (1:ℚ)/2), (1, 1/2, 1/2)]⟩], []⟩ :
        Con2.State) 0)) ∧
    (⟨⟨[⟨2, 2, [((1:ℤ), (1:ℚ)/2, (1:ℚ)/2, (3:ℚ)/4), (0, 1/2, 1/2, 1/4)]⟩], []⟩, 3/4,
        [0, 0]⟩ : ConPoly.State).max_radius =
      (⟨⟨[⟨2, 2, [((0:ℤ), (1:ℚ)/2, (1:ℚ)/2, (1:ℚ)/4), (1, 1/2, 1/2, 3/4)]⟩], []⟩, 3/4,
        [0, 0]⟩ : ConPoly.State).max_radius := by
  have hdef : (default : Particle2) = (0, 0, 0) := rfl
  have hdef3 : (default : Particle3) = (0, 0, 0, 0) := rfl
  have hg22 : growMem 2 2 = 2 := growMem_of_le (by norm_num) (by norm_num)
  have hs2 : Con2.putList (⟨0, 1, 0, 1, 1, 1, false, false⟩ : Params)
      (initState Particle2 (⟨0, 1, 0, 1, 1, 1, false, false⟩ : Params).nxy 1)
      [((0:ℤ), (1:ℚ)/2, (1:ℚ)/2), (1, 1/2, 1/2)] =
      some ⟨[⟨2, 2, [((0:ℤ), (1:ℚ)/2, (1:ℚ)/2), (1, 1/2, 1/2)]⟩], []⟩ := by
    norm_num [Con2.putList, Con2.put, serialPut, locate2, put_remap, step_int,
      Params.xsp, Params.ysp, Params.boxx, Params.boxy, Params.nxy, initState,
      List.foldlM_cons, List.foldlM_nil, add_particle_memory, padTo,
      max_particle_memory, List.replicate, hdef]
  have ht2 : Con2.put_reconcile_overflow (Con2.put_parallel_list
      (⟨0, 1, 0, 1, 1, 1, false, false⟩ : Params)
      (initState Particle2 (⟨0, 1, 0, 1, 1, 1, false, false⟩ : Params).nxy 1)
      [((1:ℤ), (1:ℚ)/2, (1:ℚ)/2), (0, 1/2, 1/2)]) =
      some ⟨[⟨2, 2, [((1:ℤ), (1:ℚ)/2, (1:ℚ)/2), (0, 1/2, 1/2)]⟩], []⟩ := by
    norm_num [Con2.put_reconcile_overflow, Con2.put_parallel_list, Con2.put_parallel,
      parallelPut, locate2, put_remap, step_int, Params.xsp, Params.ysp,
      Params.boxx, Params.boxy, Params.nxy, initState, reconcile, reconcileRecord,
      List.foldlM_cons, List.foldlM_nil, List.foldl_cons, List.foldl_nil,
      List.replicate, padTo, max_particle_memory, hg22, hdef]
  have hs3 : ConPoly.putList (⟨0, 1, 0, 1, 1, 1, false, false⟩ : Params)
      (ConPoly.initPoly (⟨0, 1, 0, 1, 1, 1, false, false⟩ : Params).nxy 1 2)
      [((0:ℤ), (1:ℚ)/2, (1:ℚ)/2, (1:ℚ)/4), (1, 1/2, 1/2, 3/4)] =
      some ⟨⟨[⟨2, 2, [((0:ℤ), (1:ℚ)/2, (1:ℚ)/2, (1:ℚ)/4), (1, 1/2, 1/2, 3/4)]⟩], []⟩,
        3/4, [0, 0]⟩ := by
    norm_num [ConPoly.putList, ConPoly.put, ConPoly.initPoly, ConPoly.radius,
      serialPut, locate3, put_remap, step_int,
      Params.xsp, Params.ysp, Params.boxx, Params.boxy, Params.nxy, initState,
      List.foldlM_cons, List.foldlM_nil, add_particle_memory, padTo,
      max_particle_memory, List.replicate, hdef3]
  have ht3 : ConPoly.put_reconcile_overflow (ConPoly.put_parallel_list
      (⟨0, 1, 0, 1, 1, 1, false, false⟩ : Params)
      (ConPoly.initPoly (⟨0, 1, 0, 1, 1, 1, false, false⟩ : Params).nxy 1 2)
      [(1, ((1:ℤ), (1:ℚ)/2, (1:ℚ)/2, (3:ℚ)/4)), (0, (0, 1/2, 1/2, 1/4))]) =
      some ⟨⟨[⟨2, 2, [((1:ℤ), (1:ℚ)/2, (1:ℚ)/2, (3:ℚ)/4), (0, 1/2, 1/2, 1/4)]⟩], []⟩,
        3/4, [0, 0]⟩ := by
    norm_num [ConPoly.put_reconcile_overflow, ConPoly.put_parallel_list,
      ConPoly.put_parallel, ConPoly.initPoly, ConPoly.radius, ConPoly.mergedMax,
      ConPoly.maxStep, parallelPut, locate3, put_remap, step_int,
      Params.xsp, Params.ysp, Params.boxx, Params.boxy, Params.nxy, initState,
      reconcile, reconcileRecord, List.foldlM_cons, List.foldlM_nil,
      List.foldl_cons, List.foldl_nil, List.replicate, padTo,
      max_particle_memory, hg22, hdef3]
  have h2 := C1_serial_parallel.1 (⟨0, 1, 0, 1, 1, 1, false, false⟩ : Params) 1
    [((0:ℤ), (1:ℚ)/2, (1:ℚ)/2), (1, 1/2, 1/2)]
    [((1:ℤ), (1:ℚ)/2, (1:ℚ)/2), (0, 1/2, 1/2)]
    ⟨[⟨2, 2, [((0:ℤ), (1:ℚ)/2, (1:ℚ)/2), (1, 1/2, 1/2)]⟩], []⟩
    ⟨[⟨2, 2, [((1:ℤ), (1:ℚ)/2, (1:ℚ)/2), (0, 1/2, 1/2)]⟩], []⟩
    (by decide) (by norm_num) (List.Perm.swap _ _ _) hs2 ht2 0 (by decide)
  have h3 := C1_serial_parallel.2 (⟨0, 1, 0, 1, 1, 1, false, false⟩ : Params) 1 2
    [((0:ℤ), (1:ℚ)/2, (1:ℚ)/2, (1:ℚ)/4), (1, 1/2, 1/2, 3/4)]
    [(1, ((1:ℤ), (1:ℚ)/2, (1:ℚ)/2, (3:ℚ)/4)), (0, (0, 1/2, 1/2, 1/4))]
    ⟨⟨[⟨2, 2, [((0:ℤ), (1:ℚ)/2, (1:ℚ)/2, (1:ℚ)/4), (1, 1/2, 1/2, 3/4)]⟩], []⟩,
      3/4, [0, 0]⟩
    ⟨⟨[⟨2, 2, [((1:ℤ), (1:ℚ)/2, (1:ℚ)/2, (3:ℚ)/4), (0, 1/2, 1/2, 1/4)]⟩], []⟩,
      3/4, [0, 0]⟩
    (by decide) (by norm_num)
    (by simp only [List.map_cons, List.map_nil]; exact List.Perm.swap _ _ _)
    (by intro tq htq; fin_cases htq <;> norm_num) hs3 ht3
  exact ⟨h2, h3.2⟩

/-- Claim C4: after serial puts followed by rounds of parallel batches each
reconciled, the per-block counts sum to the number of accepted insertions, the
overflow buffer is empty and `co[b] ≤ mem[b]` for every block; during a batch
a reservation at or past the capacity leaves the block array untouched and
sends the record to the overflow buffer instead. -/
theorem C4_invariants :
    (∀ (p : Params) (im : ℕ) (ps : List Particle2) (rounds : List (List Particle2))
      (s : Con2.State), p.WF → im ≠ 0 →
      Con2.run p im ps rounds = some s →
      s.overflow = [] ∧
      totalCo s = (accList (ps.map (locate2 p))).length +
        (rounds.map fun qs => (accList (qs.map (locate2 p))).length).sum ∧
      ∀ b < p.nxy, blockCo s b ≤ blockMem s b) ∧
    (∀ (s : Con2.State) (ij : ℕ) (e : Particle2), ij < s.blocks.length →
      blockMem s ij ≤ blockCo s ij →
      ((parallelPut s (some (ij, e))).blocks.getD ij default).arr =
        (s.blocks.getD ij default).arr ∧
      (parallelPut s (some (ij, e))).overflow = s.overflow ++ [(ij, blockCo s ij, e)] ∧
      blockCo (parallelPut s (some (ij, e))) ij = blockCo s ij + 1) := by
  constructor
  · intro p im ps rounds s hwf him hrun
    rw [Con2.run] at hrun
    rcases hmid : Con2.putList p (initState Particle2 p.nxy im) ps with _ | smid
    · rw [hmid] at hrun
      simp at hrun
    · rw [hmid] at hrun
      simp only [Option.bind_eq_bind, Option.some_bind] at hrun
      rw [con2_putList_eq] at hmid
      have hvps : ∀ l ∈ ps.map (locate2 p), ∀ r : ℕ × Particle2,
          l = some r → r.1 < p.nxy := by
        intro l hl r hr
        obtain ⟨q, -, rfl⟩ := List.mem_map.mp hl
        exact locate2_valid hwf hr
      obtain ⟨hovM, hlenM, hbM⟩ := serialPutList_facts him hvps hmid
      have hcoM : ∀ b < p.nxy, blockCo smid b ≤ blockMem smid b := fun b hb => by
        rw [(hbM b hb).2.1]
        exact le_growMem him
      have hwfM : ∀ b < p.nxy, (smid.blocks.getD b default).arr.length = blockMem smid b :=
        fun b hb => (hbM b hb).2.2.1
      have hmemM : ∀ b < p.nxy, blockMem smid b ≠ 0 := fun b hb => by
        rw [(hbM b hb).2.1]
        exact growMem_ne_zero him
      obtain ⟨hovf, hlenf, hcof, -, -, htotf⟩ :=
        con2_rounds_facts p hwf hovM hlenM hcoM hwfM hmemM hrun
      refine ⟨hovf, ?_, hcof⟩
      have haccM : ∀ r ∈ accList (ps.map (locate2 p)), r.1 < p.nxy := by
        intro r hr
        exact hvps (some r) (accList_mem.mp hr) r rfl
      have htotM : totalCo smid = (accList (ps.map (locate2 p))).length := by
        rw [totalCo_sum, hlenM]
        rw [Finset.sum_congr rfl (fun b hb => (hbM b (Finset.mem_range.mp hb)).1)]
        exact sum_accB haccM
      rw [htotf, htotM]
  · intro s ij e hij hout
    have hnot : ¬((s.blocks.getD ij default).co < (s.blocks.getD ij default).mem) := by
      rw [blockMem, blockCo] at hout
      omega
    simp only [parallelPut]
    rw [if_neg hnot]
    have hgd : (s.blocks.set ij { s.blocks.getD ij default with
        co := (s.blocks.getD ij default).co + 1 }).getD ij default =
        { s.blocks.getD ij default with co := (s.blocks.getD ij default).co + 1 } :=
      getD_set_self hij
    exact ⟨by rw [hgd], rfl, by rw [blockCo, blockCo]; rw [hgd]⟩

/-- Witness for C4: a serial insertion followed by one parallel round on the
non-periodic unit square with one block ends with an empty overflow buffer,
total count `2`, and `co ≤ mem`; a parallel reservation at the capacity of a
full one-slot block leaves the array untouched and buffers the record. -/
theorem C4_invariants_witness :
    ((⟨[⟨2, 2, [((0:ℤ), (1:ℚ)/2, (1:ℚ)/2), (1, 1/2, 1/2)]⟩], []⟩ :
        Con2.State).overflow = [] ∧
      totalCo (⟨[⟨2, 2, [((0:ℤ), (1:ℚ)/2, (1:ℚ)/2), (1, 1/2, 1/2)]⟩], []⟩ :
        Con2.State) = 2 ∧
      blockCo (⟨[⟨2, 2, [((0:ℤ), (1:ℚ)/2, (1:ℚ)/2), (1, 1/2, 1/2)]⟩], []⟩ :
        Con2.State) 0 ≤
        blockMem (⟨[⟨2, 2, [((0:ℤ), (1:ℚ)/2, (1:ℚ)/2), (1, 1/2, 1/2)]⟩], []⟩ :
        Con2.State) 0) ∧
    (((parallelPut (⟨[⟨1, 1, [((0:ℤ), (1:ℚ)/2, (1:ℚ)/2)]⟩], []⟩ : Con2.State)
        (some (0, ((9:ℤ), (1:ℚ)/4, (1:ℚ)/4)))).blocks.getD 0 default).arr =
        [((0:ℤ), (1:ℚ)/2, (1:ℚ)/2)] ∧
      (parallelPut (⟨[⟨1, 1, [((0:ℤ), (1:ℚ)/2, (1:ℚ)/2)]⟩], []⟩ : Con2.State)
        (some (0, ((9:ℤ), (1:ℚ)/4, (1:ℚ)/4)))).overflow =
        [(0, 1, ((9:ℤ), (1:ℚ)/4, (1:ℚ)/4))]) := by
  have hdef : (default : Particle2) = (0, 0, 0) := rfl
  have hg22 : growMem 2 2 = 2 := growMem_of_le (by norm_num) (by norm_num)
  have hrun : Con2.run (⟨0, 1, 0, 1, 1, 1, false, false⟩ : Params) 1
      [((0:ℤ), (1:ℚ)/2, (1:ℚ)/2)] [[((1:ℤ), (1:ℚ)/2, (1:ℚ)/2)]] =
      some ⟨[⟨2, 2, [((0:ℤ), (1:ℚ)/2, (1:ℚ)/2), (1, 1/2, 1/2)]⟩], []⟩ := by
    norm_num [Con2.run, Con2.putList, Con2.put, serialPut,
      Con2.put_reconcile_overflow, Con2.put_parallel_list, Con2.put_parallel,
      parallelPut, locate2, put_remap, step_int, Params.xsp, Params.ysp,
      Params.boxx, Params.boxy, Params.nxy, initState, reconcile, reconcileRecord,
      List.foldlM_cons, List.foldlM_nil, List.foldl_cons, List.foldl_nil,
      List.replicate, padTo, max_particle_memory, hg22, hdef]
  have h1 := C4_invariants.1 (⟨0, 1, 0, 1, 1, 1, false, false⟩ : Params) 1
    [((0:ℤ), (1:ℚ)/2, (1:ℚ)/2)] [[((1:ℤ), (1:ℚ)/2, (1:ℚ)/2)]]
    ⟨[⟨2, 2, [((0:ℤ), (1:ℚ)/2, (1:ℚ)/2), (1, 1/2, 1/2)]⟩], []⟩
    (by decide) (by norm_num) hrun
  have h2 := C4_invariants.2 (⟨[⟨1, 1, [((0:ℤ), (1:ℚ)/2, (1:ℚ)/2)]⟩], []⟩ : Con2.State)
    0 ((9:ℤ), (1:ℚ)/4, (1:ℚ)/4) (by norm_num) (by norm_num [blockCo, blockMem])
  refine ⟨⟨h1.1, ?_, h1.2.2 0 (by decide)⟩, h2.1, ?_⟩
  · rw [h1.2.1]
    norm_num [accList, List.filterMap_cons, List.filterMap_nil, locate2, put_remap,
      step_int, Params.xsp, Params.ysp, Params.boxx, Params.boxy]
  · rw [h2.2.1]
    norm_num [blockCo]

/-- Claim C8: in every poly-container state reached by serial puts followed by
reconciled parallel rounds, `max_radius` bounds the radius of every stored
particle; and `max_radius` never decreases across `put` (it is untouched by
`put_parallel` and only merged upward by `put_reconcile_overflow`). -/
theorem C8_max_radius :
    (∀ (p : Params) (im nt : ℕ) (ps : List Particle3)
      (rounds : List (List (ℕ × Particle3))) (s : ConPoly.State),
      p.WF → im ≠ 0 →
      (∀ round ∈ rounds, ∀ tq ∈ round, tq.1 < nt) →
      ConPoly.run p im nt ps rounds = some s →
      ∀ b < p.nxy, ∀ i < blockCo s.core b,
        ConPoly.radius ((s.core.blocks.getD b default).arr.getD i default) ≤
          s.max_radius) ∧
    (∀ (p : Params) (s s' : ConPoly.State) (q : Particle3),
      ConPoly.put p s q = some s' → s.max_radius ≤ s'.max_radius) ∧
    (∀ (p : Params) (s : ConPoly.State) (t : ℕ) (q : Particle3),
      (ConPoly.put_parallel p s t q).max_radius = s.max_radius) ∧
    (∀ (s s' : ConPoly.State), ConPoly.put_reconcile_overflow s = some s' →
      s.max_radius ≤ s'.max_radius) := by
  refine ⟨?_, ?_, ?_, ?_⟩
  · intro p im nt ps rounds s hwf him hth hrun
    rw [ConPoly.run] at hrun
    rcases hmid : ConPoly.putList p (ConPoly.initPoly p.nxy im nt) ps with _ | smid
    · rw [hmid] at hrun
      simp at hrun
    · rw [hmid] at hrun
      simp only [Option.bind_eq_bind, Option.some_bind] at hrun
      obtain ⟨hscore, hsr, hsrad⟩ := conPoly_putList_facts p hmid
      have hcore0 : (ConPoly.initPoly p.nxy im nt).core = initState Particle3 p.nxy im := rfl
      rw [hcore0] at hscore
      have hvps : ∀ l ∈ ps.map (locate3 p), ∀ r : ℕ × Particle3,
          l = some r → r.1 < p.nxy := by
        intro l hl r hr
        obtain ⟨q, -, rfl⟩ := List.mem_map.mp hl
        exact locate3_valid hwf hr
      obtain ⟨hovM, hlenM, hbM⟩ := serialPutList_facts him hvps hscore
      have hsrad0 : smid.max_radius =
          (ConPoly.accRad (ps.map (locate3 p))).foldl ConPoly.maxStep 0 := by
        rw [hsrad]
        rfl
      have hboundM : ∀ b < p.nxy, ∀ i < blockCo smid.core b,
          ConPoly.radius ((smid.core.blocks.getD b default).arr.getD i default) ≤
            smid.max_radius := by
        intro b hb i hi
        obtain ⟨hcoM, -, -, -, hcontM⟩ := hbM b hb
        rw [hcontM i hi]
        have hmem : (accB (ps.map (locate3 p)) b).getD i default ∈
            accB (ps.map (locate3 p)) b := by
          apply getD_mem_of_lt
          rw [← hcoM]
          exact hi
        obtain ⟨r, hrls, -, hre⟩ := accB_mem.mp hmem
        rw [hsrad0, ← hre]
        apply foldl_maxStep_mem
        exact accRad_mem.mpr ⟨r, hrls, rfl⟩
      have hinv := conPoly_rounds_inv p hwf nt hth hovM hlenM
        (fun b hb => by rw [(hbM b hb).2.1]; exact le_growMem him)
        (fun b hb => (hbM b hb).2.2.1)
        (fun b hb => by rw [(hbM b hb).2.1]; exact growMem_ne_zero him)
        (by rw [hsrad0]; exact foldl_maxStep_init _ _)
        (by rw [hsr]; simp [ConPoly.initPoly])
        hboundM hrun
      exact hinv.2
  · intro p s s' q h
    rw [ConPoly.put] at h
    rcases hloc : locate3 p q with _ | le
    · simp only [hloc] at h
      rw [Option.some_inj] at h
      rw [← h]
    · simp only [hloc] at h
      rcases hsp : serialPut s.core (some le) with _ | c
      · rw [hsp] at h
        simp at h
      · rw [hsp] at h
        simp only [Option.map_some', Option.some_inj] at h
        rw [← h]
        show s.max_radius ≤ (if s.max_radius < ConPoly.radius q then ConPoly.radius q
          else s.max_radius)
        split_ifs with h1
        · exact le_of_lt h1
        · exact le_refl _
  · intro p s t q
    rw [ConPoly.put_parallel]
    rcases locate3 p q with _ | le
    · rfl
    · rfl
  · intro s s' h
    obtain ⟨-, hrad, -⟩ := conPoly_reconcile_some h
    rw [hrad, ConPoly.mergedMax]
    exact foldl_maxStep_init _ _

/-- Witness for C8: after one serial insertion of radius `1/4` and a
reconciled parallel round inserting radius `3/4`, both stored radii are
bounded by the final `max_radius = 3/4`. -/
theorem C8_max_radius_witness :
    ConPoly.radius (((⟨⟨[⟨2, 2, [((0:ℤ), (1:ℚ)/2, (1:ℚ)/2, (1:ℚ)/4),
        (1, 1/2, 1/2, 3/4)]⟩], []⟩, 3/4, [0, 0]⟩ :
      ConPoly.State).core.blocks.getD 0 default).arr.getD 0 default) ≤
      (⟨⟨[⟨2, 2, [((0:ℤ), (1:ℚ)/2, (1:ℚ)/2, (1:ℚ)/4), (1, 1/2, 1/2, 3/4)]⟩], []⟩,
        3/4, [0, 0]⟩ : ConPoly.State).max_radius ∧
    ConPoly.radius (((⟨⟨[⟨2, 2, [((0:ℤ), (1:ℚ)/2, (1:ℚ)/2, (1:ℚ)/4),
        (1, 1/2, 1/2, 3/4)]⟩], []⟩, 3/4, [0, 0]⟩ :
      ConPoly.State).core.blocks.getD 0 default).arr.getD 1 default) ≤
      (⟨⟨[⟨2, 2, [((0:ℤ), (1:ℚ)/2, (1:ℚ)/2, (1:ℚ)/4), (1, 1/2, 1/2, 3/4)]⟩], []⟩,
        3/4, [0, 0]⟩ : ConPoly.State).max_radius := by
  have hdef3 : (default : Particle3) = (0, 0, 0, 0) := rfl
  have hg22 : growMem 2 2 = 2 := growMem_of_le (by norm_num) (by norm_num)
  have hrun : ConPoly.run (⟨0, 1, 0, 1, 1, 1, false, false⟩ : Params) 1 2
      [((0:ℤ), (1:ℚ)/2, (1:ℚ)/2, (1:ℚ)/4)]
      [[(1, ((1:ℤ), (1:ℚ)/2, (1:ℚ)/2, (3:ℚ)/4))]] =
      some ⟨⟨[⟨2, 2, [((0:ℤ), (1:ℚ)/2, (1:ℚ)/2, (1:ℚ)/4), (1, 1/2, 1/2, 3/4)]⟩], []⟩,
        3/4, [0, 0]⟩ := by
    norm_num [ConPoly.run, ConPoly.putList, ConPoly.put,
      ConPoly.put_reconcile_overflow, ConPoly.put_parallel_list,
      ConPoly.put_parallel, ConPoly.initPoly, ConPoly.radius, ConPoly.mergedMax,
      ConPoly.maxStep, serialPut, parallelPut, locate3, put_remap, step_int,
      Params.xsp, Params.ysp, Params.boxx, Params.boxy, Params.nxy, initState,
      reconcile, reconcileRecord, List.foldlM_cons, List.foldlM_nil,
      List.foldl_cons, List.foldl_nil, List.replicate, padTo,
      add_particle_memory, max_particle_memory, hg22, hdef3]
  have h := C8_max_radius.1 (⟨0, 1, 0, 1, 1, 1, false, false⟩ : Params) 1 2
    [((0:ℤ), (1:ℚ)/2, (1:ℚ)/2, (1:ℚ)/4)]
    [[(1, ((1:ℤ), (1:ℚ)/2, (1:ℚ)/2, (3:ℚ)/4))]]
    ⟨⟨[⟨2, 2, [((0:ℤ), (1:ℚ)/2, (1:ℚ)/2, (1:ℚ)/4), (1, 1/2, 1/2, 3/4)]⟩], []⟩,
      3/4, [0, 0]⟩
    (by decide) (by norm_num)
    (by
      intro round hr tq htq
      fin_cases hr
      fin_cases htq
      norm_num)
    hrun
  exact ⟨h 0 (by decide) 0 (by norm_num [blockCo]), h 0 (by decide) 1 (by norm_num [blockCo])⟩

/-- Claim C6: `find_voronoi_cell` returns NOT_FOUND exactly when the container
is empty or the query point is out of range on a non-periodic axis; on success
it returns a stored particle's position shifted by whole domain periods so
that it corresponds to the periodic image the query came from — the remap's
image offset plus the image shift chosen by the cell search, hence in
particular the unshifted stored position for a fully non-periodic container —
together with that particle's stored ID. -/
theorem C6_find_cell :
    (∀ (p : Params) (s : Con2.State) (x y : ℚ),
      Con2.find_voronoi_cell p s x y = none ↔
        (¬((p.x_prd = true ∨ (0 ≤ step_int ((x - p.ax) * p.xsp) ∧
            step_int ((x - p.ax) * p.xsp) < (p.nx : ℤ))) ∧
          (p.y_prd = true ∨ (0 ≤ step_int ((y - p.ay) * p.ysp) ∧
            step_int ((y - p.ay) * p.ysp) < (p.ny : ℤ)))) ∨
          ∀ b < s.blocks.length, blockCo s b = 0)) ∧
    (∀ (p : Params) (s : ConPoly.State) (x y : ℚ),
      ConPoly.find_voronoi_cell p s x y = none ↔
        (¬((p.x_prd = true ∨ (0 ≤ step_int ((x - p.ax) * p.xsp) ∧
            step_int ((x - p.ax) * p.xsp) < (p.nx : ℤ))) ∧
          (p.y_prd = true ∨ (0 ≤ step_int ((y - p.ay) * p.ysp) ∧
            step_int ((y - p.ay) * p.ysp) < (p.ny : ℤ)))) ∨
          ∀ b < s.core.blocks.length, blockCo s.core b = 0)) ∧
    (∀ (p : Params) (s : Con2.State) (x y rx ry : ℚ) (pid : ℤ), p.WF →
      Con2.find_voronoi_cell p s x y = some (rx, ry, pid) →
      ∃ ro : RemapOut, remap p x y = some ro ∧
        x = ro.x + ro.ai * (p.bx - p.ax) ∧ y = ro.y + ro.aj * (p.by' - p.ay) ∧
        ∃ (wij wl : ℕ) (ki kj : ℤ),
          computeFindCell p (fun e => (e.2.1, e.2.2)) (fun _ => 0) s ro.x ro.y =
            some (wij, wl, ki * p.nx, kj * p.ny) ∧
          ki ∈ imageShifts p.x_prd ∧ kj ∈ imageShifts p.y_prd ∧
          wij < s.blocks.length ∧ wl < blockCo s wij ∧
          rx = ((s.blocks.getD wij default).arr.getD wl default).2.1 +
            (ro.ai + ki) * (p.bx - p.ax) ∧
          ry = ((s.blocks.getD wij default).arr.getD wl default).2.2 +
            (ro.aj + kj) * (p.by' - p.ay) ∧
          pid = ((s.blocks.getD wij default).arr.getD wl default).1) ∧
    (∀ (p : Params) (s : ConPoly.State) (x y rx ry : ℚ) (pid : ℤ), p.WF →
      ConPoly.find_voronoi_cell p s x y = some (rx, ry, pid) →
      ∃ ro : RemapOut, remap p x y = some ro ∧
        x = ro.x + ro.ai * (p.bx - p.ax) ∧ y = ro.y + ro.aj * (p.by' - p.ay) ∧
        ∃ (wij wl : ℕ) (ki kj : ℤ),
          computeFindCell p (fun e => (e.2.1, e.2.2.1)) ConPoly.radius s.core
            ro.x ro.y = some (wij, wl, ki * p.nx, kj * p.ny) ∧
          ki ∈ imageShifts p.x_prd ∧ kj ∈ imageShifts p.y_prd ∧
          wij < s.core.blocks.length ∧ wl < blockCo s.core wij ∧
          rx = ((s.core.blocks.getD wij default).arr.getD wl default).2.1 +
            (ro.ai + ki) * (p.bx - p.ax) ∧
          ry = ((s.core.blocks.getD wij default).arr.getD wl default).2.2.1 +
            (ro.aj + kj) * (p.by' - p.ay) ∧
          pid = ((s.core.blocks.getD wij default).arr.getD wl default).1) := by
  have hremap : ∀ (p : Params) (x y : ℚ), remap p x y = none ↔
      ¬((p.x_prd = true ∨ (0 ≤ step_int ((x - p.ax) * p.xsp) ∧
          step_int ((x - p.ax) * p.xsp) < (p.nx : ℤ))) ∧
        (p.y_prd = true ∨ (0 ≤ step_int ((y - p.ay) * p.ysp) ∧
          step_int ((y - p.ay) * p.ysp) < (p.ny : ℤ)))) := by
    intro p x y
    rw [← remap_isSome_iff]
    exact Option.not_isSome_iff_eq_none.symm
  refine ⟨?_, ?_, ?_, ?_⟩
  · intro p s x y
    rw [Con2.find_voronoi_cell, find_none_iff]
    exact or_congr (hremap p x y) storedList_eq_nil
  · intro p s x y
    rw [ConPoly.find_voronoi_cell, find_none_iff]
    exact or_congr (hremap p x y) storedList_eq_nil
  · intro p s x y rx ry pid hwf h
    rw [Con2.find_voronoi_cell] at h
    obtain ⟨ro, a0, a1, a2, wij, wl, ki, kj, b0, b1, b2, b3, b4, b5, b6, b7⟩ :=
      find_some_exact hwf h
    exact ⟨ro, a0, a1, a2, wij, wl, ki, kj, b0, b1, b2, b3, b4, b5, b6, b7⟩
  · intro p s x y rx ry pid hwf h
    rw [ConPoly.find_voronoi_cell] at h
    obtain ⟨ro, a0, a1, a2, wij, wl, ki, kj, b0, b1, b2, b3, b4, b5, b6, b7⟩ :=
      find_some_exact hwf h
    exact ⟨ro, a0, a1, a2, wij, wl, ki, kj, b0, b1, b2, b3, b4, b5, b6, b7⟩

/-- Witness for C6: on the non-periodic unit square, the search in an empty
one-block container returns NOT_FOUND, and the search at `(1/4, 1/4)` in a
container holding particle `7` at `(1/2, 1/2)` finds it, the returned position
being the stored position shifted by exactly the query's (here zero) image
displacement. -/
theorem C6_find_cell_witness :
    Con2.find_voronoi_cell (⟨0, 1, 0, 1, 1, 1, false, false⟩ : Params)
      (⟨[⟨0, 1, [((0:ℤ), (0:ℚ), (0:ℚ))]⟩], []⟩ : Con2.State) (1/4) (1/4) = none ∧
    ConPoly.find_voronoi_cell (⟨0, 1, 0, 1, 1, 1, false, false⟩ : Params)
      (⟨⟨[⟨0, 1, [((0:ℤ), (0:ℚ), (0:ℚ), (0:ℚ))]⟩], []⟩, 0, [0]⟩ : ConPoly.State)
      (1/4) (1/4) = none ∧
    ∃ ro : RemapOut,
      remap (⟨0, 1, 0, 1, 1, 1, false, false⟩ : Params) (1/4) (1/4) = some ro ∧
      (1/4 : ℚ) = ro.x + ro.ai * ((1 : ℚ) - 0) ∧
      (1/4 : ℚ) = ro.y + ro.aj * ((1 : ℚ) - 0) ∧
      ∃ (wij wl : ℕ) (ki kj : ℤ),
        computeFindCell (⟨0, 1, 0, 1, 1, 1, false, false⟩ : Params)
          (fun e => (e.2.1, e.2.2)) (fun _ => 0)
          (⟨[⟨1, 1, [((7:ℤ), (1:ℚ)/2, (1:ℚ)/2)]⟩], []⟩ : Con2.State) ro.x ro.y =
          some (wij, wl, ki * 1, kj * 1) ∧
        ki ∈ imageShifts false ∧ kj ∈ imageShifts false ∧
        wij < (⟨[⟨1, 1, [((7:ℤ), (1:ℚ)/2, (1:ℚ)/2)]⟩], []⟩ :
          Con2.State).blocks.length ∧
        wl < blockCo (⟨[⟨1, 1, [((7:ℤ), (1:ℚ)/2, (1:ℚ)/2)]⟩], []⟩ : Con2.State) wij ∧
        (1/2 : ℚ) = (((⟨[⟨1, 1, [((7:ℤ), (1:ℚ)/2, (1:ℚ)/2)]⟩], []⟩ :
            Con2.State).blocks.getD wij default).arr.getD wl default).2.1 +
          (ro.ai + ki) * ((1 : ℚ) - 0) ∧
        (1/2 : ℚ) = (((⟨[⟨1, 1, [((7:ℤ), (1:ℚ)/2, (1:ℚ)/2)]⟩], []⟩ :
            Con2.State).blocks.getD wij default).arr.getD wl default).2.2 +
          (ro.aj + kj) * ((1 : ℚ) - 0) ∧
        (7 : ℤ) = (((⟨[⟨1, 1, [((7:ℤ), (1:ℚ)/2, (1:ℚ)/2)]⟩], []⟩ :
            Con2.State).blocks.getD wij default).arr.getD wl default).1 := by
  have hE2 := (C6_find_cell.1 (⟨0, 1, 0, 1, 1, 1, false, false⟩ : Params)
    (⟨[⟨0, 1, [((0:ℤ), (0:ℚ), (0:ℚ))]⟩], []⟩ : Con2.State) (1/4) (1/4)).mpr
    (Or.inr (by
      intro b hb
      simp only [List.length_singleton] at hb
      interval_cases b
      rfl))
  have hE3 := (C6_find_cell.2.1 (⟨0, 1, 0, 1, 1, 1, false, false⟩ : Params)
    (⟨⟨[⟨0, 1, [((0:ℤ), (0:ℚ), (0:ℚ), (0:ℚ))]⟩], []⟩, 0, [0]⟩ : ConPoly.State)
    (1/4) (1/4)).mpr
    (Or.inr (by
      intro b hb
      simp only [List.length_singleton] at hb
      interval_cases b
      rfl))
  have hfind : Con2.find_voronoi_cell (⟨0, 1, 0, 1, 1, 1, false, false⟩ : Params)
      (⟨[⟨1, 1, [((7:ℤ), (1:ℚ)/2, (1:ℚ)/2)]⟩], []⟩ : Con2.State) (1/4) (1/4) =
      some (1/2, 1/2, 7) := by
    norm_num [Con2.find_voronoi_cell, find_voronoi_cell, remap, step_int, step_div,
      computeFindCell, bestBy, storedList, imageShifts, Params.xsp, Params.ysp,
      Params.boxx, Params.boxy, List.flatMap_cons, List.flatMap_nil,
      List.range_succ, List.range_zero, List.foldl_cons, List.foldl_nil]
  have hS := C6_find_cell.2.2.1 (⟨0, 1, 0, 1, 1, 1, false, false⟩ : Params)
    (⟨[⟨1, 1, [((7:ℤ), (1:ℚ)/2, (1:ℚ)/2)]⟩], []⟩ : Con2.State)
    (1/4) (1/4) (1/2) (1/2) 7 (by decide) hfind
  exact ⟨hE2, hE3, hS⟩

end Claims

end Voro
